import Mathlib

/-!
# Bigram list policy of the version-4 dictionary (`ver4_bigram_list_policy.cpp`)

A shallow embedding of `latinime::Ver4BigramListPolicy`.  The policy's methods are
translated statement by statement; the mutable `BigramDictContent` they drive is
passed explicitly as a state.  The record codec (`BigramDictContent`), the terminal
position lookup table and `ForgettingCurveUtils` are collaborators of the policy whose
code is elsewhere; the codec is modelled from the specification and the other two are
fields of the policy value.

`while (hasNext)` loops take a fuel argument and return `none` when the fuel runs out,
so every statement about a result is accompanied by a statement that enough fuel
yields one.  C++ `int` values are `Int`; the only arithmetic of the policy on a value
it receives is `*outBigramCount += 1` in the sweep, which is kept in 32 bits
(`wrapInt32`); positions advance inside the codec.
-/

namespace latinime

/-- Modelled from the spec: the reserved Position sentinel meaning "no position"
(`NOT_A_DICT_POS` is declared in `defines.h`). It is negative, so it is never the
position of a record. -/
def NOT_A_DICT_POS : Int := -2147483648

/-- Modelled from the spec: the Probability sentinel meaning "not set"
(`NOT_A_PROBABILITY` is declared in `defines.h`). -/
def NOT_A_PROBABILITY : Int := -1

namespace Ver4DictConstants

/-- Modelled from the spec: the reserved TerminalId sentinel meaning "no terminal";
a record whose target is this value is a tombstone (declared in
`ver4_dict_constants.h`). -/
def NOT_A_TERMINAL_ID : Int := -1

end Ver4DictConstants

open Ver4DictConstants

/-- The value a C++ `int` (32 bits, two's complement) holds for the integer `x`:
`x` itself when it fits, `x` reduced modulo `2^32` into `[-2^31, 2^31)` otherwise. -/
def wrapInt32 (x : Int) : Int := (x + 2147483648) % 4294967296 - 2147483648

/-- The integer `x` is a value of a C++ `int`. -/
def IsInt32 (x : Int) : Prop := -2147483648 ≤ x ∧ x ≤ 2147483647

instance (x : Int) : Decidable (IsInt32 x) := by
  unfold IsInt32; exact inferInstance

/-- The on-the-wire record `{ probability, hasNext, target }` located at a position. -/
structure BigramEntry where
  probability : Int
  hasNext : Bool
  targetTerminalId : Int
deriving DecidableEq, Repr

/-- Modelled from the spec: the record codec `BigramDictContent` (section 6).
`heads` is the address table `getBigramListHeadPos`, `entries` the record stored at
each position of the content region (positions are counted in records, so advancing a
cursor past a record adds one), `tail` the first position never written, from which
fresh list regions are allocated.  `writable` and `creatable` say where a write, resp.
for which terminal an allocation, succeeds: they stand for storage failures. -/
structure BigramDictContent where
  heads : Int → Int
  entries : Int → BigramEntry
  tail : Nat
  writable : Int → Bool
  creatable : Int → Bool

namespace BigramDictContent

/-- Modelled from the spec: `getBigramListHeadPosition(terminalId) -> Position | NONE`. -/
def getBigramListHeadPos (c : BigramDictContent) (terminalId : Int) : Int :=
  c.heads terminalId

/-- Modelled from the spec: `createNewBigramList(terminalId) -> bool`, allocates a
fresh list region (at the tail of the content region) and registers it as the
terminal's head. -/
def createNewBigramList (c : BigramDictContent) (terminalId : Int) :
    Bool × BigramDictContent :=
  if c.creatable terminalId then
    (true, { c with heads := Function.update c.heads terminalId (c.tail : Int) })
  else (false, c)

/-- Modelled from the spec: `readBigramEntry(at) -> (probability, hasNext, target)`. -/
def getBigramEntry (c : BigramDictContent) (bigramEntryPos : Int) : BigramEntry :=
  c.entries bigramEntryPos

/-- Modelled from the spec: `readBigramEntryAndAdvance(cursor)`; the second component
is the cursor advanced past the record. -/
def getBigramEntryAndAdvancePosition (c : BigramDictContent) (bigramEntryPos : Int) :
    BigramEntry × Int :=
  (c.entries bigramEntryPos, bigramEntryPos + 1)

/-- Modelled from the spec: `writeBigramEntry(probability, hasNext, target, at) -> bool`.
A failing write leaves the content as it was. -/
def writeBigramEntry (c : BigramDictContent) (probability : Int) (hasNext : Bool)
    (targetTerminalId : Int) (entryWritingPos : Int) : Bool × BigramDictContent :=
  if c.writable entryWritingPos then
    (true, { c with
      entries := Function.update c.entries entryWritingPos
        ⟨probability, hasNext, targetTerminalId⟩
      tail := max c.tail (entryWritingPos + 1).toNat })
  else (false, c)

/-- Modelled from the spec: `writeBigramEntryAndAdvance(probability, hasNext, target,
cursor) -> bool`, writes and advances the cursor past the written record. -/
def writeBigramEntryAndAdvancePosition (c : BigramDictContent) (probability : Int)
    (hasNext : Bool) (targetTerminalId : Int) (entryWritingPos : Int) :
    Bool × BigramDictContent × Int :=
  let r := c.writeBigramEntry probability hasNext targetTerminalId entryWritingPos
  if r.1 then (true, r.2, entryWritingPos + 1) else (false, r.2, entryWritingPos)

/-- Modelled from the spec: `copyBigramList(sourceHead, destinationTail) -> bool`,
appends a copy of the source list's records, one after the other, from the destination
position on; stops with failure at the first record that cannot be written. -/
def copyBigramList : Nat → BigramDictContent → Int → Int → Option (Bool × BigramDictContent)
  | 0, _, _, _ => none
  | fuel + 1, c, readingPos, writingPos =>
    let r := c.getBigramEntryAndAdvancePosition readingPos
    let w := c.writeBigramEntryAndAdvancePosition r.1.probability r.1.hasNext
      r.1.targetTerminalId writingPos
    if w.1 then
      if r.1.hasNext then copyBigramList fuel w.2.1 r.2 w.2.2 else some (true, w.2.1)
    else some (false, w.2.1)

end BigramDictContent

/-- The policy object: the decay flag `mNeedsToDecayWhenUpdating`, the lookup
`mTerminalPositionLookupTable->getTerminalPtNodePosition` and the three
`ForgettingCurveUtils` functions it calls (`getEncodedProbabilityToSave` already
applied to `mHeaderPolicy`).  `mBigramDictContent` is the state threaded through the
methods. -/
structure Ver4BigramListPolicy where
  mNeedsToDecayWhenUpdating : Bool
  getTerminalPtNodePosition : Int → Int
  getUpdatedEncodedProbability : Int → Int → Int
  getEncodedProbabilityToSave : Int → Int
  isValidEncodedProbability : Int → Bool

namespace Ver4BigramListPolicy

/-- `Ver4BigramListPolicy::getUpdatedProbability`. -/
def getUpdatedProbability (p : Ver4BigramListPolicy) (originalProbability newProbability : Int) :
    Int :=
  if p.mNeedsToDecayWhenUpdating then
    p.getUpdatedEncodedProbability originalProbability newProbability
  else newProbability

/-- The `while (hasNext)` loop of `getEntryPosToUpdate`, entered with the current
`invalidEntryPos` and `readingPos`. -/
def getEntryPosToUpdateLoop (c : BigramDictContent) (targetTerminalIdToFind : Int) :
    Nat → Int → Int → Option Int
  | 0, _, _ => none
  | fuel + 1, invalidEntryPos, readingPos =>
    let entryPos := readingPos
    let r := c.getBigramEntryAndAdvancePosition readingPos
    if r.1.targetTerminalId = targetTerminalIdToFind then some entryPos
    else
      let invalidEntryPos1 :=
        if r.1.targetTerminalId = NOT_A_TERMINAL_ID then entryPos else invalidEntryPos
      if r.1.hasNext then
        getEntryPosToUpdateLoop c targetTerminalIdToFind fuel invalidEntryPos1 r.2
      else some invalidEntryPos1

/-- `Ver4BigramListPolicy::getEntryPosToUpdate`. -/
def getEntryPosToUpdate (_p : Ver4BigramListPolicy) (fuel : Nat) (c : BigramDictContent)
    (targetTerminalIdToFind bigramListPos : Int) : Option Int :=
  getEntryPosToUpdateLoop c targetTerminalIdToFind fuel NOT_A_DICT_POS bigramListPos

/-- `Ver4BigramListPolicy::getNextBigram` with a non-null `outBigramPos`: the result is
`(outBigramPos, outProbability, outHasNext, bigramEntryPos)`. -/
def getNextBigram (p : Ver4BigramListPolicy) (c : BigramDictContent) (bigramEntryPos : Int) :
    Int × Int × Bool × Int :=
  let r := c.getBigramEntryAndAdvancePosition bigramEntryPos
  (p.getTerminalPtNodePosition r.1.targetTerminalId, r.1.probability, r.1.hasNext, r.2)

/-- `Ver4BigramListPolicy::addNewEntry` with a non-null `outAddedNewEntry`: the result
is `(returned value, *outAddedNewEntry, content)`, or `none` when a loop runs out of
fuel. -/
def addNewEntry (p : Ver4BigramListPolicy) (fuel : Nat) (c : BigramDictContent)
    (terminalId newTargetTerminalId newProbability : Int) :
    Option (Bool × Bool × BigramDictContent) :=
  let bigramListPos := c.getBigramListHeadPos terminalId
  if bigramListPos = NOT_A_DICT_POS then
    let cr := c.createNewBigramList terminalId
    if !cr.1 then some (false, false, cr.2)
    else
      let probabilityToWrite := p.getUpdatedProbability NOT_A_PROBABILITY newProbability
      let writingPos := cr.2.getBigramListHeadPos terminalId
      let w := cr.2.writeBigramEntry probabilityToWrite false newTargetTerminalId writingPos
      if !w.1 then some (false, false, w.2)
      else some (true, true, w.2)
  else
    match p.getEntryPosToUpdate fuel c newTargetTerminalId bigramListPos with
    | none => none
    | some entryPosToUpdate =>
      if entryPosToUpdate ≠ NOT_A_DICT_POS then
        let e := c.getBigramEntry entryPosToUpdate
        let probabilityToWrite := p.getUpdatedProbability e.probability newProbability
        let added := decide (e.targetTerminalId = NOT_A_TERMINAL_ID)
        let w := c.writeBigramEntry probabilityToWrite e.hasNext newTargetTerminalId
          entryPosToUpdate
        some (w.1, added, w.2)
      else
        let cr := c.createNewBigramList terminalId
        if !cr.1 then some (false, false, cr.2)
        else
          let writingPos := cr.2.getBigramListHeadPos terminalId
          let probabilityToWrite := p.getUpdatedProbability NOT_A_PROBABILITY newProbability
          let w := cr.2.writeBigramEntryAndAdvancePosition probabilityToWrite true
            newTargetTerminalId writingPos
          if !w.1 then some (false, false, w.2.1)
          else
            match w.2.1.copyBigramList fuel bigramListPos w.2.2 with
            | none => none
            | some cp => some (cp.1, true, cp.2)

/-- `Ver4BigramListPolicy::removeEntry`: the result is `(returned value, content)`. -/
def removeEntry (p : Ver4BigramListPolicy) (fuel : Nat) (c : BigramDictContent)
    (terminalId targetTerminalId : Int) : Option (Bool × BigramDictContent) :=
  let bigramListPos := c.getBigramListHeadPos terminalId
  if bigramListPos = NOT_A_DICT_POS then some (false, c)
  else
    match p.getEntryPosToUpdate fuel c targetTerminalId bigramListPos with
    | none => none
    | some entryPosToUpdate =>
      if entryPosToUpdate = NOT_A_DICT_POS then some (false, c)
      else
        let e := c.getBigramEntry entryPosToUpdate
        if targetTerminalId ≠ e.targetTerminalId then some (false, c)
        else
          some (c.writeBigramEntry e.probability e.hasNext NOT_A_TERMINAL_ID entryPosToUpdate)

/-- The `while (hasNext)` loop of `updateAllBigramEntriesAndDeleteUselessEntries`,
entered with the current content, `*outBigramCount` and `readingPos`; the result is
`(returned value, *outBigramCount, content)`.  `*outBigramCount += 1` is an addition of
C++ `int`: the sum is kept in 32 bits. -/
def updateAllLoop (p : Ver4BigramListPolicy) :
    Nat → BigramDictContent → Int → Int → Option (Bool × Int × BigramDictContent)
  | 0, _, _, _ => none
  | fuel + 1, c, outBigramCount, readingPos =>
    let entryPos := readingPos
    let r := c.getBigramEntryAndAdvancePosition readingPos
    let probability := r.1.probability
    let hasNext := r.1.hasNext
    let targetTerminalId := r.1.targetTerminalId
    let next := fun (c1 : BigramDictContent) (count : Int) =>
      if hasNext then updateAllLoop p fuel c1 count r.2 else some (true, count, c1)
    if targetTerminalId = NOT_A_TERMINAL_ID then next c outBigramCount
    else
      let targetPtNodePos := p.getTerminalPtNodePosition targetTerminalId
      if targetPtNodePos = NOT_A_DICT_POS then
        let w := c.writeBigramEntry probability hasNext NOT_A_TERMINAL_ID entryPos
        if !w.1 then some (false, outBigramCount, w.2) else next w.2 outBigramCount
      else if p.mNeedsToDecayWhenUpdating then
        let probability1 := p.getEncodedProbabilityToSave probability
        if p.isValidEncodedProbability probability1 then
          let w := c.writeBigramEntry probability1 hasNext targetTerminalId entryPos
          if !w.1 then some (false, outBigramCount, w.2) else next w.2 (wrapInt32 (outBigramCount + 1))
        else
          let w := c.writeBigramEntry probability1 hasNext NOT_A_TERMINAL_ID entryPos
          if !w.1 then some (false, outBigramCount, w.2) else next w.2 outBigramCount
      else next c (wrapInt32 (outBigramCount + 1))

/-- `Ver4BigramListPolicy::updateAllBigramEntriesAndDeleteUselessEntries`: the result
is `(returned value, *outBigramCount, content)`. -/
def updateAllBigramEntriesAndDeleteUselessEntries (p : Ver4BigramListPolicy) (fuel : Nat)
    (c : BigramDictContent) (terminalId : Int) (outBigramCount : Int) :
    Option (Bool × Int × BigramDictContent) :=
  let bigramListPos := c.getBigramListHeadPos terminalId
  if bigramListPos = NOT_A_DICT_POS then some (true, outBigramCount, c)
  else updateAllLoop p fuel c outBigramCount bigramListPos

/-- The `while (hasNext)` loop of `getBigramEntryConut`, entered with the current
`bigramCount` and `readingPos`. -/
def getBigramEntryConutLoop (c : BigramDictContent) : Nat → Int → Int → Option Int
  | 0, _, _ => none
  | fuel + 1, bigramCount, readingPos =>
    let r := c.getBigramEntryAndAdvancePosition readingPos
    let bigramCount1 :=
      if r.1.targetTerminalId ≠ NOT_A_TERMINAL_ID then bigramCount + 1 else bigramCount
    if r.1.hasNext then getBigramEntryConutLoop c fuel bigramCount1 r.2
    else some bigramCount1

/-- `Ver4BigramListPolicy::getBigramEntryConut`. -/
def getBigramEntryConut (_p : Ver4BigramListPolicy) (fuel : Nat) (c : BigramDictContent)
    (terminalId : Int) : Option Int :=
  let bigramListPos := c.getBigramListHeadPos terminalId
  if bigramListPos = NOT_A_DICT_POS then some 0
  else getBigramEntryConutLoop c fuel 0 bigramListPos

end Ver4BigramListPolicy

/-! ## Specification vocabulary -/

/-- An entry is live when its target is not the tombstone sentinel. -/
def BigramEntry.IsLive (e : BigramEntry) : Prop := e.targetTerminalId ≠ NOT_A_TERMINAL_ID

instance (e : BigramEntry) : Decidable e.IsLive := by
  unfold BigramEntry.IsLive; exact inferInstance

/-- The records stored at `pos`, `pos + 1`, ... are, in this order, `es`. -/
def Cells (entries : Int → BigramEntry) : Int → List BigramEntry → Prop
  | _, [] => True
  | pos, e :: es => entries pos = e ∧ Cells entries (pos + 1) es

/-- The `hasNext` discipline of a list: it is not empty, every record but the last has
`hasNext = true` and the last has `hasNext = false`. -/
def Linked : List BigramEntry → Prop
  | [] => False
  | [e] => e.hasNext = false
  | e :: e' :: es => e.hasNext = true ∧ Linked (e' :: es)

/-- The chain starting at `pos` is the well-formed list `es`. -/
def IsBigramList (entries : Int → BigramEntry) (pos : Int) (es : List BigramEntry) : Prop :=
  Cells entries pos es ∧ Linked es

/-- Terminal `terminalId` has a list head and the chain from it is the well-formed
list `es`. -/
def HasList (c : BigramDictContent) (terminalId : Int) (es : List BigramEntry) : Prop :=
  c.heads terminalId ≠ NOT_A_DICT_POS ∧ IsBigramList c.entries (c.heads terminalId) es

/-- The list `es` of `terminalId` lies inside the written part `[0, tail)` of the
content region. -/
def InRegion (c : BigramDictContent) (terminalId : Int) (es : List BigramEntry) : Prop :=
  0 ≤ c.heads terminalId ∧ c.heads terminalId + es.length ≤ c.tail

/-- Number of live entries of a list, by a full scan. -/
def liveCount (es : List BigramEntry) : Int :=
  ((es.filter (fun e => decide e.IsLive)).length : Int)

/-- What one iteration of the sweep makes of the entry it reads. -/
def Ver4BigramListPolicy.sweptEntry (p : Ver4BigramListPolicy) (e : BigramEntry) : BigramEntry :=
  if e.targetTerminalId = NOT_A_TERMINAL_ID then e
  else if p.getTerminalPtNodePosition e.targetTerminalId = NOT_A_DICT_POS then
    ⟨e.probability, e.hasNext, NOT_A_TERMINAL_ID⟩
  else if p.mNeedsToDecayWhenUpdating then
    if p.isValidEncodedProbability (p.getEncodedProbabilityToSave e.probability) then
      ⟨p.getEncodedProbabilityToSave e.probability, e.hasNext, e.targetTerminalId⟩
    else ⟨p.getEncodedProbabilityToSave e.probability, e.hasNext, NOT_A_TERMINAL_ID⟩
  else e

/-- Whether the sweep, reading the entry `e`, writes an entry back: it does for a live
entry whose target does not resolve, and in decay mode for every live entry. -/
def Ver4BigramListPolicy.sweepWrites (p : Ver4BigramListPolicy) (e : BigramEntry) : Bool :=
  decide (e.targetTerminalId ≠ NOT_A_TERMINAL_ID) &&
    (decide (p.getTerminalPtNodePosition e.targetTerminalId = NOT_A_DICT_POS) ||
      p.mNeedsToDecayWhenUpdating)

/-- In the list `l ++ x :: r`, the entry `x` is the one `getEntryPosToUpdate` selects
for target `X`: the first entry with target `X`, or, when no entry has target `X`, the
last tombstone. -/
def IsSlot (X : Int) (l : List BigramEntry) (x : BigramEntry) (r : List BigramEntry) : Prop :=
  (x.targetTerminalId = X ∧ ∀ e ∈ l, e.targetTerminalId ≠ X) ∨
  (x.targetTerminalId = NOT_A_TERMINAL_ID ∧ (∀ e ∈ l ++ x :: r, e.targetTerminalId ≠ X) ∧
    ∀ e ∈ r, e.IsLive)

/-- The targets of the live entries of a list, in chain order. -/
def liveTargets (es : List BigramEntry) : List Int :=
  (es.filter (fun e => decide e.IsLive)).map BigramEntry.targetTerminalId

/-- No two live entries of the list have the same target. -/
def NoDupLive (es : List BigramEntry) : Prop := (liveTargets es).Nodup

/-- Store invariant used for sequences of inserts: `L t` is the list of every terminal
`t` that has a head, each list is well formed, lies in the written region and has no
duplicate live target, and the lists of two terminals occupy disjoint positions. -/
def StoreInv (c : BigramDictContent) (L : Int → List BigramEntry) : Prop :=
  (∀ t, c.heads t ≠ NOT_A_DICT_POS →
    HasList c t (L t) ∧ InRegion c t (L t) ∧ NoDupLive (L t)) ∧
  (∀ t t', t ≠ t' → c.heads t ≠ NOT_A_DICT_POS → c.heads t' ≠ NOT_A_DICT_POS →
    c.heads t + (L t).length ≤ c.heads t' ∨ c.heads t' + (L t').length ≤ c.heads t)

/-- Every terminal that has a list head has a well-formed list: a non-empty finite
chain in which every entry but the last has `hasNext = true` and the last has
`hasNext = false`. -/
def WellFormedStore (c : BigramDictContent) : Prop :=
  ∀ t, c.heads t ≠ NOT_A_DICT_POS → ∃ es, HasList c t es

/-- A sequence of `addNewEntry` calls, each given as (policy, fuel, terminalId, target,
probability), all of which return true; `none` when one of them does not. -/
def addNewEntries : BigramDictContent →
    List (Ver4BigramListPolicy × Nat × Int × Int × Int) → Option BigramDictContent
  | c, [] => some c
  | c, (p, fuel, terminalId, target, probability) :: calls =>
    match p.addNewEntry fuel c terminalId target probability with
    | some (true, _, c') => addNewEntries c' calls
    | _ => none

/-! ## Example values -/

/-- A policy whose resolver knows every terminal but 7, whose insert-time merge adds
the observed probability to the prior, and whose maintenance decay subtracts 1, a
probability being valid when positive. -/
def examplePolicy (decay : Bool) : Ver4BigramListPolicy where
  mNeedsToDecayWhenUpdating := decay
  getTerminalPtNodePosition := fun t => if t = 7 then NOT_A_DICT_POS else 100 + t
  getUpdatedEncodedProbability := fun prior observed => prior + observed
  getEncodedProbabilityToSave := fun probability => probability - 1
  isValidEncodedProbability := fun probability => decide (0 < probability)

/-- A content region holding nothing. -/
def emptyContent : BigramDictContent where
  heads := fun _ => NOT_A_DICT_POS
  entries := fun _ => ⟨0, false, NOT_A_TERMINAL_ID⟩
  tail := 0
  writable := fun _ => true
  creatable := fun _ => true

/-- Terminal 5 has the list `(80, 9) (30, tombstone) (1, 7)` at positions 0, 1, 2. -/
def exampleContent : BigramDictContent where
  heads := fun t => if t = 5 then 0 else NOT_A_DICT_POS
  entries := fun q =>
    if q = 0 then ⟨80, true, 9⟩
    else if q = 1 then ⟨30, true, NOT_A_TERMINAL_ID⟩
    else if q = 2 then ⟨1, false, 7⟩
    else ⟨0, false, NOT_A_TERMINAL_ID⟩
  tail := 3
  writable := fun _ => true
  creatable := fun _ => true

/-- The list of terminal 5 in `exampleContent`. -/
def exampleList : List BigramEntry :=
  [⟨80, true, 9⟩, ⟨30, true, NOT_A_TERMINAL_ID⟩, ⟨1, false, 7⟩]

/-- Terminal 5 has the list `(80, 9) (1, 7)`, without tombstone, at positions 0, 1. -/
def fullContent : BigramDictContent where
  heads := fun t => if t = 5 then 0 else NOT_A_DICT_POS
  entries := fun q =>
    if q = 0 then ⟨80, true, 9⟩
    else if q = 1 then ⟨1, false, 7⟩
    else ⟨0, false, NOT_A_TERMINAL_ID⟩
  tail := 2
  writable := fun _ => true
  creatable := fun _ => true

/-- The list of terminal 5 in `fullContent`. -/
def fullList : List BigramEntry := [⟨80, true, 9⟩, ⟨1, false, 7⟩]

/-- Four inserts: a first entry for terminal 5, a second target for it (the list
grows), the first target again (updated in place), and a first entry for terminal 6. -/
def exampleCalls : List (Ver4BigramListPolicy × Nat × Int × Int × Int) :=
  [(examplePolicy false, 2, 5, 9, 80), (examplePolicy true, 2, 5, 11, 10),
    (examplePolicy false, 2, 5, 9, 40), (examplePolicy true, 2, 6, 9, 7)]

/-- Terminal 5 has the list `(80, tombstone) (30, tombstone) (1, 7)` at positions 0, 1,
2: two tombstones, the first at position 0 and the last at position 1. -/
def twoTombstones : BigramDictContent where
  heads := fun t => if t = 5 then 0 else NOT_A_DICT_POS
  entries := fun q =>
    if q = 0 then ⟨80, true, NOT_A_TERMINAL_ID⟩
    else if q = 1 then ⟨30, true, NOT_A_TERMINAL_ID⟩
    else if q = 2 then ⟨1, false, 7⟩
    else ⟨0, false, NOT_A_TERMINAL_ID⟩
  tail := 3
  writable := fun _ => true
  creatable := fun _ => true

/-- The list of terminal 5 in `twoTombstones`. -/
def twoTombstonesList : List BigramEntry :=
  [⟨80, true, NOT_A_TERMINAL_ID⟩, ⟨30, true, NOT_A_TERMINAL_ID⟩, ⟨1, false, 7⟩]

/-- The content `exampleContent` with a codec that cannot write at position 1, the
position of the tombstone of terminal 5. -/
def unwritableSlot : BigramDictContent :=
  { exampleContent with writable := fun q => decide (q ≠ 1) }

/-- The content `fullContent` (tail 2) with a codec that cannot write at position 3,
the first position a copy of the list of terminal 5 behind a new head goes to. -/
def unwritableCopy : BigramDictContent :=
  { fullContent with writable := fun q => decide (q ≠ 3) }

/-- The empty content with a codec that cannot allocate a list. -/
def uncreatable : BigramDictContent :=
  { emptyContent with creatable := fun _ => false }

/-! ## Chains -/

theorem NOT_A_DICT_POS_neg : NOT_A_DICT_POS < 0 := by decide

theorem Linked.ne_nil {es : List BigramEntry} (h : Linked es) : es ≠ [] := by
  cases es with
  | nil => exact absurd h (by simp [Linked])
  | cons e es => simp

theorem linked_cons (e : BigramEntry) (es : List BigramEntry) :
    Linked (e :: es) ↔ (e.hasNext = true ∧ Linked es) ∨ (e.hasNext = false ∧ es = []) := by
  cases es with
  | nil => simp [Linked]
  | cons e' es => simp [Linked]

theorem linked_append (l : List BigramEntry) (x : BigramEntry) (r : List BigramEntry) :
    Linked (l ++ x :: r) ↔ (∀ e ∈ l, e.hasNext = true) ∧ Linked (x :: r) := by
  induction l with
  | nil => simp
  | cons a l ih =>
    rw [List.cons_append, linked_cons, ih]
    simp only [List.mem_cons, forall_eq_or_imp]
    constructor
    · rintro (⟨h1, h2, h3⟩ | ⟨_, h2⟩)
      · exact ⟨⟨h1, h2⟩, h3⟩
      · simp at h2
    · rintro ⟨⟨h1, h2⟩, h3⟩
      exact Or.inl ⟨h1, h2, h3⟩

theorem linked_replace {x y : BigramEntry} (r : List BigramEntry) (h : y.hasNext = x.hasNext) :
    Linked (y :: r) ↔ Linked (x :: r) := by
  rw [linked_cons, linked_cons, h]

theorem cells_append (entries : Int → BigramEntry) (pos : Int) (l r : List BigramEntry) :
    Cells entries pos (l ++ r) ↔ Cells entries pos l ∧ Cells entries (pos + l.length) r := by
  induction l generalizing pos with
  | nil => simp [Cells]
  | cons a l ih =>
    show (entries pos = a ∧ Cells entries (pos + 1) (l ++ r)) ↔
      (entries pos = a ∧ Cells entries (pos + 1) l) ∧ Cells entries (pos + (a :: l).length) r
    rw [ih (pos + 1), List.length_cons, Nat.cast_add, Nat.cast_one,
      show pos + 1 + (l.length : Int) = pos + ((l.length : Int) + 1) by ring]
    tauto

theorem cells_congr {f g : Int → BigramEntry} {pos : Int} {es : List BigramEntry}
    (h : ∀ q, pos ≤ q → q < pos + es.length → g q = f q) (hc : Cells f pos es) :
    Cells g pos es := by
  induction es generalizing pos with
  | nil => trivial
  | cons e es ih =>
    obtain ⟨h1, h2⟩ := hc
    refine ⟨?_, ih ?_ h2⟩
    · rw [h pos le_rfl (by simp only [List.length_cons, Nat.cast_add, Nat.cast_one]; omega), h1]
    · intro q hq1 hq2
      exact h q (by omega) (by simp only [List.length_cons, Nat.cast_add, Nat.cast_one]; omega)

theorem cells_unique {f : Int → BigramEntry} {pos : Int} {es es' : List BigramEntry}
    (h : Cells f pos es) (h' : Cells f pos es') (hl : Linked es) (hl' : Linked es') :
    es = es' := by
  induction es generalizing pos es' with
  | nil => exact absurd hl (by simp [Linked])
  | cons e es ih =>
    cases es' with
    | nil => exact absurd hl' (by simp [Linked])
    | cons e' es' =>
      obtain ⟨h1, h2⟩ := h
      obtain ⟨h1', h2'⟩ := h'
      have he : e = e' := h1.symm.trans h1'
      subst he
      rw [linked_cons] at hl hl'
      rcases hl with ⟨a, b⟩ | ⟨a, b⟩ <;> rcases hl' with ⟨a', b'⟩ | ⟨a', b'⟩
      · rw [ih h2 h2' b b']
      · rw [a] at a'; cases a'
      · rw [a] at a'; cases a'
      · rw [b, b']

/-! ## Counting -/

theorem liveCount_cons (e : BigramEntry) (es : List BigramEntry) :
    liveCount (e :: es) = (if e.targetTerminalId ≠ NOT_A_TERMINAL_ID then 1 else 0) + liveCount es := by
  unfold liveCount BigramEntry.IsLive
  by_cases h : e.targetTerminalId = NOT_A_TERMINAL_ID
  · simp [List.filter_cons, h]
  · simp [List.filter_cons, h]; ring

theorem liveCount_nil : liveCount [] = 0 := rfl

theorem wrapInt32_isInt32 (x : Int) : IsInt32 (wrapInt32 x) := by
  unfold IsInt32 wrapInt32
  omega

theorem wrapInt32_of_isInt32 {x : Int} (h : IsInt32 x) : wrapInt32 x = x := by
  unfold IsInt32 at h
  unfold wrapInt32
  omega

theorem wrapInt32_add (a m : Int) : wrapInt32 (wrapInt32 a + m) = wrapInt32 (a + m) := by
  unfold wrapInt32
  omega

theorem liveCount_nonneg (es : List BigramEntry) : 0 ≤ liveCount es := by
  unfold liveCount
  exact Int.natCast_nonneg _

theorem getBigramEntryConutLoop_spec (c : BigramDictContent) (es : List BigramEntry) :
    ∀ (pos : Int) (fuel : Nat) (k : Int), Cells c.entries pos es → Linked es →
      es.length ≤ fuel →
      Ver4BigramListPolicy.getBigramEntryConutLoop c fuel k pos = some (k + liveCount es) := by
  induction es with
  | nil => intro _ _ _ _ hl; exact absurd hl (by simp [Linked])
  | cons e es ih =>
    intro pos fuel k hc hl hf
    obtain ⟨h1, h2⟩ := hc
    cases fuel with
    | zero => simp at hf
    | succ fuel =>
      simp only [List.length_cons, Nat.add_le_add_iff_right] at hf
      rw [linked_cons] at hl
      simp only [Ver4BigramListPolicy.getBigramEntryConutLoop,
        BigramDictContent.getBigramEntryAndAdvancePosition, h1, liveCount_cons]
      rcases hl with ⟨a, b⟩ | ⟨a, b⟩
      · rw [if_pos a, ih (pos + 1) fuel _ h2 b hf]
        congr 1; split <;> ring
      · subst b
        rw [if_neg (by simp [a]), liveCount_nil]
        congr 1; split <;> ring

/-! ## Finding the slot to update -/

theorem exists_first_target {X : Int} {es : List BigramEntry}
    (h : ∃ e ∈ es, e.targetTerminalId = X) :
    ∃ l x r, es = l ++ x :: r ∧ x.targetTerminalId = X ∧ ∀ e ∈ l, e.targetTerminalId ≠ X := by
  induction es with
  | nil => simp at h
  | cons a es ih =>
    by_cases ha : a.targetTerminalId = X
    · exact ⟨[], a, es, rfl, ha, by simp⟩
    · have h' : ∃ e ∈ es, e.targetTerminalId = X := by
        obtain ⟨e, he, hx⟩ := h
        rcases List.mem_cons.1 he with rfl | he
        · exact absurd hx ha
        · exact ⟨e, he, hx⟩
      obtain ⟨l, x, r, rfl, hx, hl⟩ := ih h'
      refine ⟨a :: l, x, r, rfl, hx, ?_⟩
      intro e he
      rcases List.mem_cons.1 he with rfl | he
      · exact ha
      · exact hl e he

theorem exists_last_tombstone (es : List BigramEntry) :
    (∀ e ∈ es, e.IsLive) ∨
      ∃ l x r, es = l ++ x :: r ∧ x.targetTerminalId = NOT_A_TERMINAL_ID ∧ ∀ e ∈ r, e.IsLive := by
  induction es with
  | nil => left; simp
  | cons a es ih =>
    rcases ih with h | ⟨l, x, r, rfl, hx, hr⟩
    · by_cases ha : a.targetTerminalId = NOT_A_TERMINAL_ID
      · exact Or.inr ⟨[], a, es, rfl, ha, h⟩
      · left
        intro e he
        rcases List.mem_cons.1 he with rfl | he
        · exact ha
        · exact h e he
    · exact Or.inr ⟨a :: l, x, r, rfl, hx, hr⟩

theorem getEntryPosToUpdateLoop_match (c : BigramDictContent) (X : Int) (l : List BigramEntry)
    (x : BigramEntry) (r : List BigramEntry) :
    ∀ (pos inv : Int) (fuel : Nat), Cells c.entries pos (l ++ x :: r) →
      (∀ e ∈ l, e.hasNext = true) → (∀ e ∈ l, e.targetTerminalId ≠ X) →
      x.targetTerminalId = X → l.length < fuel →
      Ver4BigramListPolicy.getEntryPosToUpdateLoop c X fuel inv pos = some (pos + l.length) := by
  induction l with
  | nil =>
    intro pos inv fuel hc _ _ hx hf
    obtain ⟨h1, _⟩ := hc
    cases fuel with
    | zero => simp at hf
    | succ fuel =>
      simp [Ver4BigramListPolicy.getEntryPosToUpdateLoop,
        BigramDictContent.getBigramEntryAndAdvancePosition, h1, hx]
  | cons a l ih =>
    intro pos inv fuel hc hn ht hx hf
    obtain ⟨h1, h2⟩ := hc
    cases fuel with
    | zero => simp at hf
    | succ fuel =>
      simp only [List.length_cons, Nat.add_lt_add_iff_right] at hf
      have hna := hn a (List.mem_cons_self _ _)
      have hta := ht a (List.mem_cons_self _ _)
      simp only [Ver4BigramListPolicy.getEntryPosToUpdateLoop,
        BigramDictContent.getBigramEntryAndAdvancePosition, h1, hna, if_neg hta, if_true]
      rw [ih (pos + 1) _ fuel h2 (fun e he => hn e (List.mem_cons_of_mem _ he))
        (fun e he => ht e (List.mem_cons_of_mem _ he)) hx hf]
      simp only [List.length_cons, Nat.cast_add, Nat.cast_one]
      congr 1; ring

theorem getEntryPosToUpdateLoop_live (c : BigramDictContent) (X : Int) (es : List BigramEntry) :
    ∀ (pos inv : Int) (fuel : Nat), Cells c.entries pos es → Linked es →
      (∀ e ∈ es, e.targetTerminalId ≠ X) → (∀ e ∈ es, e.IsLive) → es.length ≤ fuel →
      Ver4BigramListPolicy.getEntryPosToUpdateLoop c X fuel inv pos = some inv := by
  induction es with
  | nil => intro _ _ _ _ hl; exact absurd hl (by simp [Linked])
  | cons a es ih =>
    intro pos inv fuel hc hl ht hv hf
    obtain ⟨h1, h2⟩ := hc
    cases fuel with
    | zero => simp at hf
    | succ fuel =>
      simp only [List.length_cons, Nat.add_le_add_iff_right] at hf
      have hta := ht a (List.mem_cons_self _ _)
      have hva : a.targetTerminalId ≠ NOT_A_TERMINAL_ID := hv a (List.mem_cons_self _ _)
      simp only [Ver4BigramListPolicy.getEntryPosToUpdateLoop,
        BigramDictContent.getBigramEntryAndAdvancePosition, h1, if_neg hta, if_neg hva]
      rw [linked_cons] at hl
      rcases hl with ⟨ha, hl⟩ | ⟨ha, rfl⟩
      · rw [if_pos ha]
        exact ih (pos + 1) inv fuel h2 hl (fun e he => ht e (List.mem_cons_of_mem _ he))
          (fun e he => hv e (List.mem_cons_of_mem _ he)) hf
      · rw [if_neg (by simp [ha])]

theorem getEntryPosToUpdateLoop_tombstone (c : BigramDictContent) (X : Int)
    (l : List BigramEntry) (x : BigramEntry) (r : List BigramEntry) :
    ∀ (pos inv : Int) (fuel : Nat), Cells c.entries pos (l ++ x :: r) → Linked (l ++ x :: r) →
      (∀ e ∈ l ++ x :: r, e.targetTerminalId ≠ X) → x.targetTerminalId = NOT_A_TERMINAL_ID →
      (∀ e ∈ r, e.IsLive) → (l ++ x :: r).length ≤ fuel →
      Ver4BigramListPolicy.getEntryPosToUpdateLoop c X fuel inv pos = some (pos + l.length) := by
  induction l with
  | nil =>
    intro pos inv fuel hc hl ht hx hr hf
    obtain ⟨h1, h2⟩ := hc
    cases fuel with
    | zero => simp at hf
    | succ fuel =>
      simp only [List.nil_append, List.length_cons, Nat.add_le_add_iff_right] at hf
      have htx := ht x (by simp)
      simp only [Ver4BigramListPolicy.getEntryPosToUpdateLoop,
        BigramDictContent.getBigramEntryAndAdvancePosition, h1, if_neg htx, if_pos hx]
      rw [List.nil_append, linked_cons] at hl
      rcases hl with ⟨ha, hl⟩ | ⟨ha, rfl⟩
      · rw [if_pos ha]
        rw [getEntryPosToUpdateLoop_live c X r (pos + 1) pos fuel h2 hl
          (fun e he => ht e (by simp [he])) hr hf]
        simp
      · rw [if_neg (by simp [ha])]; simp
  | cons a l ih =>
    intro pos inv fuel hc hl ht hx hr hf
    obtain ⟨h1, h2⟩ := hc
    cases fuel with
    | zero => simp at hf
    | succ fuel =>
      simp only [List.cons_append, List.length_cons, Nat.add_le_add_iff_right] at hf
      have hta := ht a (by simp)
      rw [List.cons_append, linked_cons] at hl
      rcases hl with ⟨ha, hl⟩ | ⟨_, hnil⟩
      · simp only [Ver4BigramListPolicy.getEntryPosToUpdateLoop,
          BigramDictContent.getBigramEntryAndAdvancePosition, h1, if_neg hta, if_pos ha]
        rw [ih (pos + 1) _ fuel h2 hl (fun e he => ht e (List.mem_cons_of_mem _ he)) hx hr hf]
        simp only [List.length_cons, Nat.cast_add, Nat.cast_one]
        congr 1; ring
      · simp at hnil

/-! ## Writes -/

theorem cells_update_outside {f : Int → BigramEntry} {pos q : Int} {es : List BigramEntry}
    (y : BigramEntry) (hq : q < pos ∨ pos + es.length ≤ q) (hc : Cells f pos es) :
    Cells (Function.update f q y) pos es := by
  refine cells_congr (fun q' h1 h2 => ?_) hc
  rw [Function.update_noteq]
  omega

theorem cells_update_mid {f : Int → BigramEntry} {pos : Int} {l : List BigramEntry}
    {x : BigramEntry} {r : List BigramEntry} (y : BigramEntry)
    (hc : Cells f pos (l ++ x :: r)) :
    Cells (Function.update f (pos + l.length) y) pos (l ++ y :: r) := by
  rw [cells_append] at hc ⊢
  obtain ⟨h1, _, h3⟩ := hc
  refine ⟨cells_update_outside y (Or.inr le_rfl) h1, Function.update_same _ _ _, ?_⟩
  exact cells_update_outside y (Or.inl (by omega)) h3

/-! ## The maintenance sweep -/

theorem sweptEntry_hasNext (p : Ver4BigramListPolicy) (e : BigramEntry) :
    (p.sweptEntry e).hasNext = e.hasNext := by
  unfold Ver4BigramListPolicy.sweptEntry
  split_ifs <;> rfl

/-- One iteration of the sweep loop: either a write fails and the sweep returns false,
or the entry read at `readingPos` is replaced by its swept version, it is counted iff
the swept version is live, and the loop goes on. -/
theorem updateAllLoop_step (p : Ver4BigramListPolicy) (fuel : Nat) (c : BigramDictContent)
    (cnt pos : Int) :
    (∃ r, p.updateAllLoop (fuel + 1) c cnt pos = some (false, r)) ∨
    ∃ c1 : BigramDictContent, c1.heads = c.heads ∧
      c1.entries = Function.update c.entries pos (p.sweptEntry (c.entries pos)) ∧
      c1.writable = c.writable ∧ c1.creatable = c.creatable ∧ c.tail ≤ c1.tail ∧
      (c.tail < c1.tail → (c1.tail : Int) = pos + 1) ∧
      p.updateAllLoop (fuel + 1) c cnt pos =
        if (c.entries pos).hasNext then
          p.updateAllLoop fuel c1
            ((if (p.sweptEntry (c.entries pos)).targetTerminalId ≠ NOT_A_TERMINAL_ID
              then wrapInt32 (cnt + 1) else cnt)) (pos + 1)
        else some (true,
          (if (p.sweptEntry (c.entries pos)).targetTerminalId ≠ NOT_A_TERMINAL_ID
            then wrapInt32 (cnt + 1) else cnt), c1) := by
  by_cases h1 : (c.entries pos).targetTerminalId = NOT_A_TERMINAL_ID
  · right
    refine ⟨c, rfl, ?_, rfl, rfl, le_rfl, fun h => absurd h (lt_irrefl _), ?_⟩
    · simp [Ver4BigramListPolicy.sweptEntry, h1]
    · simp [Ver4BigramListPolicy.updateAllLoop, Ver4BigramListPolicy.sweptEntry,
        BigramDictContent.getBigramEntryAndAdvancePosition, h1]
  · have hkeep : ∀ e : BigramEntry, p.sweptEntry (c.entries pos) = c.entries pos →
        p.updateAllLoop (fuel + 1) c cnt pos =
          (if (c.entries pos).hasNext then
            p.updateAllLoop fuel c
              ((if (p.sweptEntry (c.entries pos)).targetTerminalId ≠ NOT_A_TERMINAL_ID
                then wrapInt32 (cnt + 1) else cnt)) (pos + 1)
          else some (true,
            (if (p.sweptEntry (c.entries pos)).targetTerminalId ≠ NOT_A_TERMINAL_ID
              then wrapInt32 (cnt + 1) else cnt), c)) →
        ∃ c1 : BigramDictContent, c1.heads = c.heads ∧
          c1.entries = Function.update c.entries pos (p.sweptEntry (c.entries pos)) ∧
          c1.writable = c.writable ∧ c1.creatable = c.creatable ∧ c.tail ≤ c1.tail ∧
          (c.tail < c1.tail → (c1.tail : Int) = pos + 1) ∧
          p.updateAllLoop (fuel + 1) c cnt pos =
            if (c.entries pos).hasNext then
              p.updateAllLoop fuel c1
                ((if (p.sweptEntry (c.entries pos)).targetTerminalId ≠ NOT_A_TERMINAL_ID
                  then wrapInt32 (cnt + 1) else cnt)) (pos + 1)
            else some (true,
              (if (p.sweptEntry (c.entries pos)).targetTerminalId ≠ NOT_A_TERMINAL_ID
                then wrapInt32 (cnt + 1) else cnt), c1) := by
      intro _ he hl
      refine ⟨c, rfl, ?_, rfl, rfl, le_rfl, fun h => absurd h (lt_irrefl _), hl⟩
      rw [he, Function.update_eq_self]
    have hwrite : c.writable pos = true →
        p.updateAllLoop (fuel + 1) c cnt pos =
          (if (c.entries pos).hasNext then
            p.updateAllLoop fuel
              { c with
                entries := Function.update c.entries pos (p.sweptEntry (c.entries pos))
                tail := max c.tail (pos + 1).toNat }
              ((if (p.sweptEntry (c.entries pos)).targetTerminalId ≠ NOT_A_TERMINAL_ID
                then wrapInt32 (cnt + 1) else cnt)) (pos + 1)
          else some (true,
            (if (p.sweptEntry (c.entries pos)).targetTerminalId ≠ NOT_A_TERMINAL_ID
              then wrapInt32 (cnt + 1) else cnt),
            { c with
              entries := Function.update c.entries pos (p.sweptEntry (c.entries pos))
              tail := max c.tail (pos + 1).toNat })) →
        ∃ c1 : BigramDictContent, c1.heads = c.heads ∧
          c1.entries = Function.update c.entries pos (p.sweptEntry (c.entries pos)) ∧
          c1.writable = c.writable ∧ c1.creatable = c.creatable ∧ c.tail ≤ c1.tail ∧
          (c.tail < c1.tail → (c1.tail : Int) = pos + 1) ∧
          p.updateAllLoop (fuel + 1) c cnt pos =
            if (c.entries pos).hasNext then
              p.updateAllLoop fuel c1
                ((if (p.sweptEntry (c.entries pos)).targetTerminalId ≠ NOT_A_TERMINAL_ID
                  then wrapInt32 (cnt + 1) else cnt)) (pos + 1)
            else some (true,
              (if (p.sweptEntry (c.entries pos)).targetTerminalId ≠ NOT_A_TERMINAL_ID
                then wrapInt32 (cnt + 1) else cnt), c1) := by
      intro _ hl
      refine ⟨{ c with
          entries := Function.update c.entries pos (p.sweptEntry (c.entries pos))
          tail := max c.tail (pos + 1).toNat }, rfl, rfl, rfl, rfl, le_max_left _ _, ?_, hl⟩
      intro h
      simp only at h ⊢
      omega
    by_cases h2 : p.getTerminalPtNodePosition (c.entries pos).targetTerminalId = NOT_A_DICT_POS
    · by_cases hw : c.writable pos = true
      · right
        refine hwrite hw ?_
        simp [Ver4BigramListPolicy.updateAllLoop, Ver4BigramListPolicy.sweptEntry,
          BigramDictContent.getBigramEntryAndAdvancePosition, BigramDictContent.writeBigramEntry,
          h1, h2, hw]
      · left
        simp [Ver4BigramListPolicy.updateAllLoop,
          BigramDictContent.getBigramEntryAndAdvancePosition, BigramDictContent.writeBigramEntry,
          h1, h2, hw]
    · by_cases h3 : p.mNeedsToDecayWhenUpdating = true
      · by_cases hw : c.writable pos = true
        · right
          refine hwrite hw ?_
          by_cases h4 : p.isValidEncodedProbability
              (p.getEncodedProbabilityToSave (c.entries pos).probability) = true
          · simp [Ver4BigramListPolicy.updateAllLoop, Ver4BigramListPolicy.sweptEntry,
              BigramDictContent.getBigramEntryAndAdvancePosition,
              BigramDictContent.writeBigramEntry, h1, h2, h3, h4, hw]
          · simp [Ver4BigramListPolicy.updateAllLoop, Ver4BigramListPolicy.sweptEntry,
              BigramDictContent.getBigramEntryAndAdvancePosition,
              BigramDictContent.writeBigramEntry, h1, h2, h3, h4, hw]
        · left
          by_cases h4 : p.isValidEncodedProbability
              (p.getEncodedProbabilityToSave (c.entries pos).probability) = true
          · simp [Ver4BigramListPolicy.updateAllLoop,
              BigramDictContent.getBigramEntryAndAdvancePosition,
              BigramDictContent.writeBigramEntry, h1, h2, h3, h4, hw]
          · simp [Ver4BigramListPolicy.updateAllLoop,
              BigramDictContent.getBigramEntryAndAdvancePosition,
              BigramDictContent.writeBigramEntry, h1, h2, h3, h4, hw]
      · right
        refine hkeep (c.entries pos) ?_ ?_
        · simp [Ver4BigramListPolicy.sweptEntry, h1, h2, h3]
        · simp [Ver4BigramListPolicy.updateAllLoop, Ver4BigramListPolicy.sweptEntry,
            BigramDictContent.getBigramEntryAndAdvancePosition, h1, h2, h3]

theorem updateAllLoop_total (p : Ver4BigramListPolicy) (es : List BigramEntry) :
    ∀ (pos : Int) (fuel : Nat) (c : BigramDictContent) (cnt : Int),
      Cells c.entries pos es → Linked es → es.length ≤ fuel →
      (p.updateAllLoop fuel c cnt pos).isSome = true := by
  induction es with
  | nil => intro _ _ _ _ _ hl; exact absurd hl (by simp [Linked])
  | cons e es ih =>
    intro pos fuel c cnt hc hl hf
    obtain ⟨h1, h2⟩ := hc
    cases fuel with
    | zero => simp at hf
    | succ fuel =>
      simp only [List.length_cons, Nat.add_le_add_iff_right] at hf
      rcases updateAllLoop_step p fuel c cnt pos with ⟨r, hr⟩ | ⟨c1, _, he, _, _, _, _, hr⟩
      · rw [hr]; rfl
      · rw [hr, h1]
        rw [linked_cons] at hl
        rcases hl with ⟨ha, hl⟩ | ⟨ha, _⟩
        · rw [if_pos ha]
          refine ih (pos + 1) fuel c1 _ ?_ hl hf
          rw [he]
          exact cells_update_outside _ (Or.inl (by omega)) h2
        · rw [if_neg (by simp [ha])]; rfl

theorem updateAllLoop_success (p : Ver4BigramListPolicy) (es : List BigramEntry) :
    ∀ (pos : Int) (fuel : Nat) (c : BigramDictContent) (cnt cnt' : Int) (c' : BigramDictContent),
      Cells c.entries pos es → Linked es →
      p.updateAllLoop fuel c cnt pos = some (true, cnt', c') →
      c'.heads = c.heads ∧ Cells c'.entries pos (es.map p.sweptEntry) ∧
        (IsInt32 cnt → cnt' = wrapInt32 (cnt + liveCount (es.map p.sweptEntry))) ∧
        (∀ q, q < pos ∨ pos + es.length ≤ q → c'.entries q = c.entries q) ∧
        c'.writable = c.writable ∧ c'.creatable = c.creatable ∧ c.tail ≤ c'.tail := by
  induction es with
  | nil => intro _ _ _ _ _ _ _ hl; exact absurd hl (by simp [Linked])
  | cons e es ih =>
    intro pos fuel c cnt cnt' c' hc hl hres
    obtain ⟨h1, h2⟩ := hc
    cases fuel with
    | zero => simp [Ver4BigramListPolicy.updateAllLoop] at hres
    | succ fuel =>
      rcases updateAllLoop_step p fuel c cnt pos with ⟨r, hr⟩ | ⟨c1, hh, he, hw, hcr, ht, _, hr⟩
      · rw [hr] at hres; simp at hres
      · rw [hr, h1] at hres
        rw [linked_cons] at hl
        rcases hl with ⟨ha, hl⟩ | ⟨ha, rfl⟩
        · rw [if_pos ha] at hres
          have hc1 : Cells c1.entries (pos + 1) es := by
            rw [he]; exact cells_update_outside _ (Or.inl (by omega)) h2
          obtain ⟨i1, i2, i3, i4, i5, i6, i7⟩ := ih (pos + 1) fuel c1 _ cnt' c' hc1 hl hres
          refine ⟨i1.trans hh, ⟨?_, i2⟩, ?_, ?_, i5.trans hw, i6.trans hcr, ht.trans i7⟩
          · rw [i4 pos (Or.inl (by omega)), he, h1, Function.update_same]
          · intro hcnt
            rw [List.map_cons, liveCount_cons]
            by_cases hlive : (p.sweptEntry e).targetTerminalId ≠ NOT_A_TERMINAL_ID
            · rw [if_pos hlive] at i3
              rw [i3 (wrapInt32_isInt32 _), if_pos hlive, wrapInt32_add, add_assoc]
            · rw [if_neg hlive] at i3
              rw [i3 hcnt, if_neg hlive, zero_add]
          · intro q hq
            have hlen : ((e :: es).length : Int) = es.length + 1 := by simp
            rw [i4 q (by omega), he, Function.update_noteq (by omega)]
        · rw [if_neg (by simp [ha])] at hres
          simp only [Option.some.injEq, Prod.mk.injEq, true_and] at hres
          obtain ⟨hcnt, hc'⟩ := hres
          subst hc'
          refine ⟨hh, ?_, ?_, ?_, hw, hcr, ht⟩
          · rw [he, h1]; exact ⟨Function.update_same _ _ _, trivial⟩
          · intro hin
            rw [← hcnt, List.map_cons, List.map_nil, liveCount_cons, liveCount_nil, add_zero]
            by_cases hlive : (p.sweptEntry e).targetTerminalId ≠ NOT_A_TERMINAL_ID
            · rw [if_pos hlive, if_pos hlive]
            · rw [if_neg hlive, if_neg hlive, add_zero, wrapInt32_of_isInt32 hin]
          · intro q hq
            have hlen : (([e] : List BigramEntry).length : Int) = 1 := by simp
            rw [he, Function.update_noteq (by omega)]

theorem linked_map_sweptEntry (p : Ver4BigramListPolicy) (es : List BigramEntry) :
    Linked (es.map p.sweptEntry) ↔ Linked es := by
  induction es with
  | nil => simp [Linked]
  | cons e es ih =>
    rw [List.map_cons, linked_cons, linked_cons, ih, sweptEntry_hasNext]
    simp

/-! ## Copying a list -/

theorem copyBigramList_step (fuel : Nat) (c : BigramDictContent) (src dst : Int) :
    BigramDictContent.copyBigramList (fuel + 1) c src dst =
      if c.writable dst then
        if (c.entries src).hasNext then
          BigramDictContent.copyBigramList fuel
            { c with
              entries := Function.update c.entries dst (c.entries src)
              tail := max c.tail (dst + 1).toNat } (src + 1) (dst + 1)
        else some (true,
          { c with
            entries := Function.update c.entries dst (c.entries src)
            tail := max c.tail (dst + 1).toNat })
      else some (false, c) := by
  by_cases hw : c.writable dst = true
  · simp [BigramDictContent.copyBigramList, BigramDictContent.writeBigramEntryAndAdvancePosition,
      BigramDictContent.writeBigramEntry, BigramDictContent.getBigramEntryAndAdvancePosition, hw]
  · simp [BigramDictContent.copyBigramList, BigramDictContent.writeBigramEntryAndAdvancePosition,
      BigramDictContent.writeBigramEntry, BigramDictContent.getBigramEntryAndAdvancePosition, hw]

theorem copyBigramList_total (es : List BigramEntry) :
    ∀ (src dst : Int) (fuel : Nat) (c : BigramDictContent),
      Cells c.entries src es → Linked es → src + es.length ≤ dst → es.length ≤ fuel →
      (BigramDictContent.copyBigramList fuel c src dst).isSome = true := by
  induction es with
  | nil => intro _ _ _ _ _ hl; exact absurd hl (by simp [Linked])
  | cons e es ih =>
    intro src dst fuel c hc hl hd hf
    obtain ⟨h1, h2⟩ := hc
    have hlen : ((e :: es).length : Int) = es.length + 1 := by simp
    cases fuel with
    | zero => simp at hf
    | succ fuel =>
      simp only [List.length_cons, Nat.add_le_add_iff_right] at hf
      rw [copyBigramList_step, h1]
      by_cases hw : c.writable dst = true
      · rw [if_pos hw]
        rw [linked_cons] at hl
        rcases hl with ⟨ha, hl⟩ | ⟨ha, _⟩
        · rw [if_pos ha]
          refine ih (src + 1) (dst + 1) fuel _ ?_ hl (by omega) hf
          exact cells_update_outside _ (Or.inr (by omega)) h2
        · rw [if_neg (by simp [ha])]; rfl
      · rw [if_neg hw]; rfl

theorem copyBigramList_success (es : List BigramEntry) :
    ∀ (src dst : Int) (fuel : Nat) (c c' : BigramDictContent),
      Cells c.entries src es → Linked es → src + es.length ≤ dst → (c.tail : Int) = dst →
      BigramDictContent.copyBigramList fuel c src dst = some (true, c') →
      c'.heads = c.heads ∧ Cells c'.entries dst es ∧
        (∀ q, q < dst → c'.entries q = c.entries q) ∧
        c'.writable = c.writable ∧ c'.creatable = c.creatable ∧
        (c'.tail : Int) = dst + es.length := by
  induction es with
  | nil => intro _ _ _ _ _ _ hl; exact absurd hl (by simp [Linked])
  | cons e es ih =>
    intro src dst fuel c c' hc hl hd ht hres
    obtain ⟨h1, h2⟩ := hc
    have hlen : ((e :: es).length : Int) = es.length + 1 := by simp
    cases fuel with
    | zero => simp [BigramDictContent.copyBigramList] at hres
    | succ fuel =>
      rw [copyBigramList_step, h1] at hres
      by_cases hw : c.writable dst = true
      · rw [if_pos hw] at hres
        rw [linked_cons] at hl
        rcases hl with ⟨ha, hl⟩ | ⟨ha, rfl⟩
        · rw [if_pos ha] at hres
          obtain ⟨i1, i2, i3, i4, i5, i6⟩ := ih (src + 1) (dst + 1) fuel _ c'
            (cells_update_outside _ (Or.inr (by omega)) h2) hl (by omega)
            (by simp only; omega) hres
          refine ⟨i1, ⟨?_, i2⟩, ?_, i4, i5, ?_⟩
          · rw [i3 dst (by omega)]; exact Function.update_same _ _ _
          · intro q hq
            rw [i3 q (by omega)]
            exact Function.update_noteq (by omega) _ _
          · rw [i6, hlen]; ring
        · rw [if_neg (by simp [ha])] at hres
          simp only [Option.some.injEq, Prod.mk.injEq, true_and] at hres
          subst hres
          refine ⟨rfl, ⟨Function.update_same _ _ _, trivial⟩, ?_, rfl, rfl, ?_⟩
          · intro q hq
            exact Function.update_noteq (by omega) _ _
          · simp only [List.length_singleton, Nat.cast_one]; omega
      · rw [if_neg hw] at hres; simp at hres

/-! ## More fuel does not change a result -/

theorem getEntryPosToUpdateLoop_mono (c : BigramDictContent) (X : Int) :
    ∀ (f f' : Nat) (inv pos r : Int), f ≤ f' →
      Ver4BigramListPolicy.getEntryPosToUpdateLoop c X f inv pos = some r →
      Ver4BigramListPolicy.getEntryPosToUpdateLoop c X f' inv pos = some r := by
  intro f
  induction f with
  | zero => intro f' inv pos r _ h; simp [Ver4BigramListPolicy.getEntryPosToUpdateLoop] at h
  | succ f ih =>
    intro f' inv pos r hle h
    cases f' with
    | zero => omega
    | succ f' =>
      by_cases h1 : (c.entries pos).targetTerminalId = X
      · simpa [Ver4BigramListPolicy.getEntryPosToUpdateLoop,
          BigramDictContent.getBigramEntryAndAdvancePosition, h1] using h
      · by_cases h2 : (c.entries pos).hasNext = true
        · simp only [Ver4BigramListPolicy.getEntryPosToUpdateLoop,
            BigramDictContent.getBigramEntryAndAdvancePosition, h1, h2, if_true, if_false] at h ⊢
          exact ih f' _ _ r (by omega) h
        · simpa [Ver4BigramListPolicy.getEntryPosToUpdateLoop,
            BigramDictContent.getBigramEntryAndAdvancePosition, h1, h2] using h

theorem copyBigramList_mono :
    ∀ (f f' : Nat) (c : BigramDictContent) (src dst : Int) (r : Bool × BigramDictContent),
      f ≤ f' → BigramDictContent.copyBigramList f c src dst = some r →
      BigramDictContent.copyBigramList f' c src dst = some r := by
  intro f
  induction f with
  | zero => intro f' c src dst r _ h; simp [BigramDictContent.copyBigramList] at h
  | succ f ih =>
    intro f' c src dst r hle h
    cases f' with
    | zero => omega
    | succ f' =>
      rw [copyBigramList_step] at h ⊢
      split_ifs at h ⊢ with h1 h2
      · exact ih f' _ _ _ r (by omega) h
      · exact h
      · exact h

/-! ## `addNewEntry` -/

theorem slot_cases (X : Int) (es : List BigramEntry) :
    (∃ l x r, es = l ++ x :: r ∧ IsSlot X l x r) ∨
      ((∀ e ∈ es, e.targetTerminalId ≠ X) ∧ ∀ e ∈ es, e.IsLive) := by
  by_cases h : ∃ e ∈ es, e.targetTerminalId = X
  · obtain ⟨l, x, r, rfl, hx, hl⟩ := exists_first_target h
    exact Or.inl ⟨l, x, r, rfl, Or.inl ⟨hx, hl⟩⟩
  · have hno : ∀ e ∈ es, e.targetTerminalId ≠ X := fun e he hx => h ⟨e, he, hx⟩
    rcases exists_last_tombstone es with hlive | ⟨l, x, r, rfl, hx, hr⟩
    · exact Or.inr ⟨hno, hlive⟩
    · exact Or.inl ⟨l, x, r, rfl, Or.inr ⟨hx, hno, hr⟩⟩

theorem getEntryPosToUpdate_slot (p : Ver4BigramListPolicy) (c : BigramDictContent) (X pos : Int)
    (l : List BigramEntry) (x : BigramEntry) (r : List BigramEntry) (fuel : Nat)
    (hc : Cells c.entries pos (l ++ x :: r)) (hl : Linked (l ++ x :: r)) (hs : IsSlot X l x r)
    (hf : (l ++ x :: r).length ≤ fuel) :
    p.getEntryPosToUpdate fuel c X pos = some (pos + l.length) := by
  unfold Ver4BigramListPolicy.getEntryPosToUpdate
  rcases hs with ⟨hx, hno⟩ | ⟨hx, hno, hr⟩
  · refine getEntryPosToUpdateLoop_match c X l x r pos _ fuel hc ((linked_append l x r).1 hl).1
      hno hx ?_
    simp only [List.length_append, List.length_cons] at hf
    omega
  · exact getEntryPosToUpdateLoop_tombstone c X l x r pos _ fuel hc hl hno hx hr hf

theorem getEntryPosToUpdate_absent (p : Ver4BigramListPolicy) (c : BigramDictContent) (X pos : Int)
    (es : List BigramEntry) (fuel : Nat) (hc : Cells c.entries pos es) (hl : Linked es)
    (hno : ∀ e ∈ es, e.targetTerminalId ≠ X) (hlive : ∀ e ∈ es, e.IsLive)
    (hf : es.length ≤ fuel) :
    p.getEntryPosToUpdate fuel c X pos = some NOT_A_DICT_POS :=
  getEntryPosToUpdateLoop_live c X es pos _ fuel hc hl hno hlive hf

theorem addNewEntry_noList (p : Ver4BigramListPolicy) (fuel : Nat) (c : BigramDictContent)
    (T X P : Int) (h : c.heads T = NOT_A_DICT_POS) :
    p.addNewEntry fuel c T X P =
      if c.creatable T then
        if c.writable c.tail then
          some (true, true,
            { c with
              heads := Function.update c.heads T c.tail
              entries := Function.update c.entries c.tail
                ⟨p.getUpdatedProbability NOT_A_PROBABILITY P, false, X⟩
              tail := max c.tail ((c.tail : Int) + 1).toNat })
        else some (false, false, { c with heads := Function.update c.heads T c.tail })
      else some (false, false, c) := by
  by_cases h1 : c.creatable T = true <;> by_cases h2 : c.writable c.tail = true <;>
    simp [Ver4BigramListPolicy.addNewEntry, BigramDictContent.getBigramListHeadPos,
      BigramDictContent.createNewBigramList, BigramDictContent.writeBigramEntry, h, h1, h2]

theorem addNewEntry_inPlace (p : Ver4BigramListPolicy) (fuel : Nat) (c : BigramDictContent)
    (T X P : Int) (l : List BigramEntry) (x : BigramEntry) (r : List BigramEntry)
    (hl : HasList c T (l ++ x :: r)) (h0 : 0 ≤ c.heads T) (hs : IsSlot X l x r)
    (hf : (l ++ x :: r).length ≤ fuel) :
    p.addNewEntry fuel c T X P =
      some ((c.writeBigramEntry (p.getUpdatedProbability x.probability P) x.hasNext X
          (c.heads T + l.length)).1,
        decide (x.targetTerminalId = NOT_A_TERMINAL_ID),
        (c.writeBigramEntry (p.getUpdatedProbability x.probability P) x.hasNext X
          (c.heads T + l.length)).2) := by
  obtain ⟨hne, hc, hlk⟩ := hl
  have hx : c.entries (c.heads T + l.length) = x := ((cells_append _ _ _ _).1 hc).2.1
  have hpos : c.heads T + (l.length : Int) ≠ NOT_A_DICT_POS := by
    have := NOT_A_DICT_POS_neg
    omega
  simp only [Ver4BigramListPolicy.addNewEntry, BigramDictContent.getBigramListHeadPos,
    if_neg hne, getEntryPosToUpdate_slot p c X _ l x r fuel hc hlk hs hf, ne_eq, hpos,
    not_false_eq_true, if_true, BigramDictContent.getBigramEntry, hx]

theorem addNewEntry_grow (p : Ver4BigramListPolicy) (fuel : Nat) (c : BigramDictContent)
    (T X P : Int) (es : List BigramEntry) (hl : HasList c T es)
    (hno : ∀ e ∈ es, e.targetTerminalId ≠ X) (hlive : ∀ e ∈ es, e.IsLive)
    (hf : es.length ≤ fuel) :
    p.addNewEntry fuel c T X P =
      if c.creatable T then
        if c.writable c.tail then
          match BigramDictContent.copyBigramList fuel
            { c with
              heads := Function.update c.heads T c.tail
              entries := Function.update c.entries c.tail
                ⟨p.getUpdatedProbability NOT_A_PROBABILITY P, true, X⟩
              tail := max c.tail ((c.tail : Int) + 1).toNat } (c.heads T) ((c.tail : Int) + 1) with
          | none => none
          | some cp => some (cp.1, true, cp.2)
        else some (false, false, { c with heads := Function.update c.heads T c.tail })
      else some (false, false, c) := by
  obtain ⟨hne, hc, hlk⟩ := hl
  by_cases h1 : c.creatable T = true <;> by_cases h2 : c.writable c.tail = true <;>
    simp [Ver4BigramListPolicy.addNewEntry, BigramDictContent.getBigramListHeadPos,
      BigramDictContent.createNewBigramList, BigramDictContent.writeBigramEntry,
      BigramDictContent.writeBigramEntryAndAdvancePosition, hne,
      getEntryPosToUpdate_absent p c X _ es fuel hc hlk hno hlive hf, h1, h2]

theorem addNewEntry_hasList (p : Ver4BigramListPolicy) (fuel : Nat) (c : BigramDictContent)
    (T X P : Int) (h : c.heads T ≠ NOT_A_DICT_POS) :
    p.addNewEntry fuel c T X P =
      match p.getEntryPosToUpdate fuel c X (c.heads T) with
      | none => none
      | some pos =>
        if pos ≠ NOT_A_DICT_POS then
          some ((c.writeBigramEntry (p.getUpdatedProbability (c.entries pos).probability P)
              (c.entries pos).hasNext X pos).1,
            decide ((c.entries pos).targetTerminalId = NOT_A_TERMINAL_ID),
            (c.writeBigramEntry (p.getUpdatedProbability (c.entries pos).probability P)
              (c.entries pos).hasNext X pos).2)
        else if c.creatable T then
          if c.writable c.tail then
            match BigramDictContent.copyBigramList fuel
              { c with
                heads := Function.update c.heads T c.tail
                entries := Function.update c.entries c.tail
                  ⟨p.getUpdatedProbability NOT_A_PROBABILITY P, true, X⟩
                tail := max c.tail ((c.tail : Int) + 1).toNat } (c.heads T)
              ((c.tail : Int) + 1) with
            | none => none
            | some cp => some (cp.1, true, cp.2)
          else some (false, false, { c with heads := Function.update c.heads T c.tail })
        else some (false, false, c) := by
  simp only [Ver4BigramListPolicy.addNewEntry, BigramDictContent.getBigramListHeadPos, if_neg h]
  cases Ver4BigramListPolicy.getEntryPosToUpdate p fuel c X (c.heads T) with
  | none => rfl
  | some pos =>
    by_cases h0 : pos = NOT_A_DICT_POS
    · by_cases h1 : c.creatable T = true <;> by_cases h2 : c.writable c.tail = true <;>
        simp [BigramDictContent.createNewBigramList, BigramDictContent.writeBigramEntry,
          BigramDictContent.writeBigramEntryAndAdvancePosition, h0, h1, h2]
    · simp [BigramDictContent.getBigramEntry, h0]

theorem addNewEntry_mono (p : Ver4BigramListPolicy) (f f' : Nat) (c : BigramDictContent)
    (T X P : Int) (r : Bool × Bool × BigramDictContent) (hle : f ≤ f')
    (h : p.addNewEntry f c T X P = some r) : p.addNewEntry f' c T X P = some r := by
  by_cases h1 : c.heads T = NOT_A_DICT_POS
  · rw [addNewEntry_noList p f c T X P h1] at h
    rw [addNewEntry_noList p f' c T X P h1]
    exact h
  · rw [addNewEntry_hasList p f c T X P h1] at h
    rw [addNewEntry_hasList p f' c T X P h1]
    cases hg : Ver4BigramListPolicy.getEntryPosToUpdate p f c X (c.heads T) with
    | none => rw [hg] at h; simp at h
    | some pos =>
      rw [hg] at h
      have hg' : p.getEntryPosToUpdate f' c X (c.heads T) = some pos :=
        getEntryPosToUpdateLoop_mono c X f f' _ _ pos hle hg
      rw [hg']
      simp only at h ⊢
      by_cases h0 : pos ≠ NOT_A_DICT_POS
      · rw [if_pos h0] at h ⊢; exact h
      · rw [if_neg h0] at h ⊢
        by_cases h2 : c.creatable T = true
        · rw [if_pos h2] at h ⊢
          by_cases h3 : c.writable c.tail = true
          · rw [if_pos h3] at h ⊢
            cases hcp : BigramDictContent.copyBigramList f
              { c with
                heads := Function.update c.heads T c.tail
                entries := Function.update c.entries c.tail
                  ⟨p.getUpdatedProbability NOT_A_PROBABILITY P, true, X⟩
                tail := max c.tail ((c.tail : Int) + 1).toNat } (c.heads T)
              ((c.tail : Int) + 1) with
            | none => rw [hcp] at h; simp at h
            | some cp =>
              rw [hcp] at h
              rw [copyBigramList_mono f f' _ _ _ cp hle hcp]
              exact h
          · rw [if_neg h3] at h ⊢; exact h
        · rw [if_neg h2] at h ⊢; exact h

theorem addNewEntry_total (p : Ver4BigramListPolicy) (fuel : Nat) (c : BigramDictContent)
    (T X P : Int) (es : List BigramEntry) (hl : HasList c T es) (hr : InRegion c T es)
    (hf : es.length ≤ fuel) : (p.addNewEntry fuel c T X P).isSome = true := by
  rcases slot_cases X es with ⟨l, x, r, rfl, hs⟩ | ⟨hno, hlive⟩
  · rw [addNewEntry_inPlace p fuel c T X P l x r hl hr.1 hs hf]; rfl
  · rw [addNewEntry_grow p fuel c T X P es hl hno hlive hf]
    by_cases h1 : c.creatable T = true
    · by_cases h2 : c.writable c.tail = true
      · rw [if_pos h1, if_pos h2]
        have hcp := copyBigramList_total es (c.heads T) ((c.tail : Int) + 1) fuel
          { c with
            heads := Function.update c.heads T c.tail
            entries := Function.update c.entries c.tail
              ⟨p.getUpdatedProbability NOT_A_PROBABILITY P, true, X⟩
            tail := max c.tail ((c.tail : Int) + 1).toNat }
          (cells_update_outside _ (Or.inr hr.2) hl.2.1) hl.2.2 (by have := hr.2; omega) hf
        cases hcq : BigramDictContent.copyBigramList fuel
          { c with
            heads := Function.update c.heads T c.tail
            entries := Function.update c.entries c.tail
              ⟨p.getUpdatedProbability NOT_A_PROBABILITY P, true, X⟩
            tail := max c.tail ((c.tail : Int) + 1).toNat } (c.heads T) ((c.tail : Int) + 1) with
        | none => rw [hcq] at hcp; simp at hcp
        | some cp => rfl
      · rw [if_pos h1, if_neg h2]; rfl
    · rw [if_neg h1]; rfl

/-- The two ways a call of `addNewEntry` on an existing list succeeds: it rewrites the
selected slot in place, or, when there is no slot, it grows the list into a fresh
region at the tail. -/
theorem addNewEntry_success_cases (p : Ver4BigramListPolicy) (fuel : Nat)
    (c c' : BigramDictContent) (T X P : Int) (flag : Bool) (es : List BigramEntry)
    (hl : HasList c T es) (hr : InRegion c T es)
    (h : p.addNewEntry fuel c T X P = some (true, flag, c')) :
    (∃ l x r, es = l ++ x :: r ∧ IsSlot X l x r ∧
      flag = decide (x.targetTerminalId = NOT_A_TERMINAL_ID) ∧ c'.heads = c.heads ∧
      c'.entries = Function.update c.entries (c.heads T + l.length)
        ⟨p.getUpdatedProbability x.probability P, x.hasNext, X⟩ ∧
      c'.tail = c.tail ∧ c'.writable = c.writable ∧ c'.creatable = c.creatable) ∨
    ((∀ e ∈ es, e.targetTerminalId ≠ X) ∧ (∀ e ∈ es, e.IsLive) ∧ flag = true ∧
      c'.heads = Function.update c.heads T c.tail ∧
      Cells c'.entries c.tail (⟨p.getUpdatedProbability NOT_A_PROBABILITY P, true, X⟩ :: es) ∧
      (∀ q, q < (c.tail : Int) → c'.entries q = c.entries q) ∧
      (c'.tail : Int) = c.tail + 1 + es.length ∧
      c'.writable = c.writable ∧ c'.creatable = c.creatable) := by
  have h' := addNewEntry_mono p fuel (max fuel es.length) c T X P _ (le_max_left _ _) h
  have hf : es.length ≤ max fuel es.length := le_max_right _ _
  obtain ⟨hr0, hr1⟩ := hr
  rcases slot_cases X es with ⟨l, x, r, rfl, hs⟩ | ⟨hno, hlive⟩
  · left
    rw [addNewEntry_inPlace p _ c T X P l x r hl hr0 hs hf] at h'
    have hlen : ((l ++ x :: r).length : Int) = l.length + r.length + 1 := by
      simp only [List.length_append, List.length_cons]; push_cast; ring
    by_cases hw : c.writable (c.heads T + l.length) = true
    · simp only [BigramDictContent.writeBigramEntry, hw, if_true, Option.some.injEq,
        Prod.mk.injEq, true_and] at h'
      obtain ⟨hflag, hc'⟩ := h'
      subst hc'
      refine ⟨l, x, r, rfl, hs, hflag.symm, rfl, rfl, ?_, rfl, rfl⟩
      show max c.tail (c.heads T + l.length + 1).toNat = c.tail
      omega
    · simp [BigramDictContent.writeBigramEntry, hw] at h'
  · right
    rw [addNewEntry_grow p _ c T X P es hl hno hlive hf] at h'
    by_cases h1 : c.creatable T = true
    · by_cases h2 : c.writable c.tail = true
      · rw [if_pos h1, if_pos h2] at h'
        cases hcq : BigramDictContent.copyBigramList (max fuel es.length)
          { c with
            heads := Function.update c.heads T c.tail
            entries := Function.update c.entries c.tail
              ⟨p.getUpdatedProbability NOT_A_PROBABILITY P, true, X⟩
            tail := max c.tail ((c.tail : Int) + 1).toNat } (c.heads T) ((c.tail : Int) + 1) with
        | none => rw [hcq] at h'; simp at h'
        | some cp =>
          rw [hcq] at h'
          simp only [Option.some.injEq, Prod.mk.injEq] at h'
          obtain ⟨hok, hflag, hc'⟩ := h'
          have hcq' : BigramDictContent.copyBigramList (max fuel es.length)
              { c with
                heads := Function.update c.heads T c.tail
                entries := Function.update c.entries c.tail
                  ⟨p.getUpdatedProbability NOT_A_PROBABILITY P, true, X⟩
                tail := max c.tail ((c.tail : Int) + 1).toNat } (c.heads T)
              ((c.tail : Int) + 1) = some (true, c') := by
            rw [hcq, ← hok, ← hc']
          obtain ⟨i1, i2, i3, i4, i5, i6⟩ := copyBigramList_success es (c.heads T)
            ((c.tail : Int) + 1) _ _ c' (cells_update_outside _ (Or.inr hr1) hl.2.1) hl.2.2
            (by omega) (by simp only; omega) hcq'
          refine ⟨hno, hlive, hflag.symm, i1, ⟨?_, i2⟩, ?_, ?_, i4, i5⟩
          · rw [i3 c.tail (by omega)]; exact Function.update_same _ _ _
          · intro q hq
            rw [i3 q (by omega)]
            exact Function.update_noteq (by omega) _ _
          · rw [i6]
      · rw [if_pos h1, if_neg h2] at h'; simp at h'
    · rw [if_neg h1] at h'; simp at h'

/-! ## Live targets -/

theorem liveTargets_append (l r : List BigramEntry) :
    liveTargets (l ++ r) = liveTargets l ++ liveTargets r := by
  simp [liveTargets]

theorem liveTargets_cons_live {e : BigramEntry} (es : List BigramEntry) (h : e.IsLive) :
    liveTargets (e :: es) = e.targetTerminalId :: liveTargets es := by
  simp [liveTargets, List.filter_cons, h]

theorem liveTargets_cons_dead {e : BigramEntry} (es : List BigramEntry)
    (h : e.targetTerminalId = NOT_A_TERMINAL_ID) : liveTargets (e :: es) = liveTargets es := by
  simp [liveTargets, List.filter_cons, BigramEntry.IsLive, h]

theorem mem_liveTargets {t : Int} {es : List BigramEntry} :
    t ∈ liveTargets es ↔ ∃ e ∈ es, e.IsLive ∧ e.targetTerminalId = t := by
  simp [liveTargets, and_assoc]

theorem noDupLive_cons {es : List BigramEntry} (y : BigramEntry) (h : NoDupLive es)
    (hno : ∀ e ∈ es, e.targetTerminalId ≠ y.targetTerminalId) : NoDupLive (y :: es) := by
  unfold NoDupLive at *
  by_cases hy : y.targetTerminalId = NOT_A_TERMINAL_ID
  · rw [liveTargets_cons_dead es hy]; exact h
  · rw [liveTargets_cons_live es hy, List.nodup_cons]
    refine ⟨fun hm => ?_, h⟩
    obtain ⟨e, he, _, het⟩ := mem_liveTargets.1 hm
    exact hno e he het

theorem noDupLive_slot {X : Int} {l : List BigramEntry} {x : BigramEntry} {r : List BigramEntry}
    (y : BigramEntry) (h : NoDupLive (l ++ x :: r)) (hs : IsSlot X l x r)
    (hy : y.targetTerminalId = X) : NoDupLive (l ++ y :: r) := by
  unfold NoDupLive at *
  rw [liveTargets_append] at h ⊢
  rcases hs with ⟨hx, _⟩ | ⟨hx, hno, _⟩
  · by_cases hd : X = NOT_A_TERMINAL_ID
    · rw [liveTargets_cons_dead r (hx.trans hd)] at h
      rw [liveTargets_cons_dead r (hy.trans hd)]
      exact h
    · rw [liveTargets_cons_live r (show x.IsLive from fun hh => hd (hx.symm.trans hh))] at h
      rw [liveTargets_cons_live r (show y.IsLive from fun hh => hd (hy.symm.trans hh)), hy, ← hx]
      exact h
  · rw [liveTargets_cons_dead r hx] at h
    by_cases hd : X = NOT_A_TERMINAL_ID
    · rw [liveTargets_cons_dead r (hy.trans hd)]
      exact h
    · rw [liveTargets_cons_live r (show y.IsLive from fun hh => hd (hy.symm.trans hh)),
        List.nodup_middle, List.nodup_cons]
      refine ⟨fun hm => ?_, h⟩
      rw [← liveTargets_append] at hm
      obtain ⟨e, he, _, het⟩ := mem_liveTargets.1 hm
      refine hno e ?_ (het.trans hy)
      rcases List.mem_append.1 he with he | he
      · exact List.mem_append_left _ he
      · exact List.mem_append_right _ (List.mem_cons_of_mem _ he)

theorem noDupLive_no_later {l : List BigramEntry} {x : BigramEntry} {r : List BigramEntry}
    (h : NoDupLive (l ++ x :: r)) (hx : x.IsLive) :
    ∀ e ∈ r, e.targetTerminalId ≠ x.targetTerminalId := by
  unfold NoDupLive at h
  rw [liveTargets_append, liveTargets_cons_live r hx] at h
  have h2 := (List.nodup_cons.1 (List.nodup_append.1 h).2.1).1
  intro e he het
  refine h2 (mem_liveTargets.2 ⟨e, he, ?_, het⟩)
  intro hd
  exact hx (het.symm.trans hd)

theorem filter_target_eq_nil {X : Int} {es : List BigramEntry}
    (h : ∀ e ∈ es, e.targetTerminalId ≠ X) :
    es.filter (fun e => decide (e.IsLive ∧ e.targetTerminalId = X)) = [] := by
  rw [List.filter_eq_nil_iff]
  intro e he
  simp [h e he]

theorem filter_target_length_one {X : Int} {l r : List BigramEntry} {y : BigramEntry}
    (hl : ∀ e ∈ l, e.targetTerminalId ≠ X) (hr : ∀ e ∈ r, e.targetTerminalId ≠ X)
    (hy : y.targetTerminalId = X) (hX : X ≠ NOT_A_TERMINAL_ID) :
    ((l ++ y :: r).filter (fun e => decide (e.IsLive ∧ e.targetTerminalId = X))).length = 1 := by
  have hylive : y.IsLive := fun h => hX (hy.symm.trans h)
  rw [List.filter_append, List.filter_cons, filter_target_eq_nil hl, filter_target_eq_nil hr]
  simp [hylive, hy]

theorem eq_of_target_eq {X : Int} {l r : List BigramEntry} {y : BigramEntry}
    (hl : ∀ e ∈ l, e.targetTerminalId ≠ X) (hr : ∀ e ∈ r, e.targetTerminalId ≠ X) :
    ∀ e ∈ l ++ y :: r, e.targetTerminalId = X → e = y := by
  intro e he het
  rcases List.mem_append.1 he with he | he
  · exact absurd het (hl e he)
  · rcases List.mem_cons.1 he with he | he
    · exact he
    · exact absurd het (hr e he)

/-! ## The store invariant under `addNewEntry` -/

theorem hasList_frame {c c' : BigramDictContent} {t : Int} {es : List BigramEntry}
    (hh : c'.heads t = c.heads t)
    (hE : ∀ q, c.heads t ≤ q → q < c.heads t + es.length → c'.entries q = c.entries q)
    (hl : HasList c t es) : HasList c' t es := by
  refine ⟨by rw [hh]; exact hl.1, ?_, hl.2.2⟩
  rw [hh]
  exact cells_congr hE hl.2.1

theorem inRegion_frame {c c' : BigramDictContent} {t : Int} {es : List BigramEntry}
    (hh : c'.heads t = c.heads t) (ht : c.tail ≤ c'.tail) (hr : InRegion c t es) :
    InRegion c' t es := by
  unfold InRegion at *
  rw [hh]
  omega

theorem hasList_unique {c : BigramDictContent} {t : Int} {es es' : List BigramEntry}
    (h : HasList c t es) (h' : HasList c t es') : es = es' :=
  cells_unique h.2.1 h'.2.1 h.2.2 h'.2.2

/-- The invariant survives the move of the list of `T` to a fresh region at the tail. -/
theorem storeInv_fresh {c c' : BigramDictContent} {T : Int} {L : Int → List BigramEntry}
    (new : List BigramEntry) (hinv : StoreInv c L)
    (hheads : c'.heads = Function.update c.heads T c.tail)
    (hE : ∀ q, q < (c.tail : Int) → c'.entries q = c.entries q)
    (hnew : Cells c'.entries c.tail new) (hlk : Linked new) (hnd : NoDupLive new)
    (htail : (c'.tail : Int) = c.tail + new.length) :
    StoreInv c' (Function.update L T new) := by
  obtain ⟨hlists, hdisj⟩ := hinv
  have hT : c'.heads T = c.tail := by rw [hheads]; exact Function.update_same _ _ _
  have hother : ∀ t, t ≠ T → c'.heads t = c.heads t := by
    intro t ht; rw [hheads]; exact Function.update_noteq ht _ _
  have hLother : ∀ t, t ≠ T → Function.update L T new t = L t :=
    fun t ht => Function.update_noteq ht _ _
  have hbelow : ∀ t, t ≠ T → c'.heads t ≠ NOT_A_DICT_POS →
      c'.heads t + (Function.update L T new t).length ≤ c'.heads T := by
    intro t ht hne
    rw [hother t ht] at hne ⊢
    rw [hLother t ht, hT]
    exact (hlists t hne).2.1.2
  constructor
  · intro t hne
    by_cases ht : t = T
    · subst ht
      rw [Function.update_same]
      refine ⟨⟨hne, ?_, hlk⟩, ⟨?_, ?_⟩, hnd⟩
      · rw [hT]; exact hnew
      · rw [hT]; omega
      · rw [hT]; omega
    · rw [hLother t ht]
      rw [hother t ht] at hne
      obtain ⟨h1, h2, h3⟩ := hlists t hne
      refine ⟨hasList_frame (hother t ht) ?_ h1, inRegion_frame (hother t ht) (by omega) h2, h3⟩
      intro q _ hq
      exact hE q (by have := h2.2; omega)
  · intro t t' hne h1 h2
    by_cases ht : t = T
    · subst ht
      exact Or.inr (hbelow t' (Ne.symm hne) h2)
    · by_cases ht' : t' = T
      · subst ht'
        exact Or.inl (hbelow t ht h1)
      · rw [hother t ht, hother t' ht', hLother t ht, hLother t' ht']
        rw [hother t ht] at h1
        rw [hother t' ht'] at h2
        exact hdisj t t' hne h1 h2

/-- The invariant survives the rewriting of one entry of the list of `T` that keeps the
entry's hasNext and introduces no duplicate live target. -/
theorem storeInv_inPlace {c c' : BigramDictContent} {T : Int} {L : Int → List BigramEntry}
    {l : List BigramEntry} {x : BigramEntry} {r : List BigramEntry} (y : BigramEntry)
    (hinv : StoreInv c L) (hT : c.heads T ≠ NOT_A_DICT_POS) (hL : L T = l ++ x :: r)
    (hheads : c'.heads = c.heads)
    (hE : c'.entries = Function.update c.entries (c.heads T + l.length) y)
    (htail : c'.tail = c.tail) (hy : y.hasNext = x.hasNext) (hnd : NoDupLive (l ++ y :: r)) :
    StoreInv c' (Function.update L T (l ++ y :: r)) := by
  obtain ⟨hlists, hdisj⟩ := hinv
  have hlen : (Function.update L T (l ++ y :: r) T).length = (L T).length := by
    rw [Function.update_same, hL]; simp
  have hLlen : ∀ t, (Function.update L T (l ++ y :: r) t).length = (L t).length := by
    intro t
    by_cases ht : t = T
    · subst ht; exact hlen
    · rw [Function.update_noteq ht]
  obtain ⟨hTl, hTr, _⟩ := hlists T hT
  have hLT : ((L T).length : Int) = l.length + r.length + 1 := by
    rw [hL]; simp only [List.length_append, List.length_cons]; push_cast; ring
  constructor
  · intro t hne
    rw [hheads] at hne
    by_cases ht : t = T
    · subst ht
      rw [Function.update_same]
      rw [hL] at hTl hTr
      refine ⟨⟨by rw [hheads]; exact hne, ?_, ?_⟩, ⟨?_, ?_⟩, hnd⟩
      · rw [hheads, hE]; exact cells_update_mid _ hTl.2.1
      · have hlk := (linked_append l x r).1 hTl.2.2
        exact (linked_append l _ r).2 ⟨hlk.1, (linked_replace (x := x) (y := y) r hy).2 hlk.2⟩
      · rw [hheads]; exact hTr.1
      · rw [hheads, htail]
        have := hTr.2
        simp only [List.length_append, List.length_cons] at this ⊢
        exact this
    · rw [Function.update_noteq ht]
      obtain ⟨h1, h2, h3⟩ := hlists t hne
      refine ⟨hasList_frame (by rw [hheads]) ?_ h1,
        inRegion_frame (by rw [hheads]) (by rw [htail]) h2, h3⟩
      intro q hq1 hq2
      rw [hE]
      refine Function.update_noteq ?_ _ _
      rcases hdisj t T ht hne hT with hd | hd <;> omega
  · intro t t' hne h1 h2
    rw [hheads] at h1 h2 ⊢
    rw [hLlen t, hLlen t']
    exact hdisj t t' hne h1 h2

theorem storeInv_addNewEntry (p : Ver4BigramListPolicy) (fuel : Nat) (c c' : BigramDictContent)
    (T X P : Int) (flag : Bool) (L : Int → List BigramEntry) (hinv : StoreInv c L)
    (h : p.addNewEntry fuel c T X P = some (true, flag, c')) : ∃ L', StoreInv c' L' := by
  by_cases hh : c.heads T = NOT_A_DICT_POS
  · rw [addNewEntry_noList p fuel c T X P hh] at h
    by_cases h1 : c.creatable T = true
    · by_cases h2 : c.writable c.tail = true
      · simp only [h1, h2, if_true, Option.some.injEq, Prod.mk.injEq, true_and] at h
        obtain ⟨_, hc'⟩ := h
        subst hc'
        refine ⟨_, storeInv_fresh [⟨p.getUpdatedProbability NOT_A_PROBABILITY P, false, X⟩]
          hinv rfl ?_ ⟨Function.update_same _ _ _, trivial⟩ (by simp [Linked])
          (noDupLive_cons _ List.nodup_nil (by simp)) ?_⟩
        · intro q hq
          exact Function.update_noteq (by omega) _ _
        · simp only [List.length_singleton, Nat.cast_one]; omega
      · simp [h1, h2] at h
    · simp [h1] at h
  · obtain ⟨hl, hr, hnd⟩ := hinv.1 T hh
    rcases addNewEntry_success_cases p fuel c c' T X P flag (L T) hl hr h with
      ⟨l, x, r, hL, hs, _, hheads, he, htail, _⟩ | ⟨hno, _, _, hheads, hc, hE, htail, _⟩
    · rw [hL] at hnd
      exact ⟨_, storeInv_inPlace ⟨p.getUpdatedProbability x.probability P, x.hasNext, X⟩ hinv hh
        hL hheads he htail rfl (noDupLive_slot _ hnd hs rfl)⟩
    · refine ⟨_, storeInv_fresh
        (⟨p.getUpdatedProbability NOT_A_PROBABILITY P, true, X⟩ :: L T) hinv hheads hE hc
        ?_ (noDupLive_cons _ hnd hno) ?_⟩
      · rw [linked_cons]; exact Or.inl ⟨rfl, hl.2.2⟩
      · rw [htail]; simp only [List.length_cons]; push_cast; ring

theorem storeInv_addNewEntries (calls : List (Ver4BigramListPolicy × Nat × Int × Int × Int)) :
    ∀ (c c' : BigramDictContent) (L : Int → List BigramEntry), StoreInv c L →
      addNewEntries c calls = some c' → ∃ L', StoreInv c' L' := by
  induction calls with
  | nil =>
    intro c c' L hinv h
    simp only [addNewEntries, Option.some.injEq] at h
    subst h
    exact ⟨L, hinv⟩
  | cons call calls ih =>
    intro c c' L hinv h
    obtain ⟨p, fuel, T, X, P⟩ := call
    simp only [addNewEntries] at h
    cases hr : p.addNewEntry fuel c T X P with
    | none => rw [hr] at h; simp at h
    | some res =>
      obtain ⟨ok, flag, c1⟩ := res
      rw [hr] at h
      cases ok with
      | false => simp at h
      | true =>
        obtain ⟨L1, hinv1⟩ := storeInv_addNewEntry p fuel c c1 T X P flag L hinv hr
        exact ih c1 c' L1 hinv1 h

/-! ## `removeEntry` -/

theorem removeEntry_hasList (p : Ver4BigramListPolicy) (fuel : Nat) (c : BigramDictContent)
    (T X : Int) (h : c.heads T ≠ NOT_A_DICT_POS) :
    p.removeEntry fuel c T X =
      match p.getEntryPosToUpdate fuel c X (c.heads T) with
      | none => none
      | some pos =>
        if pos = NOT_A_DICT_POS then some (false, c)
        else if X ≠ (c.entries pos).targetTerminalId then some (false, c)
        else some (c.writeBigramEntry (c.entries pos).probability (c.entries pos).hasNext
          NOT_A_TERMINAL_ID pos) := by
  simp only [Ver4BigramListPolicy.removeEntry, BigramDictContent.getBigramListHeadPos, if_neg h,
    BigramDictContent.getBigramEntry]

theorem removeEntry_absent (p : Ver4BigramListPolicy) (fuel : Nat) (c : BigramDictContent)
    (T X : Int) (es : List BigramEntry) (hwf : c.heads T ≠ NOT_A_DICT_POS → HasList c T es)
    (habs : ∀ e ∈ es, e.targetTerminalId ≠ X) (hf : es.length ≤ fuel) :
    p.removeEntry fuel c T X = some (false, c) := by
  by_cases h : c.heads T = NOT_A_DICT_POS
  · simp [Ver4BigramListPolicy.removeEntry, BigramDictContent.getBigramListHeadPos, h]
  · obtain ⟨_, hc, hlk⟩ := hwf h
    rw [removeEntry_hasList p fuel c T X h]
    rcases exists_last_tombstone es with hlive | ⟨l, x, r, rfl, hx, hr⟩
    · rw [getEntryPosToUpdate_absent p c X _ es fuel hc hlk habs hlive hf]
      simp
    · rw [getEntryPosToUpdate_slot p c X _ l x r fuel hc hlk (Or.inr ⟨hx, habs, hr⟩) hf]
      have hx' : c.entries (c.heads T + l.length) = x := ((cells_append _ _ _ _).1 hc).2.1
      have hne : X ≠ x.targetTerminalId := fun h => habs x (by simp) h.symm
      simp only [hx', ne_eq, hne, not_false_eq_true, if_true, ite_self]

theorem removeEntry_present (p : Ver4BigramListPolicy) (fuel : Nat) (c : BigramDictContent)
    (T X : Int) (l : List BigramEntry) (x : BigramEntry) (r : List BigramEntry)
    (hl : HasList c T (l ++ x :: r)) (h0 : 0 ≤ c.heads T) (hx : x.targetTerminalId = X)
    (hfirst : ∀ e ∈ l, e.targetTerminalId ≠ X) (hf : (l ++ x :: r).length ≤ fuel) :
    p.removeEntry fuel c T X =
      some (c.writeBigramEntry x.probability x.hasNext NOT_A_TERMINAL_ID
        (c.heads T + l.length)) := by
  obtain ⟨hne, hc, hlk⟩ := hl
  rw [removeEntry_hasList p fuel c T X hne,
    getEntryPosToUpdate_slot p c X _ l x r fuel hc hlk (Or.inl ⟨hx, hfirst⟩) hf]
  have hx' : c.entries (c.heads T + l.length) = x := ((cells_append _ _ _ _).1 hc).2.1
  have hpos : c.heads T + (l.length : Int) ≠ NOT_A_DICT_POS := by
    have := NOT_A_DICT_POS_neg
    omega
  simp only [hx', hx, if_neg hpos, ne_eq, not_true_eq_false, if_false]

/-! ## The sweep as a whole -/

theorem forall₂_map_sweptEntry (p : Ver4BigramListPolicy) (R : BigramEntry → BigramEntry → Prop)
    (es : List BigramEntry) (h : ∀ e ∈ es, R e (p.sweptEntry e)) :
    List.Forall₂ R es (es.map p.sweptEntry) := by
  rw [List.forall₂_map_right_iff, List.forall₂_same]
  exact h

theorem sweep_success (p : Ver4BigramListPolicy) (fuel : Nat) (c c' : BigramDictContent)
    (T cnt cnt' : Int) (es : List BigramEntry) (hl : HasList c T es)
    (h : p.updateAllBigramEntriesAndDeleteUselessEntries fuel c T cnt = some (true, cnt', c')) :
    c'.heads = c.heads ∧ HasList c' T (es.map p.sweptEntry) ∧
      (IsInt32 cnt → cnt' = wrapInt32 (cnt + liveCount (es.map p.sweptEntry))) ∧
      (∀ q, q < c.heads T ∨ c.heads T + es.length ≤ q → c'.entries q = c.entries q) ∧
      c'.writable = c.writable ∧ c'.creatable = c.creatable ∧ c.tail ≤ c'.tail := by
  obtain ⟨hne, hc, hlk⟩ := hl
  simp only [Ver4BigramListPolicy.updateAllBigramEntriesAndDeleteUselessEntries,
    BigramDictContent.getBigramListHeadPos, if_neg hne] at h
  obtain ⟨i1, i2, i3, i4, i5, i6, i7⟩ := updateAllLoop_success p es _ fuel c cnt cnt' c' hc hlk h
  refine ⟨i1, ⟨?_, ?_, (linked_map_sweptEntry p es).2 hlk⟩, i3, i4, i5, i6, i7⟩
  · rw [i1]; exact hne
  · rw [i1]; exact i2

theorem sweep_total (p : Ver4BigramListPolicy) (fuel : Nat) (c : BigramDictContent)
    (T cnt : Int) (es : List BigramEntry) (hwf : c.heads T ≠ NOT_A_DICT_POS → HasList c T es)
    (hf : es.length ≤ fuel) :
    (p.updateAllBigramEntriesAndDeleteUselessEntries fuel c T cnt).isSome = true := by
  unfold Ver4BigramListPolicy.updateAllBigramEntriesAndDeleteUselessEntries
    BigramDictContent.getBigramListHeadPos
  by_cases h : c.heads T = NOT_A_DICT_POS
  · simp [h]
  · simp only [if_neg h]
    exact updateAllLoop_total p es _ fuel c cnt (hwf h).2.1 (hwf h).2.2 hf

theorem liveCount_map_sweptEntry (p : Ver4BigramListPolicy) (es : List BigramEntry) :
    liveCount (es.map p.sweptEntry) =
      ((es.filter (fun e => decide (e.IsLive ∧
        p.getTerminalPtNodePosition e.targetTerminalId ≠ NOT_A_DICT_POS ∧
        (p.mNeedsToDecayWhenUpdating = true →
          p.isValidEncodedProbability (p.getEncodedProbabilityToSave e.probability) = true)))).length
        : Int) := by
  induction es with
  | nil => rfl
  | cons e es ih =>
    rw [List.map_cons, liveCount_cons, ih, List.filter_cons]
    unfold Ver4BigramListPolicy.sweptEntry BigramEntry.IsLive
    by_cases h1 : e.targetTerminalId = NOT_A_TERMINAL_ID
    · simp [h1]
    · by_cases h2 : p.getTerminalPtNodePosition e.targetTerminalId = NOT_A_DICT_POS
      · simp [h1, h2]
      · by_cases h3 : p.mNeedsToDecayWhenUpdating = true
        · by_cases h4 : p.isValidEncodedProbability
              (p.getEncodedProbabilityToSave e.probability) = true
          · simp [h1, h2, h3, h4]; ring
          · simp [h1, h2, h3, h4]
        · simp [h1, h2, h3]; ring

/-! ## Iterations of the sweep -/

/-- One iteration of the sweep loop, as an equation: when the entry read has to be
written back and the write fails the sweep returns false; otherwise the entry is
replaced by its swept version (by a write, or not at all when nothing is to be
written), counted iff the swept version is live, and the loop goes on while hasNext. -/
theorem updateAllLoop_eq (p : Ver4BigramListPolicy) (fuel : Nat) (c : BigramDictContent)
    (cnt pos : Int) :
    p.updateAllLoop (fuel + 1) c cnt pos =
      if p.sweepWrites (c.entries pos) = true ∧ c.writable pos = false then
        some (false, cnt, c)
      else if (c.entries pos).hasNext then
        p.updateAllLoop fuel
          (if p.sweepWrites (c.entries pos) then
            { c with
              entries := Function.update c.entries pos (p.sweptEntry (c.entries pos))
              tail := max c.tail (pos + 1).toNat }
          else c)
          ((if (p.sweptEntry (c.entries pos)).targetTerminalId ≠ NOT_A_TERMINAL_ID
            then wrapInt32 (cnt + 1) else cnt)) (pos + 1)
      else some (true,
        (if (p.sweptEntry (c.entries pos)).targetTerminalId ≠ NOT_A_TERMINAL_ID
          then wrapInt32 (cnt + 1) else cnt),
        if p.sweepWrites (c.entries pos) then
          { c with
            entries := Function.update c.entries pos (p.sweptEntry (c.entries pos))
            tail := max c.tail (pos + 1).toNat }
        else c) := by
  by_cases h1 : (c.entries pos).targetTerminalId = NOT_A_TERMINAL_ID
  · simp [Ver4BigramListPolicy.updateAllLoop, Ver4BigramListPolicy.sweptEntry,
      Ver4BigramListPolicy.sweepWrites, BigramDictContent.getBigramEntryAndAdvancePosition, h1]
  · by_cases h2 : p.getTerminalPtNodePosition (c.entries pos).targetTerminalId = NOT_A_DICT_POS
    · by_cases hw : c.writable pos = true
      · simp [Ver4BigramListPolicy.updateAllLoop, Ver4BigramListPolicy.sweptEntry,
          Ver4BigramListPolicy.sweepWrites, BigramDictContent.getBigramEntryAndAdvancePosition,
          BigramDictContent.writeBigramEntry, h1, h2, hw]
      · simp [Ver4BigramListPolicy.updateAllLoop, Ver4BigramListPolicy.sweptEntry,
          Ver4BigramListPolicy.sweepWrites, BigramDictContent.getBigramEntryAndAdvancePosition,
          BigramDictContent.writeBigramEntry, h1, h2, hw]
    · by_cases h3 : p.mNeedsToDecayWhenUpdating = true
      · by_cases h4 : p.isValidEncodedProbability
            (p.getEncodedProbabilityToSave (c.entries pos).probability) = true
        · by_cases hw : c.writable pos = true
          · simp [Ver4BigramListPolicy.updateAllLoop, Ver4BigramListPolicy.sweptEntry,
              Ver4BigramListPolicy.sweepWrites,
              BigramDictContent.getBigramEntryAndAdvancePosition,
              BigramDictContent.writeBigramEntry, h1, h2, h3, h4, hw]
          · simp [Ver4BigramListPolicy.updateAllLoop, Ver4BigramListPolicy.sweptEntry,
              Ver4BigramListPolicy.sweepWrites,
              BigramDictContent.getBigramEntryAndAdvancePosition,
              BigramDictContent.writeBigramEntry, h1, h2, h3, h4, hw]
        · by_cases hw : c.writable pos = true
          · simp [Ver4BigramListPolicy.updateAllLoop, Ver4BigramListPolicy.sweptEntry,
              Ver4BigramListPolicy.sweepWrites,
              BigramDictContent.getBigramEntryAndAdvancePosition,
              BigramDictContent.writeBigramEntry, h1, h2, h3, h4, hw]
          · simp [Ver4BigramListPolicy.updateAllLoop, Ver4BigramListPolicy.sweptEntry,
              Ver4BigramListPolicy.sweepWrites,
              BigramDictContent.getBigramEntryAndAdvancePosition,
              BigramDictContent.writeBigramEntry, h1, h2, h3, h4, hw]
      · simp [Ver4BigramListPolicy.updateAllLoop, Ver4BigramListPolicy.sweptEntry,
          Ver4BigramListPolicy.sweepWrites, BigramDictContent.getBigramEntryAndAdvancePosition,
          h1, h2, h3]

theorem getBigramEntryConutLoop_short (c : BigramDictContent) (es : List BigramEntry) :
    ∀ (pos : Int) (fuel : Nat) (k : Int), Cells c.entries pos es → Linked es →
      fuel < es.length → Ver4BigramListPolicy.getBigramEntryConutLoop c fuel k pos = none := by
  induction es with
  | nil => intro _ _ _ _ hl; exact absurd hl (by simp [Linked])
  | cons e es ih =>
    intro pos fuel k hc hl hf
    obtain ⟨h1, h2⟩ := hc
    cases fuel with
    | zero => rfl
    | succ fuel =>
      simp only [List.length_cons, Nat.add_lt_add_iff_right] at hf
      rw [linked_cons] at hl
      rcases hl with ⟨a, b⟩ | ⟨_, b⟩
      · simp only [Ver4BigramListPolicy.getBigramEntryConutLoop,
          BigramDictContent.getBigramEntryAndAdvancePosition, h1, a, if_true]
        exact ih (pos + 1) fuel _ h2 b hf
      · subst b; simp at hf

theorem sweepStore_writable (c : BigramDictContent) (b : Bool) (pos : Int) (v : BigramEntry) :
    (if b then
        ({ c with
          entries := Function.update c.entries pos v
          tail := max c.tail (pos + 1).toNat } : BigramDictContent)
      else c).writable = c.writable := by
  cases b <;> rfl

theorem sweepStore_cells (c : BigramDictContent) (b : Bool) (pos : Int) (v : BigramEntry)
    (es : List BigramEntry) (h : Cells c.entries (pos + 1) es) :
    Cells (if b then
        ({ c with
          entries := Function.update c.entries pos v
          tail := max c.tail (pos + 1).toNat } : BigramDictContent)
      else c).entries (pos + 1) es := by
  cases b
  · exact h
  · exact cells_update_outside _ (Or.inl (by omega)) h

theorem updateAllLoop_short (p : Ver4BigramListPolicy) (es : List BigramEntry) :
    ∀ (pos : Int) (fuel : Nat) (c : BigramDictContent) (cnt : Int),
      Cells c.entries pos es → Linked es →
      (∀ q, pos ≤ q → q < pos + es.length → c.writable q = true) → fuel < es.length →
      p.updateAllLoop fuel c cnt pos = none := by
  induction es with
  | nil => intro _ _ _ _ _ hl; exact absurd hl (by simp [Linked])
  | cons e es ih =>
    intro pos fuel c cnt hc hl hw hf
    obtain ⟨h1, h2⟩ := hc
    have hlen : ((e :: es).length : Int) = es.length + 1 := by simp
    cases fuel with
    | zero => rfl
    | succ fuel =>
      simp only [List.length_cons, Nat.add_lt_add_iff_right] at hf
      have hwp : c.writable pos = true := hw pos le_rfl (by omega)
      rw [updateAllLoop_eq, if_neg (by simp [hwp]), h1]
      rw [linked_cons] at hl
      rcases hl with ⟨a, b⟩ | ⟨_, b⟩
      · rw [if_pos a]
        refine ih (pos + 1) fuel _ _ (sweepStore_cells c _ pos _ es h2) b ?_ hf
        intro q hq1 hq2
        rw [sweepStore_writable]
        exact hw q (by omega) (by omega)
      · subst b; simp at hf

theorem updateAllLoop_writable (p : Ver4BigramListPolicy) (es : List BigramEntry) :
    ∀ (pos : Int) (fuel : Nat) (c : BigramDictContent) (cnt : Int),
      Cells c.entries pos es → Linked es →
      (∀ q, pos ≤ q → q < pos + es.length → c.writable q = true) → es.length ≤ fuel →
      ∃ cnt' c', p.updateAllLoop fuel c cnt pos = some (true, cnt', c') := by
  induction es with
  | nil => intro _ _ _ _ _ hl; exact absurd hl (by simp [Linked])
  | cons e es ih =>
    intro pos fuel c cnt hc hl hw hf
    obtain ⟨h1, h2⟩ := hc
    have hlen : ((e :: es).length : Int) = es.length + 1 := by simp
    cases fuel with
    | zero => simp at hf
    | succ fuel =>
      simp only [List.length_cons, Nat.add_le_add_iff_right] at hf
      have hwp : c.writable pos = true := hw pos le_rfl (by omega)
      rw [updateAllLoop_eq, if_neg (by simp [hwp]), h1]
      rw [linked_cons] at hl
      rcases hl with ⟨a, b⟩ | ⟨a, _⟩
      · rw [if_pos a]
        refine ih (pos + 1) fuel _ _ (sweepStore_cells c _ pos _ es h2) b ?_ hf
        intro q hq1 hq2
        rw [sweepStore_writable]
        exact hw q (by omega) (by omega)
      · rw [if_neg (by simp [a])]
        exact ⟨_, _, rfl⟩

theorem sweptEntry_of_not_sweepWrites (p : Ver4BigramListPolicy) (e : BigramEntry)
    (h : p.sweepWrites e = false) : p.sweptEntry e = e := by
  unfold Ver4BigramListPolicy.sweepWrites at h
  unfold Ver4BigramListPolicy.sweptEntry
  by_cases h1 : e.targetTerminalId = NOT_A_TERMINAL_ID
  · simp [h1]
  · by_cases h2 : p.getTerminalPtNodePosition e.targetTerminalId = NOT_A_DICT_POS
    · simp [h1, h2] at h
    · by_cases h3 : p.mNeedsToDecayWhenUpdating = true
      · simp [h1, h2, h3] at h
      · simp [h1, h2, h3]

theorem sweepWrites_sweptEntry_static (p : Ver4BigramListPolicy) (e : BigramEntry)
    (hs : p.mNeedsToDecayWhenUpdating = false) : p.sweepWrites (p.sweptEntry e) = false := by
  unfold Ver4BigramListPolicy.sweepWrites Ver4BigramListPolicy.sweptEntry
  by_cases h1 : e.targetTerminalId = NOT_A_TERMINAL_ID
  · simp [h1]
  · by_cases h2 : p.getTerminalPtNodePosition e.targetTerminalId = NOT_A_DICT_POS
    · simp [h1, h2]
    · simp [h1, h2, hs]

/-- A sweep over a list none of whose entries has to be written back leaves the content
as it is, whatever the codec could write, and counts the live entries. -/
theorem updateAllLoop_noWrite (p : Ver4BigramListPolicy) (es : List BigramEntry) :
    ∀ (pos : Int) (fuel : Nat) (c : BigramDictContent) (cnt : Int),
      Cells c.entries pos es → Linked es → (∀ e ∈ es, p.sweepWrites e = false) →
      es.length ≤ fuel → IsInt32 cnt →
      p.updateAllLoop fuel c cnt pos = some (true, wrapInt32 (cnt + liveCount es), c) := by
  induction es with
  | nil => intro _ _ _ _ _ hl; exact absurd hl (by simp [Linked])
  | cons e es ih =>
    intro pos fuel c cnt hc hl hn hf hin
    obtain ⟨h1, h2⟩ := hc
    cases fuel with
    | zero => simp at hf
    | succ fuel =>
      simp only [List.length_cons, Nat.add_le_add_iff_right] at hf
      have hne : p.sweepWrites e = false := hn e (List.mem_cons_self _ _)
      rw [updateAllLoop_eq, h1, if_neg (by simp [hne]), sweptEntry_of_not_sweepWrites p e hne,
        liveCount_cons]
      simp only [hne, Bool.false_eq_true, if_false]
      have hin1 : IsInt32
          (if e.targetTerminalId ≠ NOT_A_TERMINAL_ID then wrapInt32 (cnt + 1) else cnt) := by
        split_ifs
        · exact wrapInt32_isInt32 _
        · exact hin
      have hsum : ∀ m : Int,
          wrapInt32 ((if e.targetTerminalId ≠ NOT_A_TERMINAL_ID then wrapInt32 (cnt + 1)
            else cnt) + m) =
          wrapInt32 (cnt + ((if e.targetTerminalId ≠ NOT_A_TERMINAL_ID then 1 else 0) + m)) := by
        intro m
        by_cases hlive : e.targetTerminalId ≠ NOT_A_TERMINAL_ID
        · rw [if_pos hlive, if_pos hlive, wrapInt32_add, add_assoc]
        · rw [if_neg hlive, if_neg hlive, zero_add]
      rw [linked_cons] at hl
      rcases hl with ⟨a, b⟩ | ⟨a, b⟩
      · rw [if_pos a, ih (pos + 1) fuel c _ h2 b
          (fun e' he' => hn e' (List.mem_cons_of_mem _ he')) hf hin1, hsum]
      · subst b
        rw [if_neg (by simp [a]), liveCount_nil, ← hsum 0, add_zero, wrapInt32_of_isInt32 hin1]

theorem getBigramEntryConut_hasList (p : Ver4BigramListPolicy) (c : BigramDictContent) (T : Int)
    (es : List BigramEntry) (hl : HasList c T es) (fuel : Nat) (hf : es.length ≤ fuel) :
    p.getBigramEntryConut fuel c T = some (liveCount es) := by
  simp only [Ver4BigramListPolicy.getBigramEntryConut, BigramDictContent.getBigramListHeadPos,
    if_neg hl.1]
  rw [getBigramEntryConutLoop_spec c es _ fuel 0 hl.2.1 hl.2.2 hf, zero_add]

theorem liveCount_append (l r : List BigramEntry) :
    liveCount (l ++ r) = liveCount l + liveCount r := by
  simp [liveCount]

/-! ## Well-formedness of every list -/

/-- Rewriting entries without changing any hasNext keeps every chain a chain. -/
theorem chain_of_same_hasNext {f f' : Int → BigramEntry}
    (h : ∀ q, (f' q).hasNext = (f q).hasNext) (es : List BigramEntry) :
    ∀ pos, Cells f pos es → Linked es → ∃ es', Cells f' pos es' ∧ Linked es' := by
  induction es with
  | nil => intro _ _ hl; exact absurd hl (by simp [Linked])
  | cons e es ih =>
    intro pos hc hl
    obtain ⟨h1, h2⟩ := hc
    have he : (f' pos).hasNext = e.hasNext := by rw [h pos, h1]
    rw [linked_cons] at hl
    rcases hl with ⟨a, b⟩ | ⟨a, _⟩
    · obtain ⟨es', hc', hl'⟩ := ih (pos + 1) h2 b
      refine ⟨f' pos :: es', ⟨rfl, hc'⟩, ?_⟩
      rw [linked_cons]
      exact Or.inl ⟨he.trans a, hl'⟩
    · refine ⟨[f' pos], ⟨rfl, trivial⟩, ?_⟩
      rw [linked_cons]
      exact Or.inr ⟨he.trans a, rfl⟩

/-- From any position inside a chain, the rest of the chain is a chain. -/
theorem chain_suffix {f : Int → BigramEntry} (seg : List BigramEntry) :
    ∀ a pos, Cells f a seg → Linked seg → a ≤ pos → pos < a + seg.length →
      ∃ es', Cells f pos es' ∧ Linked es' := by
  induction seg with
  | nil => intro _ _ _ hl; exact absurd hl (by simp [Linked])
  | cons e rest ih =>
    intro a pos hc hl h1 h2
    have hlen : ((e :: rest).length : Int) = rest.length + 1 := by simp
    by_cases hp : pos = a
    · subst hp; exact ⟨e :: rest, hc, hl⟩
    · rw [linked_cons] at hl
      rcases hl with ⟨_, b⟩ | ⟨_, b⟩
      · exact ih (a + 1) pos hc.2 b (by omega) (by omega)
      · subst b
        simp only [List.length_singleton, Nat.cast_one] at h2
        omega

/-- Writing a chain `seg` at `a` and nothing elsewhere keeps every chain a chain: it
goes on as before, or runs into `seg` and ends where `seg` ends. -/
theorem chain_of_fresh_segment {f f' : Int → BigramEntry} {a : Int} {seg : List BigramEntry}
    (hseg : Cells f' a seg) (hlk : Linked seg)
    (hout : ∀ q, q < a ∨ a + seg.length ≤ q → f' q = f q) (es : List BigramEntry) :
    ∀ pos, Cells f pos es → Linked es → ∃ es', Cells f' pos es' ∧ Linked es' := by
  induction es with
  | nil => intro _ _ hl; exact absurd hl (by simp [Linked])
  | cons e es ih =>
    intro pos hc hl
    by_cases hin : a ≤ pos ∧ pos < a + seg.length
    · exact chain_suffix seg a pos hseg hlk hin.1 hin.2
    · obtain ⟨h1, h2⟩ := hc
      have he : f' pos = e := by rw [hout pos (by omega), h1]
      rw [linked_cons] at hl
      rcases hl with ⟨a1, b⟩ | ⟨a1, _⟩
      · obtain ⟨es', hc', hl'⟩ := ih (pos + 1) h2 b
        refine ⟨e :: es', ⟨he, hc'⟩, ?_⟩
        rw [linked_cons]
        exact Or.inl ⟨a1, hl'⟩
      · refine ⟨[e], ⟨he, trivial⟩, ?_⟩
        rw [linked_cons]
        exact Or.inr ⟨a1, rfl⟩

/-- A copy that returns true has written a chain at its destination and nothing
elsewhere, wherever the source is. -/
theorem copyBigramList_writes_chain :
    ∀ (fuel : Nat) (c c' : BigramDictContent) (src dst : Int),
      BigramDictContent.copyBigramList fuel c src dst = some (true, c') →
      c'.heads = c.heads ∧ ∃ seg, Cells c'.entries dst seg ∧ Linked seg ∧
        ∀ q, q < dst ∨ dst + seg.length ≤ q → c'.entries q = c.entries q := by
  intro fuel
  induction fuel with
  | zero => intro c c' src dst h; simp [BigramDictContent.copyBigramList] at h
  | succ fuel ih =>
    intro c c' src dst h
    rw [copyBigramList_step] at h
    by_cases hw : c.writable dst = true
    · rw [if_pos hw] at h
      by_cases hn : (c.entries src).hasNext = true
      · rw [if_pos hn] at h
        obtain ⟨i1, seg, i2, i3, i4⟩ := ih _ c' (src + 1) (dst + 1) h
        refine ⟨i1, c.entries src :: seg, ⟨?_, i2⟩, ?_, ?_⟩
        · rw [i4 dst (Or.inl (by omega))]
          exact Function.update_same _ _ _
        · rw [linked_cons]; exact Or.inl ⟨hn, i3⟩
        · intro q hq
          have hlen : ((c.entries src :: seg).length : Int) = seg.length + 1 := by simp
          rw [i4 q (by omega)]
          exact Function.update_noteq (by omega) _ _
      · rw [if_neg hn] at h
        simp only [Option.some.injEq, Prod.mk.injEq, true_and] at h
        subst h
        refine ⟨rfl, [c.entries src], ⟨Function.update_same _ _ _, trivial⟩, ?_, ?_⟩
        · rw [linked_cons]; exact Or.inr ⟨by simpa using hn, rfl⟩
        · intro q hq
          simp only [List.length_singleton, Nat.cast_one] at hq
          exact Function.update_noteq (by omega) _ _
    · rw [if_neg hw] at h; simp at h

theorem updateAllLoop_same_hasNext (p : Ver4BigramListPolicy) :
    ∀ (fuel : Nat) (c c' : BigramDictContent) (cnt cnt' pos : Int),
      p.updateAllLoop fuel c cnt pos = some (true, cnt', c') →
      c'.heads = c.heads ∧ ∀ q, (c'.entries q).hasNext = (c.entries q).hasNext := by
  intro fuel
  induction fuel with
  | zero => intro c c' cnt cnt' pos h; simp [Ver4BigramListPolicy.updateAllLoop] at h
  | succ fuel ih =>
    intro c c' cnt cnt' pos h
    rw [updateAllLoop_eq] at h
    have hstore : ∀ b : Bool,
        (if b then
            ({ c with
              entries := Function.update c.entries pos (p.sweptEntry (c.entries pos))
              tail := max c.tail (pos + 1).toNat } : BigramDictContent)
          else c).heads = c.heads ∧
        ∀ q, ((if b then
            ({ c with
              entries := Function.update c.entries pos (p.sweptEntry (c.entries pos))
              tail := max c.tail (pos + 1).toNat } : BigramDictContent)
          else c).entries q).hasNext = (c.entries q).hasNext := by
      intro b
      cases b
      · exact ⟨rfl, fun _ => rfl⟩
      · refine ⟨rfl, fun q => ?_⟩
        by_cases hq : q = pos
        · subst hq
          simp only [if_true, Function.update_same]
          exact sweptEntry_hasNext p _
        · simp only [if_true, Function.update_noteq hq]
    by_cases h1 : p.sweepWrites (c.entries pos) = true ∧ c.writable pos = false
    · rw [if_pos h1] at h; simp at h
    · rw [if_neg h1] at h
      by_cases h2 : (c.entries pos).hasNext = true
      · rw [if_pos h2] at h
        obtain ⟨i1, i2⟩ := ih _ c' _ cnt' _ h
        exact ⟨i1.trans (hstore _).1, fun q => (i2 q).trans ((hstore _).2 q)⟩
      · rw [if_neg h2] at h
        simp only [Option.some.injEq, Prod.mk.injEq, true_and] at h
        rw [← h.2]
        exact hstore _

theorem wellFormed_of_same_hasNext {c c' : BigramDictContent} (hwf : WellFormedStore c)
    (hh : c'.heads = c.heads) (hn : ∀ q, (c'.entries q).hasNext = (c.entries q).hasNext) :
    WellFormedStore c' := by
  intro t ht
  rw [hh] at ht
  obtain ⟨es, _, hc, hl⟩ := hwf t ht
  obtain ⟨es', hc', hl'⟩ := chain_of_same_hasNext hn es _ hc hl
  exact ⟨es', by rw [hh]; exact ht, by rw [hh]; exact hc', hl'⟩

theorem wellFormed_of_fresh_list {c c' : BigramDictContent} {T : Int} {seg : List BigramEntry}
    (hwf : WellFormedStore c) (hh : c'.heads = Function.update c.heads T c.tail)
    (hseg : Cells c'.entries c.tail seg) (hlk : Linked seg)
    (hout : ∀ q, q < (c.tail : Int) ∨ (c.tail : Int) + seg.length ≤ q →
      c'.entries q = c.entries q) :
    WellFormedStore c' := by
  intro t ht
  by_cases htT : t = T
  · subst htT
    have hhead : c'.heads t = c.tail := by rw [hh]; exact Function.update_same _ _ _
    exact ⟨seg, ht, by rw [hhead]; exact hseg, hlk⟩
  · have hhead : c'.heads t = c.heads t := by rw [hh]; exact Function.update_noteq htT _ _
    rw [hhead] at ht
    obtain ⟨es, _, hc, hl⟩ := hwf t ht
    obtain ⟨es', hc', hl'⟩ := chain_of_fresh_segment hseg hlk hout es _ hc hl
    exact ⟨es', by rw [hhead]; exact ht, by rw [hhead]; exact hc', hl'⟩

theorem wellFormed_addNewEntry (p : Ver4BigramListPolicy) (fuel : Nat)
    (c c' : BigramDictContent) (T X P : Int) (flag : Bool) (hwf : WellFormedStore c)
    (h : p.addNewEntry fuel c T X P = some (true, flag, c')) : WellFormedStore c' := by
  by_cases hh : c.heads T = NOT_A_DICT_POS
  · rw [addNewEntry_noList p fuel c T X P hh] at h
    by_cases h1 : c.creatable T = true
    · by_cases h2 : c.writable c.tail = true
      · simp only [h1, h2, if_true, Option.some.injEq, Prod.mk.injEq, true_and] at h
        obtain ⟨_, hc'⟩ := h
        subst hc'
        refine wellFormed_of_fresh_list hwf rfl
          (show Cells _ _ [⟨p.getUpdatedProbability NOT_A_PROBABILITY P, false, X⟩] from
            ⟨Function.update_same _ _ _, trivial⟩) (by simp [Linked]) ?_
        intro q hq
        simp only [List.length_singleton, Nat.cast_one] at hq
        exact Function.update_noteq (by omega) _ _
      · simp [h1, h2] at h
    · simp [h1] at h
  · rw [addNewEntry_hasList p fuel c T X P hh] at h
    cases hg : p.getEntryPosToUpdate fuel c X (c.heads T) with
    | none => rw [hg] at h; simp at h
    | some pos =>
      rw [hg] at h
      simp only at h
      by_cases hpos : pos ≠ NOT_A_DICT_POS
      · rw [if_pos hpos] at h
        by_cases hw : c.writable pos = true
        · simp only [BigramDictContent.writeBigramEntry, hw, if_true, Option.some.injEq,
            Prod.mk.injEq, true_and] at h
          obtain ⟨_, hc'⟩ := h
          subst hc'
          refine wellFormed_of_same_hasNext hwf rfl (fun q => ?_)
          by_cases hq : q = pos
          · subst hq; simp only [Function.update_same]
          · simp only [Function.update_noteq hq]
        · simp [BigramDictContent.writeBigramEntry, hw] at h
      · rw [if_neg hpos] at h
        by_cases h1 : c.creatable T = true
        · by_cases h2 : c.writable c.tail = true
          · rw [if_pos h1, if_pos h2] at h
            cases hcp : BigramDictContent.copyBigramList fuel
              { c with
                heads := Function.update c.heads T c.tail
                entries := Function.update c.entries c.tail
                  ⟨p.getUpdatedProbability NOT_A_PROBABILITY P, true, X⟩
                tail := max c.tail ((c.tail : Int) + 1).toNat } (c.heads T)
              ((c.tail : Int) + 1) with
            | none => rw [hcp] at h; simp at h
            | some cp =>
              rw [hcp] at h
              simp only [Option.some.injEq, Prod.mk.injEq] at h
              obtain ⟨hok, _, hc'⟩ := h
              have hcp' : BigramDictContent.copyBigramList fuel
                  { c with
                    heads := Function.update c.heads T c.tail
                    entries := Function.update c.entries c.tail
                      ⟨p.getUpdatedProbability NOT_A_PROBABILITY P, true, X⟩
                    tail := max c.tail ((c.tail : Int) + 1).toNat } (c.heads T)
                  ((c.tail : Int) + 1) = some (true, c') := by
                rw [hcp, ← hok, ← hc']
              obtain ⟨i1, seg, i2, i3, i4⟩ := copyBigramList_writes_chain fuel _ c' _ _ hcp'
              have hlen : ((⟨p.getUpdatedProbability NOT_A_PROBABILITY P, true, X⟩ :: seg
                  : List BigramEntry).length : Int) = seg.length + 1 := by simp
              refine wellFormed_of_fresh_list hwf i1
                (show Cells _ _ (⟨p.getUpdatedProbability NOT_A_PROBABILITY P, true, X⟩ :: seg)
                  from ⟨?_, i2⟩) ?_ ?_
              · rw [i4 c.tail (Or.inl (by omega))]
                exact Function.update_same _ _ _
              · rw [linked_cons]; exact Or.inl ⟨rfl, i3⟩
              · intro q hq
                rw [i4 q (by omega)]
                exact Function.update_noteq (by omega) _ _
          · rw [if_pos h1, if_neg h2] at h; simp at h
        · rw [if_neg h1] at h; simp at h

theorem wellFormed_removeEntry (p : Ver4BigramListPolicy) (fuel : Nat)
    (c c' : BigramDictContent) (T X : Int) (hwf : WellFormedStore c)
    (h : p.removeEntry fuel c T X = some (true, c')) : WellFormedStore c' := by
  by_cases hh : c.heads T = NOT_A_DICT_POS
  · simp [Ver4BigramListPolicy.removeEntry, BigramDictContent.getBigramListHeadPos, hh] at h
  · rw [removeEntry_hasList p fuel c T X hh] at h
    cases hg : p.getEntryPosToUpdate fuel c X (c.heads T) with
    | none => rw [hg] at h; simp at h
    | some pos =>
      rw [hg] at h
      simp only at h
      split_ifs at h with h1 h2
      · simp at h
      · simp at h
      · by_cases hw : c.writable pos = true
        · simp only [BigramDictContent.writeBigramEntry, hw, if_true, Option.some.injEq,
            Prod.mk.injEq, true_and] at h
          subst h
          refine wellFormed_of_same_hasNext hwf rfl (fun q => ?_)
          by_cases hq : q = pos
          · subst hq; simp only [Function.update_same]
          · simp only [Function.update_noteq hq]
        · simp [BigramDictContent.writeBigramEntry, hw] at h

theorem wellFormed_sweep (p : Ver4BigramListPolicy) (fuel : Nat)
    (c c' : BigramDictContent) (T cnt cnt' : Int) (hwf : WellFormedStore c)
    (h : p.updateAllBigramEntriesAndDeleteUselessEntries fuel c T cnt = some (true, cnt', c')) :
    WellFormedStore c' := by
  by_cases hh : c.heads T = NOT_A_DICT_POS
  · simp only [Ver4BigramListPolicy.updateAllBigramEntriesAndDeleteUselessEntries,
      BigramDictContent.getBigramListHeadPos, hh, if_true, Option.some.injEq, Prod.mk.injEq,
      true_and] at h
    rw [← h.2]; exact hwf
  · simp only [Ver4BigramListPolicy.updateAllBigramEntriesAndDeleteUselessEntries,
      BigramDictContent.getBigramListHeadPos, if_neg hh] at h
    obtain ⟨i1, i2⟩ := updateAllLoop_same_hasNext p fuel c c' cnt cnt' _ h
    exact wellFormed_of_same_hasNext hwf i1 i2

/-! ## Claims -/

theorem exampleContent_hasList : HasList exampleContent 5 exampleList := by
  refine ⟨by decide, ⟨rfl, rfl, rfl, trivial⟩, ?_⟩
  simp [exampleList, Linked]

theorem exampleContent_inRegion : InRegion exampleContent 5 exampleList :=
  ⟨by decide, by decide⟩

theorem fullContent_hasList : HasList fullContent 5 fullList := by
  refine ⟨by decide, ⟨rfl, rfl, trivial⟩, ?_⟩
  simp [fullList, Linked]

theorem fullContent_inRegion : InRegion fullContent 5 fullList :=
  ⟨by decide, by decide⟩

/-- C9: `getBigramEntryConut` returns 0 for a terminal without list head and otherwise,
the list being the well-formed chain `es`, the number of entries of `es` whose target is
not `NOT_A_TERMINAL_ID`, whenever the fuel covers the list.  The method only reads the
content (it has no content among its results), so the store is unchanged. -/
theorem getBigramEntryConut_eq_liveCount (p : Ver4BigramListPolicy) (c : BigramDictContent)
    (T : Int) (es : List BigramEntry) (hwf : c.heads T ≠ NOT_A_DICT_POS → HasList c T es)
    (fuel : Nat) (hf : es.length ≤ fuel) :
    p.getBigramEntryConut fuel c T =
      some (if c.heads T = NOT_A_DICT_POS then 0 else liveCount es) := by
  unfold Ver4BigramListPolicy.getBigramEntryConut BigramDictContent.getBigramListHeadPos
  by_cases h : c.heads T = NOT_A_DICT_POS
  · simp [h]
  · obtain ⟨_, hc, hl⟩ := hwf h
    simp only [if_neg h]
    rw [getBigramEntryConutLoop_spec c es _ fuel 0 hc hl hf, zero_add]

theorem getBigramEntryConut_eq_liveCount_witness :
    HasList exampleContent 5 exampleList ∧
      (examplePolicy false).getBigramEntryConut 3 exampleContent 5 = some 2 :=
  ⟨exampleContent_hasList,
    getBigramEntryConut_eq_liveCount (examplePolicy false) exampleContent 5 exampleList
      (fun _ => exampleContent_hasList) 3 (by decide)⟩

theorem wrapInt32_add_nonneg {cnt n : Int} (hcnt : IsInt32 cnt) (hn : 0 ≤ n)
    (h : cnt + n ≤ 2147483647) : wrapInt32 (cnt + n) = cnt + n :=
  wrapInt32_of_isInt32 ⟨by have := hcnt.1; omega, h⟩

/-- C10: on a well-formed list a sweep returns (enough fuel given), and a successful
sweep entered with `*outBigramCount = cnt`, a C++ `int`, ends with `cnt + n` computed
in `int`, where `n` is the number of live entries of the terminal's list after the
sweep, which is what `getBigramEntryConut` returns on the resulting content: it is
`cnt + n` when that sum does not exceed `INT_MAX`, and `cnt + n` reduced to 32 bits in
any case.  For a terminal without list the sweep returns true with the count and the
content unchanged. -/
theorem sweep_adds_live_count (p : Ver4BigramListPolicy) (c : BigramDictContent) (T cnt : Int)
    (es : List BigramEntry) (hwf : c.heads T ≠ NOT_A_DICT_POS → HasList c T es)
    (hcnt : IsInt32 cnt) :
    (∀ fuel, es.length ≤ fuel →
      (p.updateAllBigramEntriesAndDeleteUselessEntries fuel c T cnt).isSome = true) ∧
    (c.heads T = NOT_A_DICT_POS → ∀ fuel,
      p.updateAllBigramEntriesAndDeleteUselessEntries fuel c T cnt = some (true, cnt, c)) ∧
    ∀ fuel cnt' c',
      p.updateAllBigramEntriesAndDeleteUselessEntries fuel c T cnt = some (true, cnt', c') →
      ∃ n : Int,
        (∀ fuel', es.length ≤ fuel' → p.getBigramEntryConut fuel' c' T = some n) ∧
        cnt' = wrapInt32 (cnt + n) ∧
        (cnt + n ≤ 2147483647 → cnt' = cnt + n) ∧
        (c.heads T ≠ NOT_A_DICT_POS →
          ∃ es', HasList c' T es' ∧ es'.length = es.length ∧ n = liveCount es') := by
  refine ⟨fun fuel hf => sweep_total p fuel c T cnt es hwf hf, ?_, ?_⟩
  · intro h fuel
    simp [Ver4BigramListPolicy.updateAllBigramEntriesAndDeleteUselessEntries,
      BigramDictContent.getBigramListHeadPos, h]
  · intro fuel cnt' c' h
    by_cases hh : c.heads T = NOT_A_DICT_POS
    · simp only [Ver4BigramListPolicy.updateAllBigramEntriesAndDeleteUselessEntries,
        BigramDictContent.getBigramListHeadPos, hh, if_true, Option.some.injEq, Prod.mk.injEq,
        true_and] at h
      obtain ⟨h1, h2⟩ := h
      subst h1 h2
      refine ⟨0, fun fuel' _ => ?_, ?_, fun _ => (add_zero _).symm, fun hne => absurd hh hne⟩
      · simp [Ver4BigramListPolicy.getBigramEntryConut,
          BigramDictContent.getBigramListHeadPos, hh]
      · rw [add_zero, wrapInt32_of_isInt32 hcnt]
    · obtain ⟨_, i2, i3, _⟩ := sweep_success p fuel c c' T cnt cnt' es (hwf hh) h
      refine ⟨liveCount (es.map p.sweptEntry), fun fuel' hf => ?_, i3 hcnt, fun hle => ?_,
        fun _ => ⟨_, i2, List.length_map _ _, rfl⟩⟩
      · obtain ⟨j1, j2, j3⟩ := i2
        simp only [Ver4BigramListPolicy.getBigramEntryConut,
          BigramDictContent.getBigramListHeadPos, if_neg j1]
        rw [getBigramEntryConutLoop_spec c' _ _ fuel' 0 j2 j3 (by simpa using hf), zero_add]
      · rw [i3 hcnt, wrapInt32_add_nonneg hcnt (liveCount_nonneg _) hle]

theorem sweep_adds_live_count_witness :
    HasList exampleContent 5 exampleList ∧ IsInt32 10 ∧ IsInt32 2147483647 ∧
    (∃ c', (examplePolicy false).updateAllBigramEntriesAndDeleteUselessEntries 3 exampleContent 5
        10 = some (true, 11, c') ∧
      ∃ n : Int, (∀ fuel', exampleList.length ≤ fuel' →
          (examplePolicy false).getBigramEntryConut fuel' c' 5 = some n) ∧
        (11 : Int) = wrapInt32 (10 + n) ∧ (10 + n ≤ 2147483647 → (11 : Int) = 10 + n) ∧
        (exampleContent.heads 5 ≠ NOT_A_DICT_POS →
          ∃ es', HasList c' 5 es' ∧ es'.length = exampleList.length ∧ n = liveCount es')) ∧
    (∃ c', (examplePolicy false).updateAllBigramEntriesAndDeleteUselessEntries 3 exampleContent 5
        2147483647 = some (true, -2147483648, c') ∧
      ∃ n : Int, (∀ fuel', exampleList.length ≤ fuel' →
          (examplePolicy false).getBigramEntryConut fuel' c' 5 = some n) ∧
        (-2147483648 : Int) = wrapInt32 (2147483647 + n) ∧
        (2147483647 + n ≤ 2147483647 → (-2147483648 : Int) = 2147483647 + n) ∧
        (exampleContent.heads 5 ≠ NOT_A_DICT_POS →
          ∃ es', HasList c' 5 es' ∧ es'.length = exampleList.length ∧ n = liveCount es')) :=
  ⟨exampleContent_hasList, by decide, by decide,
    ⟨_, rfl, (sweep_adds_live_count (examplePolicy false) exampleContent 5 10 exampleList
      (fun _ => exampleContent_hasList) (by decide)).2.2 3 11 _ rfl⟩,
    ⟨_, rfl, (sweep_adds_live_count (examplePolicy false) exampleContent 5 2147483647
      exampleList (fun _ => exampleContent_hasList) (by decide)).2.2 3 (-2147483648) _ rfl⟩⟩

/-- C7: on a well-formed list a sweep returns (enough fuel given), and after a successful
sweep the list has the same head and, entry by entry in chain order: an entry that was
live and whose target the resolver maps to `NOT_A_DICT_POS` has become a tombstone with
its probability and hasNext unchanged; with decay disabled every other entry is what it
was.  The count, a C++ `int`, has been incremented once for each entry that was live,
resolvable and (in decay mode) still valid, so a dangling entry contributes nothing: it
is the initial count plus the number `n` of those entries when that sum does not exceed
`INT_MAX`, and that sum reduced to 32 bits in any case. -/
theorem sweep_prunes_dangling (p : Ver4BigramListPolicy) (c : BigramDictContent) (T cnt : Int)
    (es : List BigramEntry) (hl : HasList c T es) :
    (∀ fuel, es.length ≤ fuel →
      (p.updateAllBigramEntriesAndDeleteUselessEntries fuel c T cnt).isSome = true) ∧
    ∀ fuel cnt' c',
      p.updateAllBigramEntriesAndDeleteUselessEntries fuel c T cnt = some (true, cnt', c') →
      c'.heads T = c.heads T ∧
      ∃ es', HasList c' T es' ∧
        List.Forall₂ (fun e e' =>
          (e.IsLive → p.getTerminalPtNodePosition e.targetTerminalId = NOT_A_DICT_POS →
            e' = ⟨e.probability, e.hasNext, NOT_A_TERMINAL_ID⟩) ∧
          (p.mNeedsToDecayWhenUpdating = false →
            ¬ (e.IsLive ∧ p.getTerminalPtNodePosition e.targetTerminalId = NOT_A_DICT_POS) →
            e' = e)) es es' ∧
        ∃ n : Int, n = ((es.filter (fun e => decide (e.IsLive ∧
            p.getTerminalPtNodePosition e.targetTerminalId ≠ NOT_A_DICT_POS ∧
            (p.mNeedsToDecayWhenUpdating = true →
              p.isValidEncodedProbability (p.getEncodedProbabilityToSave e.probability) = true)))).length
            : Int) ∧
          (IsInt32 cnt → cnt' = wrapInt32 (cnt + n) ∧
            (cnt + n ≤ 2147483647 → cnt' = cnt + n)) := by
  refine ⟨fun fuel hf => sweep_total p fuel c T cnt es (fun _ => hl) hf, ?_⟩
  intro fuel cnt' c' h
  obtain ⟨i1, i2, i3, _⟩ := sweep_success p fuel c c' T cnt cnt' es hl h
  refine ⟨by rw [i1], es.map p.sweptEntry, i2, ?_, _, rfl, ?_⟩
  · refine forall₂_map_sweptEntry p _ es (fun e _ => ⟨?_, ?_⟩)
    · intro hlive hd
      have hlive' : e.targetTerminalId ≠ NOT_A_TERMINAL_ID := hlive
      simp [Ver4BigramListPolicy.sweptEntry, hlive', hd]
    · intro hs hnd
      unfold Ver4BigramListPolicy.sweptEntry
      by_cases h1 : e.targetTerminalId = NOT_A_TERMINAL_ID
      · simp [h1]
      · have h2 : p.getTerminalPtNodePosition e.targetTerminalId ≠ NOT_A_DICT_POS :=
          fun h2 => hnd ⟨h1, h2⟩
        simp [h1, h2, hs]
  · intro hcnt
    rw [← liveCount_map_sweptEntry]
    exact ⟨i3 hcnt, fun hle => by
      rw [i3 hcnt, wrapInt32_add_nonneg hcnt (liveCount_nonneg _) hle]⟩

theorem sweep_prunes_dangling_witness :
    HasList exampleContent 5 exampleList ∧
    ((examplePolicy false).updateAllBigramEntriesAndDeleteUselessEntries 3 exampleContent 5
        2147483647).map (fun r => (r.1, r.2.1)) = some (true, -2147483648) ∧
    ∃ c', (examplePolicy false).updateAllBigramEntriesAndDeleteUselessEntries 3 exampleContent 5 10
        = some (true, 11, c') ∧
      ∃ es', HasList c' 5 es' ∧
        List.Forall₂ (fun e e' =>
          (e.IsLive →
            (examplePolicy false).getTerminalPtNodePosition e.targetTerminalId = NOT_A_DICT_POS →
            e' = ⟨e.probability, e.hasNext, NOT_A_TERMINAL_ID⟩) ∧
          ((examplePolicy false).mNeedsToDecayWhenUpdating = false →
            ¬ (e.IsLive ∧
              (examplePolicy false).getTerminalPtNodePosition e.targetTerminalId = NOT_A_DICT_POS) →
            e' = e)) exampleList es' ∧
        ∃ n : Int, n = ((exampleList.filter (fun e => decide (e.IsLive ∧
            (examplePolicy false).getTerminalPtNodePosition e.targetTerminalId ≠ NOT_A_DICT_POS ∧
            ((examplePolicy false).mNeedsToDecayWhenUpdating = true →
              (examplePolicy false).isValidEncodedProbability
                ((examplePolicy false).getEncodedProbabilityToSave e.probability) = true)))).length
            : Int) ∧
          (IsInt32 10 → (11 : Int) = wrapInt32 (10 + n) ∧
            (10 + n ≤ 2147483647 → (11 : Int) = 10 + n)) :=
  ⟨exampleContent_hasList, rfl, _, rfl,
    ((sweep_prunes_dangling (examplePolicy false) exampleContent 5 10 exampleList
      exampleContent_hasList).2 3 11 _ rfl).2⟩

/-- C8: with decay enabled, on a well-formed list a sweep returns (enough fuel given),
and after a successful sweep, entry by entry in chain order, an entry that was live and
whose target resolves has probability `d = getEncodedProbabilityToSave (old probability)`
and its old hasNext; it keeps its target when `isValidEncodedProbability d` and has
target `NOT_A_TERMINAL_ID` otherwise.  The count, a C++ `int`, has been incremented
once for each live, resolvable entry whose `d` is valid and for no other entry: it is
the initial count plus the number `n` of those entries when that sum does not exceed
`INT_MAX`, and that sum reduced to 32 bits in any case. -/
theorem sweep_decay_mode (p : Ver4BigramListPolicy) (c : BigramDictContent) (T cnt : Int)
    (es : List BigramEntry) (hl : HasList c T es) (hdecay : p.mNeedsToDecayWhenUpdating = true) :
    (∀ fuel, es.length ≤ fuel →
      (p.updateAllBigramEntriesAndDeleteUselessEntries fuel c T cnt).isSome = true) ∧
    ∀ fuel cnt' c',
      p.updateAllBigramEntriesAndDeleteUselessEntries fuel c T cnt = some (true, cnt', c') →
      ∃ es', HasList c' T es' ∧
        List.Forall₂ (fun e e' =>
          e.IsLive → p.getTerminalPtNodePosition e.targetTerminalId ≠ NOT_A_DICT_POS →
            e'.probability = p.getEncodedProbabilityToSave e.probability ∧
            e'.hasNext = e.hasNext ∧
            (p.isValidEncodedProbability (p.getEncodedProbabilityToSave e.probability) = true →
              e'.targetTerminalId = e.targetTerminalId) ∧
            (p.isValidEncodedProbability (p.getEncodedProbabilityToSave e.probability) = false →
              e'.targetTerminalId = NOT_A_TERMINAL_ID)) es es' ∧
        ∃ n : Int, n = ((es.filter (fun e => decide (e.IsLive ∧
            p.getTerminalPtNodePosition e.targetTerminalId ≠ NOT_A_DICT_POS ∧
            p.isValidEncodedProbability (p.getEncodedProbabilityToSave e.probability) = true))).length
            : Int) ∧
          (IsInt32 cnt → cnt' = wrapInt32 (cnt + n) ∧
            (cnt + n ≤ 2147483647 → cnt' = cnt + n)) := by
  refine ⟨fun fuel hf => sweep_total p fuel c T cnt es (fun _ => hl) hf, ?_⟩
  intro fuel cnt' c' h
  obtain ⟨_, i2, i3, _⟩ := sweep_success p fuel c c' T cnt cnt' es hl h
  refine ⟨es.map p.sweptEntry, i2, ?_, _, rfl, ?_⟩
  · refine forall₂_map_sweptEntry p _ es (fun e _ => ?_)
    intro hlive hres
    have hlive' : e.targetTerminalId ≠ NOT_A_TERMINAL_ID := hlive
    by_cases h4 : p.isValidEncodedProbability (p.getEncodedProbabilityToSave e.probability) = true
    · simp [Ver4BigramListPolicy.sweptEntry, hlive', hres, hdecay, h4]
    · simp [Ver4BigramListPolicy.sweptEntry, hlive', hres, hdecay, h4]
  · intro hcnt
    have hn : liveCount (es.map p.sweptEntry) = ((es.filter (fun e => decide (e.IsLive ∧
        p.getTerminalPtNodePosition e.targetTerminalId ≠ NOT_A_DICT_POS ∧
        p.isValidEncodedProbability (p.getEncodedProbabilityToSave e.probability) = true))).length
        : Int) := by
      rw [liveCount_map_sweptEntry]
      simp only [hdecay, true_implies]
    rw [← hn]
    exact ⟨i3 hcnt, fun hle => by
      rw [i3 hcnt, wrapInt32_add_nonneg hcnt (liveCount_nonneg _) hle]⟩

theorem sweep_decay_mode_witness :
    HasList exampleContent 5 exampleList ∧ (examplePolicy true).mNeedsToDecayWhenUpdating = true ∧
    ((examplePolicy true).updateAllBigramEntriesAndDeleteUselessEntries 3 exampleContent 5
        2147483647).map (fun r => (r.1, r.2.1)) = some (true, -2147483648) ∧
    ∃ c', (examplePolicy true).updateAllBigramEntriesAndDeleteUselessEntries 3 exampleContent 5 10
        = some (true, 11, c') ∧
      ∃ es', HasList c' 5 es' ∧
        List.Forall₂ (fun e e' =>
          e.IsLive →
          (examplePolicy true).getTerminalPtNodePosition e.targetTerminalId ≠ NOT_A_DICT_POS →
            e'.probability = (examplePolicy true).getEncodedProbabilityToSave e.probability ∧
            e'.hasNext = e.hasNext ∧
            ((examplePolicy true).isValidEncodedProbability
                ((examplePolicy true).getEncodedProbabilityToSave e.probability) = true →
              e'.targetTerminalId = e.targetTerminalId) ∧
            ((examplePolicy true).isValidEncodedProbability
                ((examplePolicy true).getEncodedProbabilityToSave e.probability) = false →
              e'.targetTerminalId = NOT_A_TERMINAL_ID)) exampleList es' ∧
        ∃ n : Int, n = ((exampleList.filter (fun e => decide (e.IsLive ∧
            (examplePolicy true).getTerminalPtNodePosition e.targetTerminalId ≠ NOT_A_DICT_POS ∧
            (examplePolicy true).isValidEncodedProbability
              ((examplePolicy true).getEncodedProbabilityToSave e.probability) = true))).length
            : Int) ∧
          (IsInt32 10 → (11 : Int) = wrapInt32 (10 + n) ∧
            (10 + n ≤ 2147483647 → (11 : Int) = 10 + n)) :=
  ⟨exampleContent_hasList, rfl, rfl, _, rfl,
    (sweep_decay_mode (examplePolicy true) exampleContent 5 10 exampleList
      exampleContent_hasList rfl).2 3 11 _ rfl⟩

/-- C5, counterexample: terminal 5 of `exampleContent` has a well-formed list with no
live entry whose target is `NOT_A_TERMINAL_ID` (no live entry has that target, by
definition), yet `removeEntry(5, NOT_A_TERMINAL_ID)` returns true: it selects the
tombstone at position 1 and rewrites it. -/
theorem removeEntry_sentinel_target_succeeds :
    HasList exampleContent 5 exampleList ∧
    (∀ e ∈ exampleList, ¬ (e.IsLive ∧ e.targetTerminalId = NOT_A_TERMINAL_ID)) ∧
    ∃ c', (examplePolicy false).removeEntry 3 exampleContent 5 NOT_A_TERMINAL_ID
      = some (true, c') :=
  ⟨exampleContent_hasList, fun _ _ h => h.1 h.2, _, rfl⟩

/-- C5, amended: if the terminal has no bigram list, or its list is the well-formed
chain `es` and no entry of `es`, live or tombstoned, has the given target (for a target
other than `NOT_A_TERMINAL_ID` this says that no live entry has it, also when an entry
with that target was tombstoned before), then `removeEntry` returns false and leaves
the content unchanged; so does a second call. -/
theorem removeEntry_absent_fails (p : Ver4BigramListPolicy) (c : BigramDictContent)
    (T X : Int) (es : List BigramEntry) (hwf : c.heads T ≠ NOT_A_DICT_POS → HasList c T es)
    (habs : ∀ e ∈ es, e.targetTerminalId ≠ X) (fuel : Nat) (hf : es.length ≤ fuel) :
    p.removeEntry fuel c T X = some (false, c) ∧
      (p.removeEntry fuel c T X).bind (fun r => p.removeEntry fuel r.2 T X) = some (false, c) := by
  have h := removeEntry_absent p fuel c T X es hwf habs hf
  refine ⟨h, ?_⟩
  rw [h, Option.some_bind]
  exact h

theorem removeEntry_absent_fails_witness :
    HasList exampleContent 5 exampleList ∧ (∀ e ∈ exampleList, e.targetTerminalId ≠ 11) ∧
    (examplePolicy false).removeEntry 3 exampleContent 5 11 = some (false, exampleContent) ∧
    ((examplePolicy false).removeEntry 3 exampleContent 5 11).bind
      (fun r => (examplePolicy false).removeEntry 3 r.2 5 11) = some (false, exampleContent) :=
  ⟨exampleContent_hasList, by decide,
    removeEntry_absent_fails (examplePolicy false) exampleContent 5 11 exampleList
      (fun _ => exampleContent_hasList) (by decide) 3 (by decide)⟩

/-- C6: when the well-formed list of `T` is `l ++ x :: r`, with `x` the first entry
whose target is `X` (so `x` is live when `X` is not `NOT_A_TERMINAL_ID`) and the list at
non-negative positions, and the codec can write at the position of `x`,
`removeEntry(T, X)` returns true (enough fuel given); afterwards
the heads are unchanged, the list of `T` is `l ++ x' :: r` where `x'` has the
probability and hasNext of `x` and target `NOT_A_TERMINAL_ID`, and no other position of
the content region has changed. -/
theorem removeEntry_tombstones_in_place (p : Ver4BigramListPolicy) (c : BigramDictContent)
    (T X : Int) (l : List BigramEntry) (x : BigramEntry) (r : List BigramEntry)
    (hl : HasList c T (l ++ x :: r)) (h0 : 0 ≤ c.heads T) (hx : x.targetTerminalId = X)
    (hfirst : ∀ e ∈ l, e.targetTerminalId ≠ X)
    (hw : c.writable (c.heads T + l.length) = true)
    (fuel : Nat) (hf : (l ++ x :: r).length ≤ fuel) :
    ∃ c', p.removeEntry fuel c T X = some (true, c') ∧ c'.heads = c.heads ∧
      HasList c' T (l ++ ⟨x.probability, x.hasNext, NOT_A_TERMINAL_ID⟩ :: r) ∧
      ∀ q, q ≠ c.heads T + l.length → c'.entries q = c.entries q := by
  rw [removeEntry_present p fuel c T X l x r hl h0 hx hfirst hf]
  simp only [BigramDictContent.writeBigramEntry, hw, if_true]
  refine ⟨_, rfl, rfl, ⟨hl.1, cells_update_mid _ hl.2.1, ?_⟩, ?_⟩
  · have hlk := (linked_append l x r).1 hl.2.2
    exact (linked_append l _ r).2 ⟨hlk.1, (linked_replace (x := x)
      (y := ⟨x.probability, x.hasNext, NOT_A_TERMINAL_ID⟩) r rfl).2 hlk.2⟩
  · intro q hq
    exact Function.update_noteq hq _ _

theorem removeEntry_tombstones_in_place_witness :
    HasList exampleContent 5 ([] ++ ⟨80, true, 9⟩ :: [⟨30, true, NOT_A_TERMINAL_ID⟩, ⟨1, false, 7⟩]) ∧
    ∃ c', (examplePolicy false).removeEntry 3 exampleContent 5 9 = some (true, c') ∧
      c'.heads = exampleContent.heads ∧
      HasList c' 5 ([] ++ ⟨80, true, NOT_A_TERMINAL_ID⟩ ::
        [⟨30, true, NOT_A_TERMINAL_ID⟩, ⟨1, false, 7⟩]) ∧
      ∀ q, q ≠ exampleContent.heads 5 + (([] : List BigramEntry).length : Int) →
        c'.entries q = exampleContent.entries q :=
  ⟨exampleContent_hasList,
    removeEntry_tombstones_in_place (examplePolicy false) exampleContent 5 9 []
      ⟨80, true, 9⟩ [⟨30, true, NOT_A_TERMINAL_ID⟩, ⟨1, false, 7⟩] exampleContent_hasList
      (by decide) rfl (by simp) rfl 3 (by decide)⟩

/-- C3: when the well-formed list `es` of `T`, inside the written region, contains a
tombstone and no entry with target `X` (so `X` is not `NOT_A_TERMINAL_ID`),
`addNewEntry(T, X, P)` returns (enough fuel given), and when it returns true
it reports a new entry, the head of `T` is unchanged, and the list is `es` with one
tombstone `x` replaced, at its position, by an entry with target `X` and the hasNext
of `x`: same number of entries, all others unchanged, as is every other position of
the content region. -/
theorem addNewEntry_reuses_tombstone (p : Ver4BigramListPolicy) (c : BigramDictContent)
    (T X P : Int) (es : List BigramEntry) (hl : HasList c T es) (hr : InRegion c T es)
    (htomb : ∃ e ∈ es, e.targetTerminalId = NOT_A_TERMINAL_ID)
    (hno : ∀ e ∈ es, e.targetTerminalId ≠ X) :
    (∀ fuel, es.length ≤ fuel → (p.addNewEntry fuel c T X P).isSome = true) ∧
    ∀ fuel flag c', p.addNewEntry fuel c T X P = some (true, flag, c') →
      flag = true ∧ c'.heads T = c.heads T ∧
      ∃ l x r, es = l ++ x :: r ∧ x.targetTerminalId = NOT_A_TERMINAL_ID ∧
        HasList c' T (l ++ ⟨p.getUpdatedProbability x.probability P, x.hasNext, X⟩ :: r) ∧
        ∀ q, q ≠ c.heads T + l.length → c'.entries q = c.entries q := by
  refine ⟨fun fuel hf => addNewEntry_total p fuel c T X P es hl hr hf, ?_⟩
  intro fuel flag c' h
  rcases addNewEntry_success_cases p fuel c c' T X P flag es hl hr h with
    ⟨l, x, r, rfl, hs, hflag, hh, he, _⟩ | ⟨_, hlive, _⟩
  · have hx : x.targetTerminalId = NOT_A_TERMINAL_ID := by
      rcases hs with ⟨hx, _⟩ | ⟨hx, _⟩
      · exact absurd hx (hno x (by simp))
      · exact hx
    refine ⟨by rw [hflag]; simp [hx], by rw [hh], l, x, r, rfl, hx, ⟨?_, ?_, ?_⟩, ?_⟩
    · rw [hh]; exact hl.1
    · rw [hh, he]; exact cells_update_mid _ hl.2.1
    · have hlk := (linked_append l x r).1 hl.2.2
      exact (linked_append l _ r).2 ⟨hlk.1, (linked_replace (x := x)
        (y := ⟨p.getUpdatedProbability x.probability P, x.hasNext, X⟩) r rfl).2 hlk.2⟩
    · intro q hq
      rw [he]
      exact Function.update_noteq hq _ _
  · obtain ⟨e, he, hd⟩ := htomb
    exact absurd hd (hlive e he)

theorem addNewEntry_reuses_tombstone_witness :
    HasList exampleContent 5 exampleList ∧ InRegion exampleContent 5 exampleList ∧
    ∃ c', (examplePolicy true).addNewEntry 3 exampleContent 5 11 10 = some (true, true, c') ∧
      c'.heads 5 = exampleContent.heads 5 ∧
      ∃ l x r, exampleList = l ++ x :: r ∧ x.targetTerminalId = NOT_A_TERMINAL_ID ∧
        HasList c' 5
          (l ++ ⟨(examplePolicy true).getUpdatedProbability x.probability 10, x.hasNext, 11⟩ :: r) ∧
        ∀ q, q ≠ exampleContent.heads 5 + l.length → c'.entries q = exampleContent.entries q :=
  ⟨exampleContent_hasList, exampleContent_inRegion, _, rfl,
    ((addNewEntry_reuses_tombstone (examplePolicy true) exampleContent 5 11 10 exampleList
      exampleContent_hasList exampleContent_inRegion ⟨⟨30, true, NOT_A_TERMINAL_ID⟩, by decide, rfl⟩
      (by decide)).2 3 true _ rfl).2⟩

/-- C4: when the well-formed list `es` of `T`, inside the written region, has no
tombstone and no entry with target `X`, `addNewEntry(T, X, P)` returns (enough fuel
given), and when it returns true it
reports a new entry and the list of `T`, read from its new head, is the entry
`(merge(NOT_A_PROBABILITY, P), hasNext = true, X)` followed by the entries of `es` in
their order, where `merge(NOT_A_PROBABILITY, P)` is
`ForgettingCurveUtils::getUpdatedEncodedProbability(NOT_A_PROBABILITY, P)` in decay mode
and `P` with decay disabled. -/
theorem addNewEntry_grows_list (p : Ver4BigramListPolicy) (c : BigramDictContent)
    (T X P : Int) (es : List BigramEntry) (hl : HasList c T es) (hr : InRegion c T es)
    (hlive : ∀ e ∈ es, e.IsLive) (hno : ∀ e ∈ es, e.targetTerminalId ≠ X) :
    (∀ fuel, es.length ≤ fuel → (p.addNewEntry fuel c T X P).isSome = true) ∧
    ∀ fuel flag c', p.addNewEntry fuel c T X P = some (true, flag, c') →
      flag = true ∧
      HasList c' T
        (⟨if p.mNeedsToDecayWhenUpdating = true then
            p.getUpdatedEncodedProbability NOT_A_PROBABILITY P
          else P, true, X⟩ :: es) := by
  refine ⟨fun fuel hf => addNewEntry_total p fuel c T X P es hl hr hf, ?_⟩
  intro fuel flag c' h
  have hmerge : ∀ a b : Int, p.getUpdatedProbability a b =
      if p.mNeedsToDecayWhenUpdating = true then p.getUpdatedEncodedProbability a b else b :=
    fun _ _ => rfl
  rw [← hmerge]
  rcases addNewEntry_success_cases p fuel c c' T X P flag es hl hr h with
    ⟨l, x, r, rfl, hs, _⟩ | ⟨_, _, hflag, hh, hc, _⟩
  · rcases hs with ⟨hx, _⟩ | ⟨hx, _⟩
    · exact absurd hx (hno x (by simp))
    · exact absurd hx (hlive x (by simp))
  · have hhead : c'.heads T = c.tail := by rw [hh]; exact Function.update_same _ _ _
    refine ⟨hflag, ?_, ?_, ?_⟩
    · rw [hhead]
      have := NOT_A_DICT_POS_neg
      omega
    · rw [hhead]; exact hc
    · rw [linked_cons]; exact Or.inl ⟨rfl, hl.2.2⟩

theorem addNewEntry_grows_list_witness :
    HasList fullContent 5 fullList ∧ InRegion fullContent 5 fullList ∧
    (∀ e ∈ fullList, e.IsLive) ∧ (∀ e ∈ fullList, e.targetTerminalId ≠ 11) ∧
    (∃ c', (examplePolicy true).addNewEntry 2 fullContent 5 11 10 = some (true, true, c') ∧
      HasList c' 5 (⟨NOT_A_PROBABILITY + 10, true, 11⟩ :: fullList)) ∧
    (∃ c', (examplePolicy false).addNewEntry 2 fullContent 5 11 10 = some (true, true, c') ∧
      HasList c' 5 (⟨10, true, 11⟩ :: fullList)) ∧
    ((examplePolicy true).addNewEntry 2 fullContent 5 11 10).map
      (fun r => r.2.2.entries (r.2.2.heads 5)) = some ⟨9, true, 11⟩ :=
  ⟨fullContent_hasList, fullContent_inRegion, by decide, by decide,
    ⟨_, rfl, ((addNewEntry_grows_list (examplePolicy true) fullContent 5 11 10 fullList
      fullContent_hasList fullContent_inRegion (by decide) (by decide)).2 2 true _ rfl).2⟩,
    ⟨_, rfl, ((addNewEntry_grows_list (examplePolicy false) fullContent 5 11 10 fullList
      fullContent_hasList fullContent_inRegion (by decide) (by decide)).2 2 true _ rfl).2⟩,
    rfl⟩

/-- C2: let `X` be a target other than `NOT_A_TERMINAL_ID` and let the list of `T`, if
there is one, be the well-formed chain `es`, inside the written region and without
duplicate live target.  Then `addNewEntry(T, X, P)` returns (enough fuel given), and
when it returns true the list of `T`, read from its head, is a well-formed chain with
exactly one live entry whose target is `X`; with decay disabled the probability of that
entry is `P`. -/
theorem addNewEntry_then_lookup (p : Ver4BigramListPolicy) (c : BigramDictContent)
    (T X P : Int) (es : List BigramEntry) (hX : X ≠ NOT_A_TERMINAL_ID)
    (hwf : c.heads T ≠ NOT_A_DICT_POS → HasList c T es ∧ InRegion c T es ∧ NoDupLive es) :
    (∀ fuel, es.length ≤ fuel → (p.addNewEntry fuel c T X P).isSome = true) ∧
    ∀ fuel flag c', p.addNewEntry fuel c T X P = some (true, flag, c') →
      ∃ es', HasList c' T es' ∧
        (es'.filter (fun e => decide (e.IsLive ∧ e.targetTerminalId = X))).length = 1 ∧
        (p.mNeedsToDecayWhenUpdating = false →
          ∀ e ∈ es', e.targetTerminalId = X → e.probability = P) := by
  have hstatic : ∀ prior, p.mNeedsToDecayWhenUpdating = false →
      p.getUpdatedProbability prior P = P := by
    intro prior hs
    simp [Ver4BigramListPolicy.getUpdatedProbability, hs]
  by_cases hh : c.heads T = NOT_A_DICT_POS
  · constructor
    · intro fuel _
      rw [addNewEntry_noList p fuel c T X P hh]
      split_ifs <;> rfl
    · intro fuel flag c' h
      rw [addNewEntry_noList p fuel c T X P hh] at h
      by_cases h1 : c.creatable T = true
      · by_cases h2 : c.writable c.tail = true
        · simp only [h1, h2, if_true, Option.some.injEq, Prod.mk.injEq, true_and] at h
          obtain ⟨_, hc'⟩ := h
          subst hc'
          refine ⟨[⟨p.getUpdatedProbability NOT_A_PROBABILITY P, false, X⟩], ⟨?_, ?_, ?_⟩, ?_, ?_⟩
          · simp only [Function.update_same]
            have := NOT_A_DICT_POS_neg
            omega
          · simp only [Function.update_same]
            exact ⟨Function.update_same _ _ _, trivial⟩
          · simp [Linked]
          · exact filter_target_length_one (l := []) (r := []) (by simp) (by simp) rfl hX
          · intro hs e he _
            rw [List.mem_singleton.1 he]
            exact hstatic _ hs
        · simp [h1, h2] at h
      · simp [h1] at h
  · obtain ⟨hl, hr, hnd⟩ := hwf hh
    refine ⟨fun fuel hf => addNewEntry_total p fuel c T X P es hl hr hf, ?_⟩
    intro fuel flag c' h
    rcases addNewEntry_success_cases p fuel c c' T X P flag es hl hr h with
      ⟨l, x, r, rfl, hs, _, hheads, he, _⟩ | ⟨hno, _, _, hheads, hc, _⟩
    · have hlno : ∀ e ∈ l, e.targetTerminalId ≠ X := by
        rcases hs with ⟨_, h1⟩ | ⟨_, h1, _⟩
        · exact h1
        · exact fun e he => h1 e (List.mem_append_left _ he)
      have hrno : ∀ e ∈ r, e.targetTerminalId ≠ X := by
        rcases hs with ⟨hx, _⟩ | ⟨_, h1, _⟩
        · have hxl : x.IsLive := fun hd => hX (hx.symm.trans hd)
          rw [← hx]
          exact noDupLive_no_later hnd hxl
        · exact fun e he => h1 e (List.mem_append_right _ (List.mem_cons_of_mem _ he))
      refine ⟨l ++ ⟨p.getUpdatedProbability x.probability P, x.hasNext, X⟩ :: r,
        ⟨?_, ?_, ?_⟩, filter_target_length_one hlno hrno rfl hX, ?_⟩
      · rw [hheads]; exact hl.1
      · rw [hheads, he]; exact cells_update_mid _ hl.2.1
      · have hlk := (linked_append l x r).1 hl.2.2
        exact (linked_append l _ r).2 ⟨hlk.1, (linked_replace (x := x)
          (y := ⟨p.getUpdatedProbability x.probability P, x.hasNext, X⟩) r rfl).2 hlk.2⟩
      · intro hst e he het
        rw [eq_of_target_eq hlno hrno e he het]
        exact hstatic _ hst
    · have hhead : c'.heads T = c.tail := by rw [hheads]; exact Function.update_same _ _ _
      refine ⟨⟨p.getUpdatedProbability NOT_A_PROBABILITY P, true, X⟩ :: es, ⟨?_, ?_, ?_⟩,
        filter_target_length_one (l := []) (by simp) hno rfl hX, ?_⟩
      · rw [hhead]
        have := NOT_A_DICT_POS_neg
        omega
      · rw [hhead]; exact hc
      · rw [linked_cons]; exact Or.inl ⟨rfl, hl.2.2⟩
      · intro hst e he het
        rw [eq_of_target_eq (l := []) (by simp) hno e he het]
        exact hstatic _ hst

theorem exampleList_noDupLive : NoDupLive exampleList := by
  simp [NoDupLive, liveTargets, exampleList, BigramEntry.IsLive, NOT_A_TERMINAL_ID]

theorem addNewEntry_then_lookup_witness :
    (9 : Int) ≠ NOT_A_TERMINAL_ID ∧
    (HasList exampleContent 5 exampleList ∧ InRegion exampleContent 5 exampleList ∧
      NoDupLive exampleList) ∧
    ∃ c', (examplePolicy false).addNewEntry 3 exampleContent 5 9 40 = some (true, false, c') ∧
      ∃ es', HasList c' 5 es' ∧
        (es'.filter (fun e => decide (e.IsLive ∧ e.targetTerminalId = 9))).length = 1 ∧
        ((examplePolicy false).mNeedsToDecayWhenUpdating = false →
          ∀ e ∈ es', e.targetTerminalId = 9 → e.probability = 40) :=
  ⟨by decide, ⟨exampleContent_hasList, exampleContent_inRegion, exampleList_noDupLive⟩, _, rfl,
    (addNewEntry_then_lookup (examplePolicy false) exampleContent 5 9 40 exampleList (by decide)
      (fun _ => ⟨exampleContent_hasList, exampleContent_inRegion, exampleList_noDupLive⟩)).2
      3 false _ rfl⟩

/-- C1: starting from a content in which no terminal has a list head, after any finite
sequence of `addNewEntry` calls that all return true (any terminals, targets and
probabilities, each call with its own policy, so decay on or off), the live entries of
the list of every terminal have pairwise different targets. -/
theorem addNewEntries_noDupLive (c0 c : BigramDictContent)
    (calls : List (Ver4BigramListPolicy × Nat × Int × Int × Int))
    (h0 : ∀ t, c0.heads t = NOT_A_DICT_POS) (hrun : addNewEntries c0 calls = some c)
    (t : Int) (es : List BigramEntry) (hl : HasList c t es) : NoDupLive es := by
  have hinv0 : StoreInv c0 (fun _ => []) :=
    ⟨fun t hne => absurd (h0 t) hne, fun t _ _ hne => absurd (h0 t) hne⟩
  obtain ⟨L, hinv⟩ := storeInv_addNewEntries calls c0 c _ hinv0 hrun
  obtain ⟨h1, _, h3⟩ := hinv.1 t hl.1
  rw [hasList_unique hl h1]
  exact h3

theorem addNewEntries_noDupLive_witness :
    (∀ t, emptyContent.heads t = NOT_A_DICT_POS) ∧
    ∃ c, addNewEntries emptyContent exampleCalls = some c ∧
      HasList c 5 [⟨9, true, 11⟩, ⟨40, false, 9⟩] ∧
      NoDupLive [⟨9, true, 11⟩, ⟨40, false, 9⟩] := by
  refine ⟨fun _ => rfl, _, rfl, ?_⟩
  have key : ∀ c, addNewEntries emptyContent exampleCalls = some c →
      HasList c 5 [⟨9, true, 11⟩, ⟨40, false, 9⟩] →
      HasList c 5 [⟨9, true, 11⟩, ⟨40, false, 9⟩] ∧ NoDupLive [⟨9, true, 11⟩, ⟨40, false, 9⟩] :=
    fun c hc hl =>
      ⟨hl, addNewEntries_noDupLive emptyContent c exampleCalls (fun _ => rfl) hc 5 _ hl⟩
  exact key _ rfl ⟨by decide, ⟨rfl, rfl, trivial⟩, by simp [Linked]⟩

/-- C11: for a terminal `T` without list head, when `createNewBigramList` and the write
at the new head succeed, `addNewEntry(T, X, P)` returns true and reports a new entry;
the head of `T` is then the former tail and the list of `T` is the single entry
`(merge(NOT_A_PROBABILITY, P), hasNext = false, X)`, where `merge(NOT_A_PROBABILITY, P)`
is `ForgettingCurveUtils::getUpdatedEncodedProbability(NOT_A_PROBABILITY, P)` in decay
mode and `P` with decay disabled; `getBigramEntryConut` then returns 1 (0 when `X` is
`NOT_A_TERMINAL_ID`). -/
theorem addNewEntry_first_insert (p : Ver4BigramListPolicy) (c : BigramDictContent)
    (T X P : Int) (h : c.heads T = NOT_A_DICT_POS) (hc : c.creatable T = true)
    (hw : c.writable c.tail = true) (fuel : Nat) :
    ∃ c', p.addNewEntry fuel c T X P = some (true, true, c') ∧ c'.heads T = c.tail ∧
      HasList c' T
        [⟨if p.mNeedsToDecayWhenUpdating = true then
            p.getUpdatedEncodedProbability NOT_A_PROBABILITY P
          else P, false, X⟩] ∧
      ∀ fuel', 1 ≤ fuel' →
        p.getBigramEntryConut fuel' c' T = some (if X = NOT_A_TERMINAL_ID then 0 else 1) := by
  have hmerge : ∀ a b : Int, p.getUpdatedProbability a b =
      if p.mNeedsToDecayWhenUpdating = true then p.getUpdatedEncodedProbability a b else b :=
    fun _ _ => rfl
  rw [← hmerge]
  rw [addNewEntry_noList p fuel c T X P h, if_pos hc, if_pos hw]
  have hne : (c.tail : Int) ≠ NOT_A_DICT_POS := by
    have := NOT_A_DICT_POS_neg
    omega
  have hl : HasList
      { c with
        heads := Function.update c.heads T c.tail
        entries := Function.update c.entries c.tail
          ⟨p.getUpdatedProbability NOT_A_PROBABILITY P, false, X⟩
        tail := max c.tail ((c.tail : Int) + 1).toNat } T
      [⟨p.getUpdatedProbability NOT_A_PROBABILITY P, false, X⟩] := by
    refine ⟨?_, ⟨?_, trivial⟩, ?_⟩
    · simp only [Function.update_same]; exact hne
    · show Function.update c.entries c.tail _ (Function.update c.heads T c.tail T) = _
      rw [Function.update_same, Function.update_same]
    · simp [Linked]
  refine ⟨_, rfl, Function.update_same _ _ _, hl, ?_⟩
  · intro fuel' hf
    simp only [Ver4BigramListPolicy.getBigramEntryConut,
      BigramDictContent.getBigramListHeadPos, if_neg hl.1]
    rw [getBigramEntryConutLoop_spec _ _ _ fuel' 0 hl.2.1 hl.2.2 (by simpa using hf), zero_add,
      liveCount_cons, liveCount_nil]
    by_cases hX : X = NOT_A_TERMINAL_ID <;> simp [hX]

theorem addNewEntry_first_insert_witness :
    emptyContent.heads 5 = NOT_A_DICT_POS ∧
    (∃ c', (examplePolicy false).addNewEntry 0 emptyContent 5 9 80 = some (true, true, c') ∧
      c'.heads 5 = emptyContent.tail ∧
      HasList c' 5 [⟨80, false, 9⟩] ∧
      ∀ fuel', 1 ≤ fuel' → (examplePolicy false).getBigramEntryConut fuel' c' 5 =
        some (if (9 : Int) = NOT_A_TERMINAL_ID then 0 else 1)) ∧
    (∃ c', (examplePolicy true).addNewEntry 0 emptyContent 5 9 80 = some (true, true, c') ∧
      c'.heads 5 = emptyContent.tail ∧
      HasList c' 5 [⟨NOT_A_PROBABILITY + 80, false, 9⟩] ∧
      ∀ fuel', 1 ≤ fuel' → (examplePolicy true).getBigramEntryConut fuel' c' 5 =
        some (if (9 : Int) = NOT_A_TERMINAL_ID then 0 else 1)) ∧
    ((examplePolicy true).addNewEntry 0 emptyContent 5 9 80).map
      (fun r => r.2.2.entries (r.2.2.heads 5)) = some ⟨79, false, 9⟩ :=
  ⟨rfl, addNewEntry_first_insert (examplePolicy false) emptyContent 5 9 80 rfl rfl rfl 0,
    addNewEntry_first_insert (examplePolicy true) emptyContent 5 9 80 rfl rfl rfl 0, rfl⟩

/-- C12: when the well-formed list of `T`, inside the written region, is `l ++ x :: r`
with `x` the first entry whose target is `X`, `X` not being `NOT_A_TERMINAL_ID` (the
live entry with target `X`; `l` and `r` may hold tombstones), `addNewEntry(T, X, P)`
returns (enough fuel given), and when it returns true it reports no new entry, the
heads are unchanged, the list of `T` is `l ++ x' :: r` where `x'` has probability
`merge(probability of x, P)`, which is
`ForgettingCurveUtils::getUpdatedEncodedProbability(probability of x, P)` in decay mode
and `P` with decay disabled, the hasNext of `x` and target `X`, and no other position of
the content region has changed. -/
theorem addNewEntry_updates_in_place (p : Ver4BigramListPolicy) (c : BigramDictContent)
    (T X P : Int) (l : List BigramEntry) (x : BigramEntry) (r : List BigramEntry)
    (hl : HasList c T (l ++ x :: r)) (hr : InRegion c T (l ++ x :: r))
    (hX : X ≠ NOT_A_TERMINAL_ID) (hx : x.targetTerminalId = X)
    (hfirst : ∀ e ∈ l, e.targetTerminalId ≠ X) :
    (∀ fuel, (l ++ x :: r).length ≤ fuel → (p.addNewEntry fuel c T X P).isSome = true) ∧
    ∀ fuel flag c', p.addNewEntry fuel c T X P = some (true, flag, c') →
      flag = false ∧ c'.heads = c.heads ∧
      HasList c' T
        (l ++ ⟨if p.mNeedsToDecayWhenUpdating = true then
            p.getUpdatedEncodedProbability x.probability P
          else P, x.hasNext, X⟩ :: r) ∧
      ∀ q, q ≠ c.heads T + l.length → c'.entries q = c.entries q := by
  refine ⟨fun fuel hf => addNewEntry_total p fuel c T X P _ hl hr hf, ?_⟩
  intro fuel flag c' h
  have hmerge : ∀ a b : Int, p.getUpdatedProbability a b =
      if p.mNeedsToDecayWhenUpdating = true then p.getUpdatedEncodedProbability a b else b :=
    fun _ _ => rfl
  rw [← hmerge]
  have h' := addNewEntry_mono p fuel (max fuel (l ++ x :: r).length) c T X P _
    (le_max_left _ _) h
  rw [addNewEntry_inPlace p _ c T X P l x r hl hr.1 (Or.inl ⟨hx, hfirst⟩) (le_max_right _ _)]
    at h'
  by_cases hw : c.writable (c.heads T + l.length) = true
  · simp only [BigramDictContent.writeBigramEntry, hw, if_true, Option.some.injEq,
      Prod.mk.injEq, true_and] at h'
    obtain ⟨hflag, hc'⟩ := h'
    subst hc'
    refine ⟨?_, rfl, ⟨hl.1, cells_update_mid _ hl.2.1, ?_⟩, ?_⟩
    · rw [← hflag]
      simp [hx, hX]
    · have hlk := (linked_append l x r).1 hl.2.2
      exact (linked_append l _ r).2 ⟨hlk.1, (linked_replace (x := x)
        (y := ⟨p.getUpdatedProbability x.probability P, x.hasNext, X⟩) r rfl).2 hlk.2⟩
    · intro q hq
      exact Function.update_noteq hq _ _
  · simp [BigramDictContent.writeBigramEntry, hw] at h'

theorem addNewEntry_updates_in_place_witness :
    HasList exampleContent 5
      ([⟨80, true, 9⟩, ⟨30, true, NOT_A_TERMINAL_ID⟩] ++ ⟨1, false, 7⟩ :: []) ∧
    InRegion exampleContent 5
      ([⟨80, true, 9⟩, ⟨30, true, NOT_A_TERMINAL_ID⟩] ++ ⟨1, false, 7⟩ :: []) ∧
    (∃ c', (examplePolicy true).addNewEntry 3 exampleContent 5 7 40 = some (true, false, c') ∧
      c'.heads = exampleContent.heads ∧
      HasList c' 5 ([⟨80, true, 9⟩, ⟨30, true, NOT_A_TERMINAL_ID⟩] ++
        ⟨1 + 40, false, 7⟩ :: [])) ∧
    (∃ c', (examplePolicy false).addNewEntry 3 exampleContent 5 7 40 = some (true, false, c') ∧
      c'.heads = exampleContent.heads ∧
      HasList c' 5 ([⟨80, true, 9⟩, ⟨30, true, NOT_A_TERMINAL_ID⟩] ++
        ⟨40, false, 7⟩ :: [])) ∧
    ((examplePolicy true).addNewEntry 3 exampleContent 5 7 40).map
      (fun r => r.2.2.entries (r.2.2.heads 5 + 2)) = some ⟨41, false, 7⟩ :=
  ⟨exampleContent_hasList, exampleContent_inRegion,
    ⟨_, rfl,
      ((addNewEntry_updates_in_place (examplePolicy true) exampleContent 5 7 40
        [⟨80, true, 9⟩, ⟨30, true, NOT_A_TERMINAL_ID⟩] ⟨1, false, 7⟩ []
        exampleContent_hasList exampleContent_inRegion (by decide) rfl (by decide)).2
        3 false _ rfl).2.1,
      ((addNewEntry_updates_in_place (examplePolicy true) exampleContent 5 7 40
        [⟨80, true, 9⟩, ⟨30, true, NOT_A_TERMINAL_ID⟩] ⟨1, false, 7⟩ []
        exampleContent_hasList exampleContent_inRegion (by decide) rfl (by decide)).2
        3 false _ rfl).2.2.1⟩,
    ⟨_, rfl,
      ((addNewEntry_updates_in_place (examplePolicy false) exampleContent 5 7 40
        [⟨80, true, 9⟩, ⟨30, true, NOT_A_TERMINAL_ID⟩] ⟨1, false, 7⟩ []
        exampleContent_hasList exampleContent_inRegion (by decide) rfl (by decide)).2
        3 false _ rfl).2.1,
      ((addNewEntry_updates_in_place (examplePolicy false) exampleContent 5 7 40
        [⟨80, true, 9⟩, ⟨30, true, NOT_A_TERMINAL_ID⟩] ⟨1, false, 7⟩ []
        exampleContent_hasList exampleContent_inRegion (by decide) rfl (by decide)).2
        3 false _ rfl).2.2.1⟩,
    rfl⟩

/-- C15: when the entry stored at cursor position `pos` is `e`, `getNextBigram` (with a
non-null `outBigramPos`) yields `outBigramPos = getTerminalPtNodePosition(target of e)`,
which is the resolver's `NOT_A_DICT_POS` when the resolver gives that for the target,
`outProbability` and `outHasNext` those of `e`, and the cursor advanced to the position
just past the entry, which is where the codec's advancing read leaves it.  The method
only reads the content (it has no content among its results), so the store is
unchanged. -/
theorem getNextBigram_resolves_target (p : Ver4BigramListPolicy) (c : BigramDictContent)
    (pos : Int) (e : BigramEntry) (he : c.getBigramEntry pos = e) :
    p.getNextBigram c pos =
        (p.getTerminalPtNodePosition e.targetTerminalId, e.probability, e.hasNext, pos + 1) ∧
      (c.getBigramEntryAndAdvancePosition pos).2 = pos + 1 ∧
      (p.getTerminalPtNodePosition e.targetTerminalId = NOT_A_DICT_POS →
        (p.getNextBigram c pos).1 = NOT_A_DICT_POS) := by
  subst he
  refine ⟨rfl, rfl, fun h => ?_⟩
  simpa [Ver4BigramListPolicy.getNextBigram,
    BigramDictContent.getBigramEntryAndAdvancePosition, BigramDictContent.getBigramEntry] using h

theorem getNextBigram_resolves_target_witness :
    exampleContent.getBigramEntry 2 = ⟨1, false, 7⟩ ∧
    (examplePolicy false).getNextBigram exampleContent 2 = (NOT_A_DICT_POS, 1, false, 3) ∧
    (examplePolicy false).getNextBigram exampleContent 0 = (109, 80, true, 1) :=
  ⟨rfl, (getNextBigram_resolves_target (examplePolicy false) exampleContent 2 ⟨1, false, 7⟩ rfl).1,
    (getNextBigram_resolves_target (examplePolicy false) exampleContent 0 ⟨80, true, 9⟩ rfl).1⟩

theorem twoTombstones_hasList : HasList twoTombstones 5 twoTombstonesList := by
  refine ⟨by decide, ⟨rfl, rfl, rfl, trivial⟩, ?_⟩
  simp [twoTombstonesList, Linked]

/-- C13, counterexample: with decay enabled, `addNewEntry(5, 11, 10)` on
`exampleContent` returns true and reports a new entry; it stores target 11 in the
slot at position 1, which held a tombstone of probability 30, and the probability it
writes there is `getUpdatedEncodedProbability(30, 10)`, computed from the probability
left in the slot, not `getUpdatedEncodedProbability(NOT_A_PROBABILITY, 10)`. -/
theorem addNewEntry_reuse_takes_stale_prior :
    (examplePolicy true).mNeedsToDecayWhenUpdating = true ∧
    exampleContent.entries 1 = ⟨30, true, NOT_A_TERMINAL_ID⟩ ∧
    ∃ c', (examplePolicy true).addNewEntry 3 exampleContent 5 11 10 = some (true, true, c') ∧
      c'.entries 1 = ⟨(examplePolicy true).getUpdatedEncodedProbability 30 10, true, 11⟩ ∧
      (c'.entries 1).probability ≠
        (examplePolicy true).getUpdatedEncodedProbability NOT_A_PROBABILITY 10 :=
  ⟨rfl, rfl, _, rfl, rfl, by decide⟩

/-- C16, counterexample: the list of terminal 5 of `twoTombstones` holds no entry with
target 11 and two tombstones, the first at position 0; `getEntryPosToUpdate` returns
position 1, and `addNewEntry(5, 11, 10)` leaves the first tombstone as it was and
writes target 11 at position 1. -/
theorem getEntryPosToUpdate_skips_first_tombstone :
    HasList twoTombstones 5 twoTombstonesList ∧
    (∀ e ∈ twoTombstonesList, e.targetTerminalId ≠ 11) ∧
    (twoTombstones.entries 0).targetTerminalId = NOT_A_TERMINAL_ID ∧
    (examplePolicy false).getEntryPosToUpdate 3 twoTombstones 11 (twoTombstones.heads 5)
      = some 1 ∧
    ∃ c', (examplePolicy false).addNewEntry 3 twoTombstones 5 11 10 = some (true, true, c') ∧
      c'.entries 0 = ⟨80, true, NOT_A_TERMINAL_ID⟩ ∧ c'.entries 1 = ⟨10, true, 11⟩ :=
  ⟨twoTombstones_hasList, by decide, rfl, rfl, _, rfl, rfl, rfl⟩

/-- C16, amended: on a well-formed list `es` holding no entry with the searched target
`X`, `getEntryPosToUpdate` (enough fuel given) returns the position of the last
tombstone in chain order when there is one (`es = l ++ x :: r` with `x` a tombstone and
no tombstone in `r`), and `addNewEntry` then writes the new target at that position,
keeping the hasNext found there and reporting a new entry; it returns
`NOT_A_DICT_POS` when the list has no tombstone. -/
theorem getEntryPosToUpdate_last_tombstone (p : Ver4BigramListPolicy) (c : BigramDictContent)
    (T X : Int) (es : List BigramEntry) (hl : HasList c T es)
    (hno : ∀ e ∈ es, e.targetTerminalId ≠ X) (fuel : Nat) (hf : es.length ≤ fuel) :
    (∀ l x r, es = l ++ x :: r → x.targetTerminalId = NOT_A_TERMINAL_ID →
      (∀ e ∈ r, e.IsLive) →
      p.getEntryPosToUpdate fuel c X (c.heads T) = some (c.heads T + l.length) ∧
      (0 ≤ c.heads T → ∀ P, p.addNewEntry fuel c T X P =
        some ((c.writeBigramEntry (p.getUpdatedProbability x.probability P) x.hasNext X
            (c.heads T + l.length)).1, true,
          (c.writeBigramEntry (p.getUpdatedProbability x.probability P) x.hasNext X
            (c.heads T + l.length)).2))) ∧
    ((∀ e ∈ es, e.IsLive) →
      p.getEntryPosToUpdate fuel c X (c.heads T) = some NOT_A_DICT_POS) := by
  constructor
  · intro l x r hes hx hr
    subst hes
    have hs : IsSlot X l x r := Or.inr ⟨hx, hno, hr⟩
    refine ⟨getEntryPosToUpdate_slot p c X _ l x r fuel hl.2.1 hl.2.2 hs hf, ?_⟩
    intro h0 P
    rw [addNewEntry_inPlace p fuel c T X P l x r hl h0 hs hf]
    simp [hx]
  · intro hlive
    exact getEntryPosToUpdate_absent p c X _ es fuel hl.2.1 hl.2.2 hno hlive hf

theorem getEntryPosToUpdate_last_tombstone_witness :
    HasList twoTombstones 5 twoTombstonesList ∧
    (∀ e ∈ twoTombstonesList, e.targetTerminalId ≠ 11) ∧
    (examplePolicy false).getEntryPosToUpdate 3 twoTombstones 11 (twoTombstones.heads 5) =
      some (twoTombstones.heads 5 + ([⟨80, true, NOT_A_TERMINAL_ID⟩] : List BigramEntry).length) :=
  ⟨twoTombstones_hasList, by decide,
    ((getEntryPosToUpdate_last_tombstone (examplePolicy false) twoTombstones 5 11
      twoTombstonesList twoTombstones_hasList (by decide) 3 (by decide)).1
      [⟨80, true, NOT_A_TERMINAL_ID⟩] ⟨30, true, NOT_A_TERMINAL_ID⟩ [⟨1, false, 7⟩] rfl rfl
      (by decide)).1⟩

/-- C17: every iteration of a `while (hasNext)` loop reads one entry, at `readingPos`,
and takes one unit of fuel.  On a well-formed list of `N` entries the loop of
`getBigramEntryConut` returns with `N` units of fuel and not with fewer, so it reads
the `N` entries, each once; so does the loop of the sweep when the codec can write
every entry of the list, and it then returns true: no early exit; and the loop of
`getEntryPosToUpdate` returns within `N` iterations. -/
theorem traversals_run_to_completion (p : Ver4BigramListPolicy) (c : BigramDictContent)
    (T X cnt : Int) (es : List BigramEntry) (hl : HasList c T es)
    (hw : ∀ q, c.heads T ≤ q → q < c.heads T + es.length → c.writable q = true) :
    (∀ fuel, fuel < es.length → p.getBigramEntryConut fuel c T = none) ∧
    (∀ fuel, es.length ≤ fuel → (p.getBigramEntryConut fuel c T).isSome = true) ∧
    (∀ fuel, fuel < es.length →
      p.updateAllBigramEntriesAndDeleteUselessEntries fuel c T cnt = none) ∧
    (∀ fuel, es.length ≤ fuel → ∃ cnt' c',
      p.updateAllBigramEntriesAndDeleteUselessEntries fuel c T cnt = some (true, cnt', c')) ∧
    (p.getEntryPosToUpdate es.length c X (c.heads T)).isSome = true := by
  obtain ⟨hne, hc, hlk⟩ := hl
  refine ⟨?_, ?_, ?_, ?_, ?_⟩
  · intro fuel hf
    simp only [Ver4BigramListPolicy.getBigramEntryConut,
      BigramDictContent.getBigramListHeadPos, if_neg hne]
    exact getBigramEntryConutLoop_short c es _ fuel 0 hc hlk hf
  · intro fuel hf
    rw [getBigramEntryConut_hasList p c T es ⟨hne, hc, hlk⟩ fuel hf]
    rfl
  · intro fuel hf
    simp only [Ver4BigramListPolicy.updateAllBigramEntriesAndDeleteUselessEntries,
      BigramDictContent.getBigramListHeadPos, if_neg hne]
    exact updateAllLoop_short p es _ fuel c cnt hc hlk hw hf
  · intro fuel hf
    simp only [Ver4BigramListPolicy.updateAllBigramEntriesAndDeleteUselessEntries,
      BigramDictContent.getBigramListHeadPos, if_neg hne]
    exact updateAllLoop_writable p es _ fuel c cnt hc hlk hw hf
  · rcases slot_cases X es with ⟨l, x, r, rfl, hs⟩ | ⟨hno, hlive⟩
    · rw [getEntryPosToUpdate_slot p c X _ l x r _ hc hlk hs le_rfl]; rfl
    · rw [getEntryPosToUpdate_absent p c X _ es _ hc hlk hno hlive le_rfl]; rfl

theorem traversals_run_to_completion_witness :
    HasList exampleContent 5 exampleList ∧
    (∀ q, exampleContent.heads 5 ≤ q → q < exampleContent.heads 5 + exampleList.length →
      exampleContent.writable q = true) ∧
    (examplePolicy true).getBigramEntryConut 2 exampleContent 5 = none ∧
    ((examplePolicy true).getBigramEntryConut 3 exampleContent 5).isSome = true ∧
    (examplePolicy true).updateAllBigramEntriesAndDeleteUselessEntries 2 exampleContent 5 0
      = none ∧
    (∃ cnt' c', (examplePolicy true).updateAllBigramEntriesAndDeleteUselessEntries 3
      exampleContent 5 0 = some (true, cnt', c')) ∧
    ((examplePolicy true).getEntryPosToUpdate exampleList.length exampleContent 9
      (exampleContent.heads 5)).isSome = true :=
  have h := traversals_run_to_completion (examplePolicy true) exampleContent 5 9 0 exampleList
    exampleContent_hasList (fun _ _ _ => rfl)
  ⟨exampleContent_hasList, fun _ _ _ => rfl, h.1 2 (by decide), h.2.1 3 (by decide),
    h.2.2.1 2 (by decide), h.2.2.2.1 3 (by decide), h.2.2.2.2⟩

/-- C18: let `X` be a target other than `NOT_A_TERMINAL_ID` and let the list of `T`, if
there is one, be the well-formed chain `es` inside the written region.  Then
`addNewEntry(T, X, P)` returns (enough fuel given), and when it returns true
`getBigramEntryConut(T)` on the resulting content is its value before the call plus 1
when a new entry is reported, and its value before the call otherwise. -/
theorem addNewEntry_flag_tracks_count (p : Ver4BigramListPolicy) (c : BigramDictContent)
    (T X P : Int) (es : List BigramEntry) (hX : X ≠ NOT_A_TERMINAL_ID)
    (hwf : c.heads T ≠ NOT_A_DICT_POS → HasList c T es ∧ InRegion c T es) :
    (∀ fuel, es.length ≤ fuel → (p.addNewEntry fuel c T X P).isSome = true) ∧
    ∀ fuel flag c', p.addNewEntry fuel c T X P = some (true, flag, c') →
      ∃ n n' : Int,
        (∀ f, es.length ≤ f → p.getBigramEntryConut f c T = some n) ∧
        (∀ f, es.length + 1 ≤ f → p.getBigramEntryConut f c' T = some n') ∧
        n' = n + (if flag = true then 1 else 0) := by
  by_cases hh : c.heads T = NOT_A_DICT_POS
  · constructor
    · intro fuel _
      rw [addNewEntry_noList p fuel c T X P hh]
      split_ifs <;> rfl
    · intro fuel flag c' h
      rw [addNewEntry_noList p fuel c T X P hh] at h
      by_cases h1 : c.creatable T = true
      · by_cases h2 : c.writable c.tail = true
        · simp only [h1, h2, if_true, Option.some.injEq, Prod.mk.injEq, true_and] at h
          obtain ⟨hflag, hc'⟩ := h
          subst hc' hflag
          have hl' : HasList
              { c with
                heads := Function.update c.heads T c.tail
                entries := Function.update c.entries c.tail
                  ⟨p.getUpdatedProbability NOT_A_PROBABILITY P, false, X⟩
                tail := max c.tail ((c.tail : Int) + 1).toNat } T
              [⟨p.getUpdatedProbability NOT_A_PROBABILITY P, false, X⟩] := by
            refine ⟨?_, ⟨?_, trivial⟩, ?_⟩
            · simp only [Function.update_same]
              have := NOT_A_DICT_POS_neg
              omega
            · show Function.update c.entries c.tail _ (Function.update c.heads T c.tail T) = _
              rw [Function.update_same, Function.update_same]
            · simp [Linked]
          refine ⟨0, 1, ?_, ?_, by simp⟩
          · intro f _
            simp [Ver4BigramListPolicy.getBigramEntryConut,
              BigramDictContent.getBigramListHeadPos, hh]
          · intro f hf
            rw [getBigramEntryConut_hasList p _ T _ hl' f (by simp; omega), liveCount_cons,
              liveCount_nil]
            simp [hX]
        · simp [h1, h2] at h
      · simp [h1] at h
  · obtain ⟨hl, hr⟩ := hwf hh
    refine ⟨fun fuel hf => addNewEntry_total p fuel c T X P es hl hr hf, ?_⟩
    intro fuel flag c' h
    rcases addNewEntry_success_cases p fuel c c' T X P flag es hl hr h with
      ⟨l, x, r, rfl, hs, hflag, hheads, he, _⟩ | ⟨_, _, hflag, hheads, hc, _⟩
    · have hl' : HasList c' T
          (l ++ ⟨p.getUpdatedProbability x.probability P, x.hasNext, X⟩ :: r) := by
        refine ⟨by rw [hheads]; exact hl.1, ?_, ?_⟩
        · rw [hheads, he]; exact cells_update_mid _ hl.2.1
        · have hlk := (linked_append l x r).1 hl.2.2
          exact (linked_append l _ r).2 ⟨hlk.1, (linked_replace (x := x)
            (y := ⟨p.getUpdatedProbability x.probability P, x.hasNext, X⟩) r rfl).2 hlk.2⟩
      refine ⟨liveCount (l ++ x :: r), _,
        fun f hf => getBigramEntryConut_hasList p c T _ hl f hf,
        fun f hf => getBigramEntryConut_hasList p c' T _ hl' f
          (by simp only [List.length_append, List.length_cons] at hf ⊢; omega), ?_⟩
      rw [liveCount_append, liveCount_append, liveCount_cons, liveCount_cons, hflag]
      by_cases hx : x.targetTerminalId = NOT_A_TERMINAL_ID
      · simp [hx, hX]
        ring
      · simp [hx, hX]
    · have hhead : c'.heads T = c.tail := by rw [hheads]; exact Function.update_same _ _ _
      have hl' : HasList c' T (⟨p.getUpdatedProbability NOT_A_PROBABILITY P, true, X⟩ :: es) := by
        refine ⟨?_, ?_, ?_⟩
        · rw [hhead]
          have := NOT_A_DICT_POS_neg
          omega
        · rw [hhead]; exact hc
        · rw [linked_cons]; exact Or.inl ⟨rfl, hl.2.2⟩
      refine ⟨liveCount es, _, fun f hf => getBigramEntryConut_hasList p c T _ hl f hf,
        fun f hf => getBigramEntryConut_hasList p c' T _ hl' f (by simpa using hf), ?_⟩
      rw [liveCount_cons, hflag]
      simp [hX]
      ring

theorem addNewEntry_flag_tracks_count_witness :
    (11 : Int) ≠ NOT_A_TERMINAL_ID ∧
    (HasList exampleContent 5 exampleList ∧ InRegion exampleContent 5 exampleList) ∧
    ∃ c', (examplePolicy false).addNewEntry 3 exampleContent 5 11 10 = some (true, true, c') ∧
      ∃ n n' : Int,
        (∀ f, exampleList.length ≤ f →
          (examplePolicy false).getBigramEntryConut f exampleContent 5 = some n) ∧
        (∀ f, exampleList.length + 1 ≤ f →
          (examplePolicy false).getBigramEntryConut f c' 5 = some n') ∧
        n' = n + (if true = true then 1 else 0) :=
  ⟨by decide, ⟨exampleContent_hasList, exampleContent_inRegion⟩, _, rfl,
    (addNewEntry_flag_tracks_count (examplePolicy false) exampleContent 5 11 10 exampleList
      (by decide) (fun _ => ⟨exampleContent_hasList, exampleContent_inRegion⟩)).2
      3 true _ rfl⟩

/-- C19: with decay disabled, after a first successful sweep of the well-formed list of
`T`, a second sweep (same resolver, enough fuel) returns true and leaves the content
exactly as the first sweep left it; it issues no write: it does the same on the content
in which the codec cannot write anywhere.  Both sweeps add the same number `n` to
their count, a C++ `int`: each ends with its initial count plus `n`, exactly when
those sums do not exceed `INT_MAX` and reduced to 32 bits in any case. -/
theorem sweep_static_idempotent (p : Ver4BigramListPolicy) (c c' : BigramDictContent)
    (T cnt cnt' cnt2 : Int) (es : List BigramEntry) (fuel : Nat) (hl : HasList c T es)
    (hs : p.mNeedsToDecayWhenUpdating = false) (hcnt : IsInt32 cnt) (hcnt2 : IsInt32 cnt2)
    (h1 : p.updateAllBigramEntriesAndDeleteUselessEntries fuel c T cnt = some (true, cnt', c'))
    (fuel2 : Nat) (hf : es.length ≤ fuel2) :
    ∃ n : Int, 0 ≤ n ∧ cnt' = wrapInt32 (cnt + n) ∧
      p.updateAllBigramEntriesAndDeleteUselessEntries fuel2 c' T cnt2 =
        some (true, wrapInt32 (cnt2 + n), c') ∧
      p.updateAllBigramEntriesAndDeleteUselessEntries fuel2
          { c' with writable := fun _ => false } T cnt2 =
        some (true, wrapInt32 (cnt2 + n), { c' with writable := fun _ => false }) ∧
      (cnt + n ≤ 2147483647 → cnt2 + n ≤ 2147483647 →
        cnt' = cnt + n ∧ wrapInt32 (cnt2 + n) = cnt2 + n) := by
  obtain ⟨_, ⟨hne, hc, hlk⟩, hcnt', _⟩ := sweep_success p fuel c c' T cnt cnt' es hl h1
  have hn : ∀ e ∈ es.map p.sweptEntry, p.sweepWrites e = false := by
    intro e he
    obtain ⟨e0, _, rfl⟩ := List.mem_map.1 he
    exact sweepWrites_sweptEntry_static p e0 hs
  have hf' : (es.map p.sweptEntry).length ≤ fuel2 := by simpa using hf
  refine ⟨liveCount (es.map p.sweptEntry), liveCount_nonneg _, hcnt' hcnt, ?_, ?_, ?_⟩
  · simp only [Ver4BigramListPolicy.updateAllBigramEntriesAndDeleteUselessEntries,
      BigramDictContent.getBigramListHeadPos, if_neg hne]
    exact updateAllLoop_noWrite p _ _ fuel2 c' cnt2 hc hlk hn hf' hcnt2
  · simp only [Ver4BigramListPolicy.updateAllBigramEntriesAndDeleteUselessEntries,
      BigramDictContent.getBigramListHeadPos, if_neg hne]
    exact updateAllLoop_noWrite p _ _ fuel2 { c' with writable := fun _ => false } cnt2 hc hlk hn
      hf' hcnt2
  · intro h1 h2
    rw [hcnt' hcnt]
    exact ⟨wrapInt32_add_nonneg hcnt (liveCount_nonneg _) h1,
      wrapInt32_add_nonneg hcnt2 (liveCount_nonneg _) h2⟩

theorem sweep_static_idempotent_witness :
    HasList exampleContent 5 exampleList ∧ IsInt32 10 ∧ IsInt32 20 ∧
    (((examplePolicy false).updateAllBigramEntriesAndDeleteUselessEntries 3 exampleContent 5
        2147483647).bind (fun r =>
      ((examplePolicy false).updateAllBigramEntriesAndDeleteUselessEntries 3 r.2.2 5
        2147483647).map (fun r2 => (r.2.1, r2.2.1)))) = some (-2147483648, -2147483648) ∧
    ∃ c', (examplePolicy false).updateAllBigramEntriesAndDeleteUselessEntries 3 exampleContent 5 10
        = some (true, 11, c') ∧
      ∃ n : Int, 0 ≤ n ∧ (11 : Int) = wrapInt32 (10 + n) ∧
        (examplePolicy false).updateAllBigramEntriesAndDeleteUselessEntries 3 c' 5 20 =
          some (true, wrapInt32 (20 + n), c') ∧
        (examplePolicy false).updateAllBigramEntriesAndDeleteUselessEntries 3
            { c' with writable := fun _ => false } 5 20 =
          some (true, wrapInt32 (20 + n), { c' with writable := fun _ => false }) ∧
        (10 + n ≤ 2147483647 → 20 + n ≤ 2147483647 →
          (11 : Int) = 10 + n ∧ wrapInt32 (20 + n) = 20 + n) :=
  ⟨exampleContent_hasList, by decide, by decide, rfl, _, rfl,
    sweep_static_idempotent (examplePolicy false) exampleContent _ 5 10 11 20 exampleList 3
      exampleContent_hasList rfl (by decide) (by decide) rfl 3 (by decide)⟩

/-- C20: `addNewEntry` can return false with `*outAddedNewEntry = true`.  It does on
`unwritableSlot`, where the slot selected for target 11 is a tombstone and the write
into it fails, and on `unwritableCopy`, where the list is grown, the new head is
written and `copyBigramList` fails.  In general it does whenever the selected slot is a
tombstone and the codec cannot write there, and whenever there is no slot, the
allocation and the write of the new head succeed and `copyBigramList` returns false.
When the call has to allocate a list (no head, or no slot) and the allocation fails or
the first write into the fresh region (at the former tail) fails, it returns false with
the flag false. -/
theorem addNewEntry_failure_flag :
    (∃ c', (examplePolicy false).getEntryPosToUpdate 3 unwritableSlot 11 (unwritableSlot.heads 5)
        = some 1 ∧
      (unwritableSlot.entries 1).targetTerminalId = NOT_A_TERMINAL_ID ∧
      unwritableSlot.writable 1 = false ∧
      (examplePolicy false).addNewEntry 3 unwritableSlot 5 11 10 = some (false, true, c')) ∧
    (∃ c', (examplePolicy false).getEntryPosToUpdate 2 unwritableCopy 11 (unwritableCopy.heads 5)
        = some NOT_A_DICT_POS ∧
      unwritableCopy.creatable 5 = true ∧ unwritableCopy.writable unwritableCopy.tail = true ∧
      unwritableCopy.writable (unwritableCopy.tail + 1) = false ∧
      (examplePolicy false).addNewEntry 2 unwritableCopy 5 11 10 = some (false, true, c')) ∧
    (∀ (p : Ver4BigramListPolicy) (fuel : Nat) (c : BigramDictContent) (T X P pos : Int),
      c.heads T ≠ NOT_A_DICT_POS → p.getEntryPosToUpdate fuel c X (c.heads T) = some pos →
      pos ≠ NOT_A_DICT_POS → (c.entries pos).targetTerminalId = NOT_A_TERMINAL_ID →
      c.writable pos = false → p.addNewEntry fuel c T X P = some (false, true, c)) ∧
    (∀ (p : Ver4BigramListPolicy) (fuel : Nat) (c c2 : BigramDictContent) (T X P : Int),
      c.heads T ≠ NOT_A_DICT_POS →
      p.getEntryPosToUpdate fuel c X (c.heads T) = some NOT_A_DICT_POS →
      c.creatable T = true → c.writable c.tail = true →
      BigramDictContent.copyBigramList fuel
        ((c.createNewBigramList T).2.writeBigramEntry
          (p.getUpdatedProbability NOT_A_PROBABILITY P) true X c.tail).2
        (c.heads T) ((c.tail : Int) + 1) = some (false, c2) →
      p.addNewEntry fuel c T X P = some (false, true, c2)) ∧
    (∀ (p : Ver4BigramListPolicy) (fuel : Nat) (c : BigramDictContent) (T X P : Int),
      (c.heads T = NOT_A_DICT_POS ∨
        p.getEntryPosToUpdate fuel c X (c.heads T) = some NOT_A_DICT_POS) →
      (c.creatable T = false ∨ c.writable c.tail = false) →
      ∃ c', p.addNewEntry fuel c T X P = some (false, false, c')) := by
  refine ⟨⟨_, rfl, rfl, rfl, rfl⟩, ⟨_, rfl, rfl, rfl, rfl, rfl⟩, ?_, ?_, ?_⟩
  · intro p fuel c T X P pos hh hg hpos ht hw
    rw [addNewEntry_hasList p fuel c T X P hh, hg]
    simp [hpos, ht, hw, BigramDictContent.writeBigramEntry]
  · intro p fuel c c2 T X P hh hg hc hw hcp
    rw [addNewEntry_hasList p fuel c T X P hh, hg]
    simp only [BigramDictContent.createNewBigramList, BigramDictContent.writeBigramEntry, hc, hw,
      if_true] at hcp
    simp only [ne_eq, not_true_eq_false, if_false, hc, hw, if_true, hcp]
  · intro p fuel c T X P hreach hfail
    by_cases hh : c.heads T = NOT_A_DICT_POS
    · rw [addNewEntry_noList p fuel c T X P hh]
      by_cases h1 : c.creatable T = true
      · rcases hfail with h | h
        · rw [h1] at h; cases h
        · rw [if_pos h1, if_neg (by simp [h])]
          exact ⟨_, rfl⟩
      · rw [if_neg h1]
        exact ⟨_, rfl⟩
    · rcases hreach with h | hg
      · exact absurd h hh
      · rw [addNewEntry_hasList p fuel c T X P hh, hg]
        simp only [ne_eq, not_true_eq_false, if_false]
        by_cases h1 : c.creatable T = true
        · rcases hfail with h | h
          · rw [h1] at h; cases h
          · rw [if_pos h1, if_neg (by simp [h])]
            exact ⟨_, rfl⟩
        · rw [if_neg h1]
          exact ⟨_, rfl⟩

theorem addNewEntry_failure_flag_witness :
    (unwritableSlot.heads 5 ≠ NOT_A_DICT_POS ∧
      (examplePolicy true).addNewEntry 3 unwritableSlot 5 11 10 =
        some (false, true, unwritableSlot)) ∧
    (uncreatable.heads 5 = NOT_A_DICT_POS ∧ uncreatable.creatable 5 = false ∧
      ∃ c', (examplePolicy true).addNewEntry 0 uncreatable 5 9 80 = some (false, false, c')) :=
  ⟨⟨by decide, addNewEntry_failure_flag.2.2.1 (examplePolicy true) 3 unwritableSlot 5 11 10 1
      (by decide) rfl (by decide) rfl rfl⟩,
    ⟨rfl, rfl, addNewEntry_failure_flag.2.2.2.2 (examplePolicy true) 0 uncreatable 5 9 80
      (Or.inl rfl) (Or.inl rfl)⟩⟩

theorem exampleContent_wellFormed : WellFormedStore exampleContent := by
  intro t ht
  by_cases h5 : t = 5
  · subst h5; exact ⟨exampleList, exampleContent_hasList⟩
  · exact absurd (by simp [exampleContent, h5]) ht

/-- C14: if every terminal that has a list head has a well-formed list (a non-empty
finite chain, hasNext true on every entry but the last), then so it is after every
`addNewEntry`, `removeEntry` and sweep that returns true: an in-place rewrite writes
back the hasNext it read, and a new or grown list is a chain written at the tail.  The
three operations return when given enough fuel (for `addNewEntry`, when the list lies
inside the written region). -/
theorem wellFormedStore_preserved (p : Ver4BigramListPolicy) (c : BigramDictContent)
    (T X P cnt : Int) (hwf : WellFormedStore c) :
    (∀ fuel flag c', p.addNewEntry fuel c T X P = some (true, flag, c') →
      WellFormedStore c') ∧
    (∀ fuel c', p.removeEntry fuel c T X = some (true, c') → WellFormedStore c') ∧
    (∀ fuel cnt' c',
      p.updateAllBigramEntriesAndDeleteUselessEntries fuel c T cnt = some (true, cnt', c') →
      WellFormedStore c') ∧
    ∀ es, (c.heads T ≠ NOT_A_DICT_POS → HasList c T es) → ∀ fuel, es.length ≤ fuel →
      (p.removeEntry fuel c T X).isSome = true ∧
      (p.updateAllBigramEntriesAndDeleteUselessEntries fuel c T cnt).isSome = true ∧
      ((c.heads T ≠ NOT_A_DICT_POS → InRegion c T es) →
        (p.addNewEntry fuel c T X P).isSome = true) := by
  refine ⟨fun fuel flag c' h => wellFormed_addNewEntry p fuel c c' T X P flag hwf h,
    fun fuel c' h => wellFormed_removeEntry p fuel c c' T X hwf h,
    fun fuel cnt' c' h => wellFormed_sweep p fuel c c' T cnt cnt' hwf h, ?_⟩
  intro es hes fuel hf
  refine ⟨?_, sweep_total p fuel c T cnt es hes hf, ?_⟩
  · by_cases hh : c.heads T = NOT_A_DICT_POS
    · simp [Ver4BigramListPolicy.removeEntry, BigramDictContent.getBigramListHeadPos, hh]
    · obtain ⟨_, hc, hlk⟩ := hes hh
      rw [removeEntry_hasList p fuel c T X hh]
      rcases slot_cases X es with ⟨l, x, r, rfl, hs⟩ | ⟨hno, hlive⟩
      · rw [getEntryPosToUpdate_slot p c X _ l x r fuel hc hlk hs hf]
        simp only
        split_ifs <;> rfl
      · rw [getEntryPosToUpdate_absent p c X _ es fuel hc hlk hno hlive hf]
        simp
  · intro hr
    by_cases hh : c.heads T = NOT_A_DICT_POS
    · rw [addNewEntry_noList p fuel c T X P hh]
      split_ifs <;> rfl
    · exact addNewEntry_total p fuel c T X P es (hes hh) (hr hh) hf

theorem wellFormedStore_preserved_witness :
    WellFormedStore exampleContent ∧
    (∃ c', (examplePolicy true).addNewEntry 3 exampleContent 5 11 10 = some (true, true, c') ∧
      WellFormedStore c') ∧
    (∃ c', (examplePolicy true).addNewEntry 3 exampleContent 6 11 10 = some (true, true, c') ∧
      WellFormedStore c') ∧
    (∃ c', (examplePolicy true).removeEntry 3 exampleContent 5 9 = some (true, c') ∧
      WellFormedStore c') ∧
    (∃ c', (examplePolicy true).updateAllBigramEntriesAndDeleteUselessEntries 3 exampleContent 5 0
        = some (true, 1, c') ∧ WellFormedStore c') :=
  ⟨exampleContent_wellFormed,
    ⟨_, rfl, (wellFormedStore_preserved (examplePolicy true) exampleContent 5 11 10 0
      exampleContent_wellFormed).1 3 true _ rfl⟩,
    ⟨_, rfl, (wellFormedStore_preserved (examplePolicy true) exampleContent 6 11 10 0
      exampleContent_wellFormed).1 3 true _ rfl⟩,
    ⟨_, rfl, (wellFormedStore_preserved (examplePolicy true) exampleContent 5 9 10 0
      exampleContent_wellFormed).2.1 3 _ rfl⟩,
    ⟨_, rfl, (wellFormedStore_preserved (examplePolicy true) exampleContent 5 11 10 0
      exampleContent_wellFormed).2.2.1 3 1 _ rfl⟩⟩

/-- C13, amended: with decay enabled, a successful `addNewEntry(T, X, P)` that creates
the list of `T`, or that grows it because it holds neither an entry with target `X` nor
a tombstone, writes `getUpdatedEncodedProbability(NOT_A_PROBABILITY, P)` in the new
head entry; one that reuses a tombstone `x` (the list holding no entry with target `X`,
`x` its last tombstone) writes `getUpdatedEncodedProbability(probability of x, P)` in
its slot: the probability left in the slot is the prior passed on.  The call returns
when given enough fuel. -/
theorem addNewEntry_prior_passed (p : Ver4BigramListPolicy) (c : BigramDictContent)
    (T X P : Int) (es : List BigramEntry) (hdecay : p.mNeedsToDecayWhenUpdating = true)
    (hwf : c.heads T ≠ NOT_A_DICT_POS → HasList c T es ∧ InRegion c T es) :
    (∀ fuel, es.length ≤ fuel → (p.addNewEntry fuel c T X P).isSome = true) ∧
    ∀ fuel flag c', p.addNewEntry fuel c T X P = some (true, flag, c') →
      (c.heads T = NOT_A_DICT_POS →
        c'.entries (c'.heads T) =
          ⟨p.getUpdatedEncodedProbability NOT_A_PROBABILITY P, false, X⟩) ∧
      (c.heads T ≠ NOT_A_DICT_POS → (∀ e ∈ es, e.targetTerminalId ≠ X) →
        ((∀ e ∈ es, e.IsLive) →
          c'.entries (c'.heads T) =
            ⟨p.getUpdatedEncodedProbability NOT_A_PROBABILITY P, true, X⟩) ∧
        (∀ l x r, es = l ++ x :: r → x.targetTerminalId = NOT_A_TERMINAL_ID →
          (∀ e ∈ r, e.IsLive) →
          c'.heads T = c.heads T ∧
          c'.entries (c.heads T + l.length) =
            ⟨p.getUpdatedEncodedProbability x.probability P, x.hasNext, X⟩)) := by
  have hmerge : ∀ prior, p.getUpdatedProbability prior P =
      p.getUpdatedEncodedProbability prior P := by
    intro prior
    simp [Ver4BigramListPolicy.getUpdatedProbability, hdecay]
  constructor
  · intro fuel hf
    by_cases hh : c.heads T = NOT_A_DICT_POS
    · rw [addNewEntry_noList p fuel c T X P hh]
      split_ifs <;> rfl
    · exact addNewEntry_total p fuel c T X P es (hwf hh).1 (hwf hh).2 hf
  · intro fuel flag c' h
    constructor
    · intro hh
      rw [addNewEntry_noList p fuel c T X P hh] at h
      by_cases h1 : c.creatable T = true
      · by_cases h2 : c.writable c.tail = true
        · simp only [h1, h2, if_true, Option.some.injEq, Prod.mk.injEq, true_and] at h
          obtain ⟨_, hc'⟩ := h
          subst hc'
          show Function.update c.entries c.tail _ (Function.update c.heads T c.tail T) = _
          rw [Function.update_same, Function.update_same, hmerge]
        · simp [h1, h2] at h
      · simp [h1] at h
    · intro hh hno
      obtain ⟨hl, hr⟩ := hwf hh
      constructor
      · intro hlive
        rcases addNewEntry_success_cases p fuel c c' T X P flag es hl hr h with
          ⟨l, x, r, rfl, hs, _⟩ | ⟨_, _, _, hheads, hc, _⟩
        · rcases hs with ⟨hx, _⟩ | ⟨hx, _⟩
          · exact absurd hx (hno x (by simp))
          · exact absurd hx (hlive x (by simp))
        · have hhead : c'.heads T = c.tail := by rw [hheads]; exact Function.update_same _ _ _
          rw [hhead, hc.1, hmerge]
      · intro l x r hes hx hrlive
        subst hes
        have h' := addNewEntry_mono p fuel (max fuel (l ++ x :: r).length) c T X P _
          (le_max_left _ _) h
        rw [addNewEntry_inPlace p _ c T X P l x r hl hr.1 (Or.inr ⟨hx, hno, hrlive⟩)
          (le_max_right _ _)] at h'
        by_cases hw : c.writable (c.heads T + l.length) = true
        · simp only [BigramDictContent.writeBigramEntry, hw, if_true, Option.some.injEq,
            Prod.mk.injEq, true_and] at h'
          obtain ⟨_, hc'⟩ := h'
          subst hc'
          refine ⟨rfl, ?_⟩
          simp only [Function.update_same, hmerge]
        · simp [BigramDictContent.writeBigramEntry, hw] at h'

theorem addNewEntry_prior_passed_witness :
    (examplePolicy true).mNeedsToDecayWhenUpdating = true ∧
    (HasList exampleContent 5 exampleList ∧ InRegion exampleContent 5 exampleList) ∧
    ∃ c', (examplePolicy true).addNewEntry 3 exampleContent 5 11 10 = some (true, true, c') ∧
      c'.heads 5 = exampleContent.heads 5 ∧
      c'.entries (exampleContent.heads 5 + ([⟨80, true, 9⟩] : List BigramEntry).length) =
        ⟨(examplePolicy true).getUpdatedEncodedProbability 30 10, true, 11⟩ :=
  ⟨rfl, ⟨exampleContent_hasList, exampleContent_inRegion⟩, _, rfl,
    ((((addNewEntry_prior_passed (examplePolicy true) exampleContent 5 11 10 exampleList rfl
      (fun _ => ⟨exampleContent_hasList, exampleContent_inRegion⟩)).2 3 true _ rfl).2
      (by decide) (by decide)).2 [⟨80, true, 9⟩] ⟨30, true, NOT_A_TERMINAL_ID⟩ [⟨1, false, 7⟩]
      rfl rfl (by decide))⟩

end latinime
